import Mathlib

/-!
# ChartBase: chart storage, item pool, outside pass and guide constraints

A shallow embedding of `first-stage/PARSE/ChartBase.C` and theorems about it.

Modelling conventions.

* `double` values are exact rationals (`ℚ`) and arithmetic on them is exact; a
  floating-point literal stands for the exact value of the `double` it
  denotes, so the `.95` of the convergence test is `alphaRatio`, not `19/20`.
  Lean's `x / 0 = 0` differs from IEEE division: a theorem below either keeps
  the divisor nonzero or holds whatever value the quotient has, and every
  division in the concrete examples is by 1.
* `int` values are `Int`; the only narrowing in the file, the store of an `int`
  into a `vector<short>`, is the explicit wrap `toShort`.
* `Item*` pointers held by the chart are addresses (`Nat`) into a heap
  `Nat → Item`; `Term*` pointers are compared as `Term` values, the registry
  keeping one object per category.
* Arrays (`regs`, `guide`, the per-thread statics) are total functions of their
  indices.
* A `while` loop whose exit depends on the data takes a fuel argument, the
  largest number of passes it may run.
-/

namespace ChartBase

/-! ## Collaborator types (declared in headers outside this file) -/

/-- Grammar category (`Term`): display name, integer id and the flags read here. -/
structure Term where
  name : String
  toInt : Int
  isRoot : Bool
  isS : Bool
deriving DecidableEq, Repr

/-- The `Term` statics read by `ChartBase.C`: the two punctuation sets,
the designated root term and lookup by name (`none` is the null pointer). -/
structure TermEnv where
  Colons : List String
  Finals : List String
  rootTerm : Term
  get : String → Option Term

/-- One rule application (`Edge`), with the accessors read here. -/
structure Edge where
  start : Int
  loc : Int
  lhs : Term
  prob : ℚ
  finishedParent : Option Nat
deriving DecidableEq

/-- Chart entry (`Item`). `needme` is the list walked by `NeedmeIter`. -/
structure Item where
  term : Term
  start : Int
  finish : Int
  prob : ℚ
  poutside : ℚ
  needme : List Edge
deriving DecidableEq

/-- Memory holding the items the chart points to. -/
abbrev Heap := Nat → Item

/-- The assignment `itm->poutside() = v`. -/
def setPoutside (h : Heap) (itm : Nat) (v : ℚ) : Heap :=
  fun x => if x = itm then { h x with poutside := v } else h x

/-- Reference parse tree (`InputTree*`): `null` is the null pointer. -/
inductive InputTree where
  | null : InputTree
  | node (term : String) (start finish : Int) (subTrees : List InputTree) : InputTree

/-- The `guide` member: per span, the `vector<short>` of permitted ids. -/
abbrev Guide := Int → Int → List Int

end ChartBase

/-- The members of a `ChartBase` object read or written in this file. -/
structure ChartBase where
  thrdid : Int
  sentence_ : List String
  wrd_count_ : Int
  endPos : Int
  regs : Int → Int → List Nat
  guide : ChartBase.Guide

namespace ChartBase

/-! ## finalPunc and the constructor -/

/-- Source `finalPunc`: the word is in `Term::Colons` or in `Term::Finals`. -/
def finalPunc (env : TermEnv) (wrd : String) : Bool :=
  env.Colons.any (fun ei => wrd = ei) || env.Finals.any (fun ei => wrd = ei)

/-- Token access `sentence_[k].lexeme()`; the empty string stands for a read
outside `0 .. length-1`. -/
def lexeme (sentence : List String) (k : Int) : String :=
  if 0 ≤ k then sentence.getD k.toNat "" else ""

/-- The `endPos` computation of the constructor, together with the list of
token indices it reads, in order. -/
def computeEndPos (env : TermEnv) (sentence : List String) : Int × List Int :=
  let wrd_count_ : Int := sentence.length
  if 0 < wrd_count_ ∧ finalPunc env (lexeme sentence (wrd_count_ - 1)) then
    (wrd_count_ - 1, [wrd_count_ - 1])
  else
    let reads : List Int := if 0 < wrd_count_ then [wrd_count_ - 1] else []
    if 2 < wrd_count_ then
      if finalPunc env (lexeme sentence (wrd_count_ - 2)) then
        (wrd_count_ - 2, reads ++ [wrd_count_ - 2])
      else if finalPunc env (lexeme sentence (wrd_count_ - 3)) then
        (wrd_count_ - 3, reads ++ [wrd_count_ - 2, wrd_count_ - 3])
      else (wrd_count_, reads ++ [wrd_count_ - 2, wrd_count_ - 3])
    else (wrd_count_, reads)

/-! ## The per-thread item pool -/

/-- The three static per-thread arrays. -/
structure Pool where
  numItemsToDelete : Int → Int
  itemsToDelete : Int → List Item
  itemsToDeletesize : Int → Int

/-- Modelled from the spec: `Item::set(trm, start)` (defined in `Item.C`, which
is not part of the sources here) binds the item to the category and assigns
the start position ("reset (category + position assigned) at reuse time"). -/
def Item.set (itm : Item) (trm : Term) (start : Int) : Item :=
  { itm with term := trm, start := start }

/-- The constructor call `new Item(trm, 0, 0)`: a fresh item with the given
category and positions, no edges and zero probabilities. -/
def Item.new (trm : Term) (start finish : Int) : Item :=
  { term := trm, start := start, finish := finish, prob := 0, poutside := 0, needme := [] }

/-- The pool effect of the constructor: `numItemsToDelete[id] = 0`. -/
def Pool.resetFor (p : Pool) (id : Int) : Pool :=
  { p with numItemsToDelete := fun t => if t = id then 0 else p.numItemsToDelete t }

/-- Source constructor `ChartBase(sentence, id)`: the new object (empty buckets
and guide) and the pool after the reset of the next-free counter. -/
def construct (env : TermEnv) (sentence : List String) (id : Int) (p : Pool) :
    ChartBase × Pool :=
  ({ thrdid := id
     sentence_ := sentence
     wrd_count_ := sentence.length
     endPos := (computeEndPos env sentence).1
     regs := fun _ _ => []
     guide := fun _ _ => [] },
   p.resetFor id)

/-- Source `addtochart`: returns the slot index handed out (the pointer
`itemsToDelete[thrdid][k]`) and the new pool; `none` is an access outside the
vector. -/
def addtochart (thrdid : Int) (trm : Term) (p : Pool) : Option (Nat × Pool) :=
  let p1 : Pool :=
    if p.numItemsToDelete thrdid ≥ p.itemsToDeletesize thrdid then
      { p with
        itemsToDelete := fun t =>
          if t = thrdid then p.itemsToDelete t ++ [Item.new trm 0 0] else p.itemsToDelete t
        itemsToDeletesize := fun t =>
          if t = thrdid then p.itemsToDeletesize t + 1 else p.itemsToDeletesize t }
    else p
  let k := p1.numItemsToDelete thrdid
  if 0 ≤ k ∧ k.toNat < (p1.itemsToDelete thrdid).length then
    let ans := ((p1.itemsToDelete thrdid).getD k.toNat (Item.new trm 0 0)).set trm 0
    some (k.toNat,
      { p1 with
        numItemsToDelete := fun t => if t = thrdid then k + 1 else p1.numItemsToDelete t
        itemsToDelete := fun t =>
          if t = thrdid then (p1.itemsToDelete t).set k.toNat ans else p1.itemsToDelete t })
  else none

/-- A sequence of `addtochart` calls on one thread, one per category of the
list; returns the slots handed out, in call order. -/
def addtochartMany (thrdid : Int) : List Term → Pool → Option (List Nat × Pool)
  | [], p => some ([], p)
  | trm :: rest, p =>
    match addtochart thrdid trm p with
    | none => none
    | some (k, p1) =>
      match addtochartMany thrdid rest p1 with
      | none => none
      | some (ks, p2) => some (k :: ks, p2)

/-! ## The outside pass -/

/-- Source `get_S`: the first entry of `regs[wrd_count_-1][0]` whose term is
`Term::rootTerm`, or `none` for the null pointer. (For an empty sentence the
source indexes `regs[-1]`; here that is the bucket `c.regs (-1) 0`.) -/
def get_S (env : TermEnv) (c : ChartBase) (h : Heap) : Option Nat :=
  (c.regs (c.wrd_count_ - 1) 0).find? (fun itm => decide ((h itm).term = env.rootTerm))

/-- The ways a run of `set_Alphas` stops without returning: the failed
`assert(tempPos < 400)`, `error("Alpha went down")`, `error("Funnly situation
in setAlphas")`, and, for the model only, a bucket loop that used up its fuel. -/
inductive Fatal where
  | capacity
  | alphaWentDown
  | funny
  | outOfFuel
deriving DecidableEq, Repr

/-- Result of `set_Alphas`: the early return after the warning, a completed
pass (with, for each bucket in processing order, the number of passes its
loop ran), or a fatal stop. -/
inductive Outcome where
  | warned (h : Heap)
  | done (h : Heap) (passes : List Nat)
  | fatal (f : Fatal)

/-- The literal `.95` of the convergence test `oOutside/nOutside < .95`: the
`double` nearest to 0.95, `0x1.e666666666666p-1`, whose exact value is
`4278419646001971 / 2^52` (just below 19/20). -/
def alphaRatio : ℚ := 4278419646001971 / 4503599627370496

/-- Capacity of the working buffer `tempAlpha`. -/
def tempAlphaSize : Nat := 400

/-- The first loop over a bucket: `if(itm != snode) itm->poutside() = 0`. -/
def initBucket (snode : Nat) : List Nat → Heap → Heap
  | [], h => h
  | itm :: il, h => initBucket snode il (if itm ≠ snode then setPoutside h itm 0 else h)

/-- The `NeedmeIter` loop: adds `lhsItem->poutside() * e->prob()` for every
needing edge with a finished parent. -/
def itmalphaSum (h : Heap) : List Edge → ℚ → ℚ
  | [], itmalpha => itmalpha
  | e :: es, itmalpha =>
    match e.finishedParent with
    | some lhsItem => itmalphaSum h es (itmalpha + (h lhsItem).poutside * e.prob)
    | none => itmalphaSum h es itmalpha

/-- The candidate loop of one pass: fills `tempAlpha` (here the list built so
far, `tempPos` being its length); `none` is the failed assertion. -/
def candidates (snode : Nat) (h : Heap) : List Nat → List ℚ → Option (List ℚ)
  | [], tempAlpha => some tempAlpha
  | itm :: il, tempAlpha =>
    if itm = snode then candidates snode h il tempAlpha
    else if tempAlpha.length < tempAlphaSize then
      candidates snode h il
        (tempAlpha ++ [itmalphaSum h (h itm).needme 0 / (h itm).prob])
    else none

/-- The update loop of one pass. `top` is the test `i == 0 && j == wrd_count_-1`.
Returns the heap, the flag `valuesChanging` and the counter `temppos`. -/
def applyAlphas (snode : Nat) (sAlpha : ℚ) (top : Bool) (tempAlpha : List ℚ) :
    List Nat → Heap → Bool → Nat → Except Fatal (Heap × Bool × Nat)
  | [], h, valuesChanging, temppos => .ok (h, valuesChanging, temppos)
  | itm :: il, h, valuesChanging, temppos =>
    if itm = snode then applyAlphas snode sAlpha top tempAlpha il h valuesChanging temppos
    else if top && (h itm).term.isRoot then
      applyAlphas snode sAlpha top tempAlpha il (setPoutside h itm sAlpha)
        valuesChanging (temppos + 1)
    else
      let oOutside := (h itm).poutside
      let nOutside := tempAlpha.getD temppos 0
      if nOutside = 0 then
        if oOutside ≠ 0 then .error Fatal.alphaWentDown
        else applyAlphas snode sAlpha top tempAlpha il h valuesChanging (temppos + 1)
      else if oOutside / nOutside < alphaRatio then
        applyAlphas snode sAlpha top tempAlpha il (setPoutside h itm nOutside)
          true (temppos + 1)
      else applyAlphas snode sAlpha top tempAlpha il h valuesChanging (temppos + 1)

/-- One pass of the `while(valuesChanging)` body over the bucket copy `il`. -/
def alphaPass (snode : Nat) (sAlpha : ℚ) (top : Bool) (il : List Nat) (h : Heap) :
    Except Fatal (Heap × Bool) :=
  match candidates snode h il [] with
  | none => .error Fatal.capacity
  | some tempAlpha =>
    match applyAlphas snode sAlpha top tempAlpha il h false 0 with
    | .error f => .error f
    | .ok (h1, valuesChanging, temppos) =>
      if temppos ≠ tempAlpha.length then .error Fatal.funny
      else .ok (h1, valuesChanging)

/-- The loop `while(valuesChanging)`: at most `fuel` passes; returns the heap
and the number of passes run (counted from `n`). -/
def alphaLoop (snode : Nat) (sAlpha : ℚ) (top : Bool) (il : List Nat) :
    Nat → Heap → Nat → Except Fatal (Heap × Nat)
  | 0, _, _ => .error Fatal.outOfFuel
  | fuel + 1, h, n =>
    match alphaPass snode sAlpha top il h with
    | .error f => .error f
    | .ok (h1, true) => alphaLoop snode sAlpha top il fuel h1 (n + 1)
    | .ok (h1, false) => .ok (h1, n + 1)

/-- The body of the two `for` loops for one bucket `regs[j][i]`. -/
def processBucket (c : ChartBase) (snode : Nat) (sAlpha : ℚ) (fuel : Nat)
    (j i : Int) (h : Heap) : Except Fatal (Heap × Nat) :=
  let il := c.regs j i
  alphaLoop snode sAlpha (decide (i = 0) && decide (j = c.wrd_count_ - 1)) il fuel
    (initBucket snode il h) 0

/-- The values of `j` in loop order: `wrd_count_-1` down to `0`. -/
def jRange (wrd_count_ : Int) : List Int :=
  ((List.range wrd_count_.toNat).map (fun n : Nat => (n : Int))).reverse

/-- The values of `i` for a given `j`, in loop order: `0` up to `wrd_count_-j`. -/
def iRange (wrd_count_ j : Int) : List Int :=
  (List.range (wrd_count_ - j + 1).toNat).map (fun n : Nat => (n : Int))

/-- The buckets `(j, i)` in the order the two `for` loops visit them. -/
def bucketOrder (wrd_count_ : Int) : List (Int × Int) :=
  (jRange wrd_count_).flatMap (fun j => (iRange wrd_count_ j).map (fun i => (j, i)))

/-- The two nested `for` loops, run over a list of buckets. -/
def runBuckets (c : ChartBase) (snode : Nat) (sAlpha : ℚ) (fuel : Nat) :
    List (Int × Int) → Heap → List Nat → Outcome
  | [], h, passes => .done h passes
  | (j, i) :: rest, h, passes =>
    match processBucket c snode sAlpha fuel j i h with
    | .error f => .fatal f
    | .ok (h1, n) => runBuckets c snode sAlpha fuel rest h1 (passes ++ [n])

/-- Source `set_Alphas`. -/
def set_Alphas (env : TermEnv) (fuel : Nat) (c : ChartBase) (h : Heap) : Outcome :=
  match get_S env c h with
  | none => .warned h
  | some snode =>
    if (h snode).prob = 0 then .warned h
    else
      let sAlpha := 1 / (h snode).prob
      runBuckets c snode sAlpha fuel (bucketOrder c.wrd_count_)
        (setPoutside h snode sAlpha) []

/-- The outside probability of an item after a run that returned. -/
def Outcome.poutside? : Outcome → Nat → Option ℚ
  | .warned h, x => some (h x).poutside
  | .done h _, x => some (h x).poutside
  | .fatal _, _ => none

/-! ## Guide constraints -/

/-- Conversion of an `int` to the `short` stored in the guide vectors. -/
def toShort (v : Int) : Int := (v + 32768) % 65536 - 32768

/-- The statement `guide[start][ed].push_back(term)`. -/
def pushGuide (g : Guide) (start ed term : Int) : Guide :=
  fun s e => if s = start ∧ e = ed then g s e ++ [toShort term] else g s e

/-- Source `addConstraint`. -/
def addConstraint (c : ChartBase) (start ed term : Int) : ChartBase :=
  { c with guide := pushGuide c.guide start ed term }

/-- The scan of `inGuide(int,int,int)` over one vector. -/
def inGuideScan (trm : Int) : List Int → Bool
  | [] => false
  | v :: vs => if v = trm then true else inGuideScan trm vs

/-- Source `inGuide(st, ed, trm)`. -/
def inGuide (c : ChartBase) (st ed trm : Int) : Bool :=
  inGuideScan trm (c.guide st ed)

mutual
/-- Source `setGuide` on the guide vectors; `none` is the dereference of the
null pointer returned by `Term::get` for an unknown name. -/
def setGuideAux (env : TermEnv) : InputTree → Guide → Option Guide
  | .null, g => some g
  | .node term start finish subTrees, g =>
    match env.get term with
    | none => none
    | some t => setGuideSubs env subTrees (pushGuide g start finish t.toInt)
/-- The loop of `setGuide` over `tree->subTrees()`. -/
def setGuideSubs (env : TermEnv) : List InputTree → Guide → Option Guide
  | [], g => some g
  | t :: ts, g =>
    match setGuideAux env t g with
    | none => none
    | some g1 => setGuideSubs env ts g1
end

/-- Source `setGuide(tree)` on the chart. -/
def setGuide (env : TermEnv) (c : ChartBase) (tree : InputTree) : Option ChartBase :=
  (setGuideAux env tree c.guide).map (fun g => { c with guide := g })

mutual
/-- The non-null nodes of a tree, root first: `(category name, start, finish)`. -/
def InputTree.nodes : InputTree → List (String × Int × Int)
  | .null => []
  | .node term start finish subTrees => (term, start, finish) :: InputTree.nodesList subTrees
/-- The nodes of a list of subtrees. -/
def InputTree.nodesList : List InputTree → List (String × Int × Int)
  | [] => []
  | t :: ts => InputTree.nodes t ++ InputTree.nodesList ts
end

/-! ## effEnd and endFactorComp -/

/-- The static tunables `ChartBase::endFactor` and `ChartBase::midFactor`. -/
structure Factors where
  endFactor : ℚ
  midFactor : ℚ

/-- The surface string of a closing double quote: two apostrophes. -/
def closeQuote : String := "\x27\x27"

/-- Source `effEnd(pos)`, together with the list of token indices it reads,
in order. The `bool ans` is returned as the `int` 1 or 0. -/
def effEnd (env : TermEnv) (c : ChartBase) (pos : Int) : Int × List Int :=
  if pos > c.endPos then (0, [])
  else if pos = c.endPos then (1, [])
  else
    let wrd := lexeme c.sentence_ pos
    if finalPunc env wrd then (1, [pos])
    else if pos > c.wrd_count_ - 3 then (0, [pos])
    else if wrd = "," then
      if lexeme c.sentence_ (pos + 1) = closeQuote then (1, [pos, pos + 1])
      else (0, [pos, pos + 1])
    else (0, [pos])

/-- Source `endFactorComp(dnrl)`; `none` is the dereference of the null
pointer returned by `Term::get` for an unknown name. The last branch returns
the literal `.95` narrowed to the `float` the function returns, whose exact
value is `15938355 / 2^24`. -/
def endFactorComp (env : TermEnv) (fs : Factors) (c : ChartBase) (dnrl : Edge) : Option ℚ :=
  let start := dnrl.start
  let finish := dnrl.loc
  let effVal := (effEnd env c finish).1
  match env.get dnrl.lhs.name with
  | none => none
  | some trm =>
    if (trm.isRoot || trm.isS) ∧ finish = c.wrd_count_ ∧ start = 0 then some fs.endFactor
    else if effVal = 1 then some fs.endFactor
    else if effVal = 0 then some fs.midFactor
    else some (15938355 / 16777216)

/-! ## Predicates and relations used to state the theorems -/

/-- Pool invariant for one thread: the size counter equals the vector length
`m` and the next-free counter `k` does not exceed it. -/
def Pool.WF (p : Pool) (t : Int) (k m : Nat) : Prop :=
  p.numItemsToDelete t = k ∧ (p.itemsToDelete t).length = m ∧ p.itemsToDeletesize t = m ∧ k ≤ m

/-- The claimed `endPos` rule, on the tokens listed last first: the last
token, then the second-to-last if there is one, then the third-to-last if
there is one; `wrd_count_` when none is final-class. -/
def endPosClaimed (env : TermEnv) (wrd_count_ : Int) : List String → Int
  | [] => wrd_count_
  | last :: before =>
    if finalPunc env last then wrd_count_ - 1
    else match before with
      | [] => wrd_count_
      | second :: before2 =>
        if finalPunc env second then wrd_count_ - 2
        else match before2 with
          | [] => wrd_count_
          | third :: _ =>
            if finalPunc env third then wrd_count_ - 3 else wrd_count_

/-- The `endPos` rule with the guard of the code, on the tokens listed last
first: the second-to-last and third-to-last tokens are consulted only when
the sentence has at least three tokens. -/
def endPosGuarded (env : TermEnv) (wrd_count_ : Int) : List String → Int
  | [] => wrd_count_
  | last :: before =>
    if finalPunc env last then wrd_count_ - 1
    else match before with
      | second :: third :: _ =>
        if finalPunc env second then wrd_count_ - 2
        else if finalPunc env third then wrd_count_ - 3
        else wrd_count_
      | _ => wrd_count_

/-- The effect of `setGuide` on a list of nodes visited in order: each node's
name is looked up and its id pushed on the vector of its span. -/
def recordNodes (env : TermEnv) : List (String × Int × Int) → Guide → Option Guide
  | [], g => some g
  | (nm, s, f) :: rest, g =>
    match env.get nm with
    | none => none
    | some t => recordNodes env rest (pushGuide g s f t.toInt)

/-- The pass counts of a run that completed the pass. -/
def Outcome.passes? : Outcome → Option (List Nat)
  | .done _ passes => some passes
  | _ => none

/-- The fatal condition a run ended in, if any. -/
def Outcome.fatal? : Outcome → Option Fatal
  | .fatal f => some f
  | _ => none

/-- Number of entries of a bucket other than the start item: the entries
that take a slot of `tempAlpha` in one pass. -/
def liveCount (snode : Nat) (il : List Nat) : Nat :=
  (il.filter (fun itm => decide (itm ≠ snode))).length

/-- The heap a run returned with, or `h` when it did not return. -/
def Outcome.heapOr (o : Outcome) (h : Heap) : Heap :=
  match o with
  | .warned h1 => h1
  | .done h1 _ => h1
  | .fatal _ => h

/-- Every finished parent of a needing edge of an item of a visited bucket
`b` lies in a visited bucket `b1` with `ok b b1`. -/
def parentsWithin (ok : Int × Int → Int × Int → Bool) (c : ChartBase) (h : Heap) : Bool :=
  (bucketOrder c.wrd_count_).all fun b =>
    (c.regs b.1 b.2).all fun itm =>
      (h itm).needme.all fun e =>
        match e.finishedParent with
        | none => true
        | some p =>
          (bucketOrder c.wrd_count_).any fun b1 =>
            decide (p ∈ c.regs b1.1 b1.2) && ok b b1

/-- Bucket `b1` has the same or a strictly greater span length than `b`. -/
def spanAbove (b b1 : Int × Int) : Bool := decide (b.1 ≤ b1.1)

/-- Bucket `b1` is `b` or is processed before it: strictly greater span
length, or the same span length and a start position not after it. -/
def notAfter (b b1 : Int × Int) : Bool :=
  decide (b.1 < b1.1) || (decide (b1.1 = b.1) && decide (b1.2 ≤ b.2))

/-- The fields of an item other than its outside probability. -/
def Item.static (itm : Item) : Item := { itm with poutside := 0 }

/-- Two heaps hold the same items up to outside probabilities. -/
def SameStatic (a b : Heap) : Prop := ∀ x, (a x).static = (b x).static

/-- Two heaps give the same outside probability to every item of `P`. -/
def AgreeOn (P : Nat → Prop) (a b : Heap) : Prop := ∀ x, P x → (a x).poutside = (b x).poutside

/-- Every finished parent of a needing edge of an entry of `il` other than
`snode` is in `P`. -/
def ParentsIn (P : Nat → Prop) (snode : Nat) (il : List Nat) (a : Heap) : Prop :=
  ∀ itm ∈ il, itm ≠ snode → ∀ e ∈ (a itm).needme, ∀ p, e.finishedParent = some p → P p

/-- Two results of a step agree: the same fatal condition, or values related by `R`. -/
def ExceptRel {α : Type} (R : α → α → Prop) : Except Fatal α → Except Fatal α → Prop
  | .error f, .error g => f = g
  | .ok x, .ok y => R x y
  | _, _ => False

/-- The relation kept by the update loop: same items up to outside
probabilities, agreement on `P`, same flag and same counter. -/
def ApplyRel (P : Nat → Prop) (x y : Heap × Bool × Nat) : Prop :=
  SameStatic x.1 y.1 ∧ AgreeOn P x.1 y.1 ∧ x.2.1 = y.2.1 ∧ x.2.2 = y.2.2

/-- The relation kept by a pass and by a bucket loop: same items up to
outside probabilities, agreement on `P`, same flag or pass count. -/
def StepRel {β : Type} (P : Nat → Prop) (x y : Heap × β) : Prop :=
  SameStatic x.1 y.1 ∧ AgreeOn P x.1 y.1 ∧ x.2 = y.2

/-- Two runs of the bucket loops agree: the same fatal condition, or both
complete with the same pass counts and heaps that hold the same items and
agree on `P`. -/
def OutcomeRel (P : Nat → Prop) : Outcome → Outcome → Prop
  | .fatal f, .fatal g => f = g
  | .done a ps, .done b qs => SameStatic a b ∧ AgreeOn P a b ∧ ps = qs
  | _, _ => False

/-- The parent condition along a list of buckets processed in order: the
finished parents of the entries of each bucket are in `P`, in that bucket or
in a bucket earlier in the list. -/
def ParentsChain (c : ChartBase) (snode : Nat) (a : Heap) :
    List (Int × Int) → (Nat → Prop) → Prop
  | [], _ => True
  | bk :: rest, P =>
    ParentsIn (fun y => P y ∨ y ∈ c.regs bk.1 bk.2) snode (c.regs bk.1 bk.2) a ∧
      ParentsChain c snode a rest (fun y => P y ∨ y ∈ c.regs bk.1 bk.2)

/-- Bucket `b1` is processed strictly before bucket `b2`. -/
def Before (b1 b2 : Int × Int) : Prop :=
  b2.1 < b1.1 ∨ (b1.1 = b2.1 ∧ b1.2 < b2.2)

/-- The value `val` the candidate loop stores for an entry: the accumulated
`itmalpha` divided by the entry's inside probability. -/
def candOf (h : Heap) (itm : Nat) : ℚ :=
  itmalphaSum h (h itm).needme 0 / (h itm).prob

/-- The sum, over the edges of a list that have a finished parent, of the
parent's outside probability times the edge probability. -/
def parentSum (h : Heap) (es : List Edge) : ℚ :=
  (es.filterMap (fun e => e.finishedParent.map (fun p => (h p).poutside * e.prob))).sum

/-- The entry is pinned: the bucket is the top bucket and the entry's
category is root. -/
def pinned (top : Bool) (h : Heap) (itm : Nat) : Bool :=
  top && (h itm).term.isRoot

/-- A non-pinned entry takes its candidate: the candidate, computed from the
heap `h0`, is nonzero and the previous value over the candidate is below the
source's `.95`. -/
def takes (top : Bool) (h0 : Heap) (itm : Nat) : Bool :=
  !pinned top h0 itm && decide (candOf h0 itm ≠ 0) &&
    decide ((h0 itm).poutside / candOf h0 itm < alphaRatio)

/-- The value an entry other than the start item holds after a pass that
started from the heap `h0`. -/
def passValue (sAlpha : ℚ) (top : Bool) (h0 : Heap) (itm : Nat) : ℚ :=
  if pinned top h0 itm then sAlpha
  else if candOf h0 itm ≠ 0 ∧ (h0 itm).poutside / candOf h0 itm < alphaRatio then candOf h0 itm
  else (h0 itm).poutside

/-- The candidate of a non-pinned entry is 0 while its previous value is
not: the condition of `error("Alpha went down")`. -/
def wentDown (top : Bool) (h0 : Heap) (itm : Nat) : Prop :=
  pinned top h0 itm = false ∧ candOf h0 itm = 0 ∧ (h0 itm).poutside ≠ 0

/-- The body of the update loop for one entry other than the start item,
given its slot `nOutside` of `tempAlpha`. -/
def applyEntry (sAlpha : ℚ) (top : Bool) (nOutside : ℚ) (itm : Nat) (h : Heap)
    (valuesChanging : Bool) : Except Fatal (Heap × Bool) :=
  if top && (h itm).term.isRoot then .ok (setPoutside h itm sAlpha, valuesChanging)
  else if nOutside = 0 then
    if (h itm).poutside ≠ 0 then .error Fatal.alphaWentDown else .ok (h, valuesChanging)
  else if (h itm).poutside / nOutside < alphaRatio then
    .ok (setPoutside h itm nOutside, true)
  else .ok (h, valuesChanging)

/-- What holds of the heap `h` and the flag `vc` while the update loop of a
pass that started from `h0` runs: the items are the same up to outside
probabilities, every item holds its value before the pass or its value after
it, and the flag is set once a non-pinned item has changed. -/
def PassInv (sAlpha : ℚ) (top : Bool) (h0 h : Heap) (vc : Bool) : Prop :=
  SameStatic h h0 ∧
  (∀ y, (h y).poutside = (h0 y).poutside ∨ (h y).poutside = passValue sAlpha top h0 y) ∧
  (∀ y, pinned top h0 y = false → (h y).poutside ≠ (h0 y).poutside → vc = true)

/-- The heap and flag a step returned, or `(h, false)` when it stopped fatally. -/
def stepResult {β : Type} [Inhabited β] (r : Except Fatal (Heap × β)) (h : Heap) : Heap × β :=
  match r with
  | .ok x => x
  | .error _ => (h, default)

/-- The step returned. -/
def stepOk {β : Type} (r : Except Fatal (Heap × β)) : Bool :=
  match r with
  | .ok _ => true
  | .error _ => false

/-- The heap the `while(valuesChanging)` loop holds after `n` passes that all
set the flag, when it gets that far: the state its next pass starts from. -/
def loopState (snode : Nat) (sAlpha : ℚ) (top : Bool) (il : List Nat) :
    Nat → Heap → Option Heap
  | 0, h => some h
  | n + 1, h =>
    match alphaPass snode sAlpha top il h with
    | .ok (h1, true) => loopState snode sAlpha top il n h1
    | _ => none

/-- What holds of the heap `a` at the start of every pass over a bucket that
was entered with the heap `h`, when probabilities are non-negative: only the
outside probabilities of entries other than the start item differ from `h`,
they are non-negative, a non-pinned entry is at most its candidate, and a
pinned entry is at most `sAlpha`. -/
def RisingInv (snode : Nat) (sAlpha : ℚ) (top : Bool) (il : List Nat) (h a : Heap) : Prop :=
  SameStatic a h ∧
  (∀ y, ¬ (y ∈ il ∧ y ≠ snode) → a y = h y) ∧
  (∀ y ∈ il, y ≠ snode → 0 ≤ (a y).poutside) ∧
  (∀ y ∈ il, y ≠ snode → pinned top h y = false → (a y).poutside ≤ candOf a y) ∧
  (∀ y ∈ il, y ≠ snode → pinned top h y = true → (a y).poutside ≤ sAlpha)

/-- The sign conditions on a bucket entered with the heap `h`: positive
inside probabilities, non-negative edge probabilities, and a non-negative
outside probability for every finished parent the loop does not reset. -/
def NonNegBucket (snode : Nat) (il : List Nat) (h : Heap) : Prop :=
  (∀ x ∈ il, 0 < (h x).prob) ∧
  (∀ x ∈ il, ∀ e ∈ (h x).needme, 0 ≤ e.prob) ∧
  (∀ x ∈ il, x ≠ snode → ∀ e ∈ (h x).needme, ∀ p, e.finishedParent = some p →
    ¬ (p ∈ il ∧ p ≠ snode) → 0 ≤ (h p).poutside)

/-- Consistency of spans: the well-formedness of a chart as the parsing driver
builds it (the code that fills `regs` and links edges is outside this file).
A bucket `regs[j][i]` holds items that start at `i` and span `j+1` tokens, as
the top bucket `regs[wrd_count_-1][0]` holds the items over the whole
sentence; the finished parent of a needing edge is the item the edge
produces, so it has the span of the edge, and that span contains the span of
the item the edge needs. -/
def spanOK (c : ChartBase) (h : Heap) : Bool :=
  (bucketOrder c.wrd_count_).all fun b =>
    (c.regs b.1 b.2).all fun itm =>
      decide ((h itm).start = b.2) && decide ((h itm).finish = b.2 + b.1 + 1) &&
      (h itm).needme.all fun e =>
        match e.finishedParent with
        | none => true
        | some p =>
          decide ((h p).start = e.start) && decide ((h p).finish = e.loc) &&
          decide (e.start ≤ (h itm).start) && decide ((h itm).finish ≤ e.loc)

/-! ## Example data -/

/-- A root category. -/
def exRoot : Term := { name := "S1", toInt := 0, isRoot := true, isS := false }

/-- A non-root category. -/
def exNP : Term := { name := "NP", toInt := 2, isRoot := false, isS := false }

/-- The category named `S`. -/
def exS : Term := { name := "S", toInt := 1, isRoot := false, isS := true }

/-- A registry with the three example categories. -/
def exEnv : TermEnv where
  Colons := [":", ";"]
  Finals := [".", "?", "!"]
  rootTerm := exRoot
  get := fun nm =>
    if nm = "S1" then some exRoot else if nm = "S" then some exS
    else if nm = "NP" then some exNP else none

/-- A one-token chart whose only bucket entry is item `0`. -/
def exChart1 : ChartBase where
  thrdid := 0
  sentence_ := ["go"]
  wrd_count_ := 1
  endPos := 1
  regs := fun j i => if j = 0 ∧ i = 0 then [0] else []
  guide := fun _ _ => []

/-- A heap in which every item is a root item of inside probability `p`. -/
def exHeapRoot (p : ℚ) : Heap := fun _ => Item.mk exRoot 0 1 p 7 []

/-- A heap in which every item has category `NP`. -/
def exHeapNP : Heap := fun _ => Item.mk exNP 0 1 1 7 []

/-- An empty pool: no slot on any thread. -/
def exPoolEmpty : Pool where
  numItemsToDelete := fun _ => 0
  itemsToDelete := fun _ => []
  itemsToDeletesize := fun _ => 0

/-- A pool whose thread 0 holds two slots left by an earlier sentence. -/
def exPoolUsed : Pool where
  numItemsToDelete := fun t => if t = 0 then 2 else 0
  itemsToDelete := fun t => if t = 0 then [Item.mk exNP 3 4 1 1 [], Item.mk exRoot 0 4 1 1 []] else []
  itemsToDeletesize := fun t => if t = 0 then 2 else 0

/-- The tree with root `S` over (0,5) and one child `NP` over (0,2). -/
def exTree : InputTree :=
  .node "S" 0 5 [.node "NP" 0 2 []]

/-- A one-token chart whose top bucket holds the items `0` to `400`: 401
entries in all, the start item `0` followed by the 400 items `1` to `400`. -/
def exChartFull : ChartBase where
  thrdid := 0
  sentence_ := ["go"]
  wrd_count_ := 1
  endPos := 1
  regs := fun j i => if j = 0 ∧ i = 0 then 0 :: List.range' 1 400 else []
  guide := fun _ _ => []

/-- Item `0` is a root item of inside probability 1, every other item has
category `NP`, inside probability 1 and no needing edge. -/
def exHeapFull : Heap := fun x =>
  if x = 0 then Item.mk exRoot 0 1 1 0 [] else Item.mk exNP 0 1 1 0 []

/-- The chart `exChartFull` with one more item in its top bucket: the start
item `0` and 401 others. -/
def exChartOver : ChartBase where
  thrdid := 0
  sentence_ := ["go"]
  wrd_count_ := 1
  endPos := 1
  regs := fun j i => if j = 0 ∧ i = 0 then 0 :: List.range' 1 401 else []
  guide := fun _ _ => []

/-- A two-token chart: the root item `0` in the top bucket, item `1` in
`regs[0][0]` and item `2` in `regs[0][1]`. -/
def exChart2 : ChartBase where
  thrdid := 0
  sentence_ := ["we", "go"]
  wrd_count_ := 2
  endPos := 2
  regs := fun j i =>
    if j = 1 ∧ i = 0 then [0] else if j = 0 ∧ i = 0 then [1]
    else if j = 0 ∧ i = 1 then [2] else []
  guide := fun _ _ => []

/-- All inside and edge probabilities are 1 and all outside probabilities 0;
the only needing edge of item `1` has item `2` as finished parent, the only
needing edge of item `2` has the root item `0` as finished parent. -/
def exHeap2 : Heap := fun x =>
  if x = 0 then Item.mk exRoot 0 2 1 0 []
  else if x = 1 then Item.mk exNP 0 1 1 0 [Edge.mk 0 2 exNP 1 (some 2)]
  else Item.mk exNP 1 2 1 0 [Edge.mk 0 2 exRoot 1 (some 0)]

/-- The heap `exHeap2` with the needing edge of item `1` attached to the
root item instead of item `2`. -/
def exHeap2b : Heap := fun x =>
  if x = 0 then Item.mk exRoot 0 2 1 0 []
  else if x = 1 then Item.mk exNP 0 1 1 0 [Edge.mk 0 2 exRoot 1 (some 0)]
  else Item.mk exNP 1 2 1 0 [Edge.mk 0 2 exRoot 1 (some 0)]

/-- The category edge used in the examples: an `S` edge over the span `(start, loc)`. -/
def exEdgeS (start loc : Int) : Edge := Edge.mk start loc exS 1 none

/-- An `NP` edge over the span `(start, loc)`. -/
def exEdgeNP (start loc : Int) : Edge := Edge.mk start loc exNP 1 none

/-- The default values of the two static factors, 1.2 and 0.88334. -/
def exFactors : Factors := { endFactor := 6 / 5, midFactor := 44167 / 50000 }

/-- The chart constructed for a sentence on thread 0 with an empty pool. -/
def exChartOf (sentence : List String) : ChartBase :=
  (construct exEnv sentence 0 exPoolEmpty).1

/-- A heap for a chain inside one bucket: the root item `0` has outside
probability 1; the only needing edge of item `1` has the root as finished
parent; the only needing edge of every other item has item `1` as finished
parent. All inside and edge probabilities are 1. -/
def exHeapChain : Heap := fun x =>
  if x = 0 then Item.mk exRoot 0 2 1 1 []
  else if x = 1 then Item.mk exNP 0 1 1 0 [Edge.mk 0 2 exRoot 1 (some 0)]
  else Item.mk exNP 0 1 1 0 [Edge.mk 0 1 exNP 1 (some 1)]

/-- A one-token chart whose top bucket holds the start item `0`, a second
item `1` of root category and an item `2`. -/
def exChartPin : ChartBase where
  thrdid := 0
  sentence_ := ["go"]
  wrd_count_ := 1
  endPos := 1
  regs := fun j i => if j = 0 ∧ i = 0 then [0, 1, 2] else []
  guide := fun _ _ => []

/-- Items `0` and `1` have the root category and no needing edge; the only
needing edge of item `2` has item `1` as finished parent. All inside and
edge probabilities are 1, all outside probabilities 0. -/
def exHeapPin : Heap := fun x =>
  if x = 0 then Item.mk exRoot 0 1 1 0 []
  else if x = 1 then Item.mk exRoot 0 1 1 0 []
  else Item.mk exNP 0 1 1 0 [Edge.mk 0 1 exRoot 1 (some 1)]

/-- A two-token chart: the root item `0` in the top bucket and the 401 items
`1` to `401` in the bucket `regs[0][0]`. -/
def exChartWide : ChartBase where
  thrdid := 0
  sentence_ := ["we", "go"]
  wrd_count_ := 2
  endPos := 2
  regs := fun j i =>
    if j = 1 ∧ i = 0 then [0] else if j = 0 ∧ i = 0 then List.range' 1 401 else []
  guide := fun _ _ => []

/-- The root item `0` has outside probability 1; the only needing edge of
every other item has the root as finished parent. All inside and edge
probabilities are 1. -/
def exHeapWide : Heap := fun x =>
  if x = 0 then Item.mk exRoot 0 2 1 1 []
  else Item.mk exNP 0 1 1 0 [Edge.mk 0 2 exRoot 1 (some 0)]

/-- A heap for the boundary of the convergence test: item `1` holds
`4278419646001971` and its candidate, from its parent item `0`, is `2^52`. -/
def exHeapEdge : Heap := fun x =>
  if x = 0 then Item.mk exRoot 0 2 1 4503599627370496 []
  else Item.mk exNP 0 1 1 4278419646001971 [Edge.mk 0 2 exRoot 1 (some 0)]

/-- A category whose registry id, 32768, is outside the range of a `short`. -/
def exWide : Term := { name := "X", toInt := 32768, isRoot := false, isS := false }

/-- A registry holding the category `X` only. -/
def exEnvWide : TermEnv where
  Colons := []
  Finals := []
  rootTerm := exRoot
  get := fun nm => if nm = "X" then some exWide else none

/-- The one-token chart `exChartPin` with one more entry, item `3`, in its
top bucket. -/
def exChartPin4 : ChartBase where
  thrdid := 0
  sentence_ := ["go"]
  wrd_count_ := 1
  endPos := 1
  regs := fun j i => if j = 0 ∧ i = 0 then [0, 1, 2, 3] else []
  guide := fun _ _ => []

/-- The heap `exHeapPin` with item `3`, an `NP` whose finished parent is the
start item `0`. -/
def exHeapPin4 : Heap := fun x =>
  if x = 3 then Item.mk exNP 0 1 1 0 [Edge.mk 0 1 exRoot 1 (some 0)]
  else exHeapPin x

/-! ## Theorems -/

/-! ### Outside pass: the early return (C1) -/

/-- C1. When `get_S` finds no root item, or the root item has inside
probability exactly 0, `set_Alphas` returns after the warning, and every
item has the outside probability it had before the call. -/
theorem set_Alphas_zero_root_unchanged (env : TermEnv) (fuel : Nat) (c : ChartBase)
    (h : Heap)
    (hroot : get_S env c h = none ∨ ∃ s, get_S env c h = some s ∧ (h s).prob = 0) :
    set_Alphas env fuel c h = Outcome.warned h ∧
      ∀ x, (set_Alphas env fuel c h).poutside? x = some (h x).poutside := by
  have hw : set_Alphas env fuel c h = Outcome.warned h := by
    unfold set_Alphas
    rcases hroot with hn | ⟨s, hs, hp⟩
    · rw [hn]
    · rw [hs]; simp [hp]
  exact ⟨hw, fun x => by rw [hw]; rfl⟩

/-- Witness for C1: a chart with no root item and one whose root has inside probability 0. -/
theorem set_Alphas_zero_root_unchanged_witness :
    (set_Alphas exEnv 3 exChart1 exHeapNP = Outcome.warned exHeapNP ∧
      ∀ x, (set_Alphas exEnv 3 exChart1 exHeapNP).poutside? x = some (exHeapNP x).poutside) ∧
    (set_Alphas exEnv 3 exChart1 (exHeapRoot 0) = Outcome.warned (exHeapRoot 0) ∧
      ∀ x, (set_Alphas exEnv 3 exChart1 (exHeapRoot 0)).poutside? x
        = some (exHeapRoot 0 x).poutside) :=
  ⟨set_Alphas_zero_root_unchanged exEnv 3 exChart1 exHeapNP (Or.inl (by decide)),
   set_Alphas_zero_root_unchanged exEnv 3 exChart1 (exHeapRoot 0)
     (Or.inr ⟨0, by decide, rfl⟩)⟩


/-! ### Outside pass: the one-token chart (C3) -/

theorem bucketOrder_one : bucketOrder 1 = [(0, 0), (0, 1)] := by decide

/-- C3. For a one-token sentence whose chart holds exactly one item, the root
item `r` in `regs[0][0]` with inside probability `p ≠ 0`, `set_Alphas`
completes, the only change to the heap is that the outside probability of
`r` becomes `1/p` (so 1 when `p = 1`), and the loop of each of the two
visited buckets runs exactly one pass, which updates no item. -/
theorem set_Alphas_single_root (env : TermEnv) (fuel : Nat) (c : ChartBase) (h : Heap)
    (r : Nat) (hwc : c.wrd_count_ = 1) (hreg : c.regs 0 0 = [r])
    (hempty : ∀ j i, ¬ (j = 0 ∧ i = 0) → c.regs j i = [])
    (hterm : (h r).term = env.rootTerm) (hp : (h r).prob ≠ 0) (hfuel : 1 ≤ fuel) :
    set_Alphas env fuel c h
        = Outcome.done (setPoutside h r (1 / (h r).prob)) [1, 1] ∧
      (set_Alphas env fuel c h).poutside? r = some (1 / (h r).prob) ∧
      ((h r).prob = 1 → (set_Alphas env fuel c h).poutside? r = some 1) := by
  have hS : get_S env c h = some r := by
    simp [get_S, hwc, hreg, hterm]
  have h01 : c.regs 0 1 = [] := hempty 0 1 (by decide)
  obtain ⟨f, rfl⟩ : ∃ f, fuel = f + 1 := ⟨fuel - 1, by omega⟩
  have hrun : set_Alphas env (f + 1) c h
      = Outcome.done (setPoutside h r (1 / (h r).prob)) [1, 1] := by
    unfold set_Alphas
    rw [hS]
    simp only [hp, if_false, hwc, bucketOrder_one]
    simp [runBuckets, processBucket, hreg, h01, initBucket, alphaLoop, alphaPass,
      candidates, applyAlphas]
  refine ⟨hrun, ?_, ?_⟩
  · rw [hrun]; simp [Outcome.poutside?, setPoutside]
  · intro h1; rw [hrun]; simp [Outcome.poutside?, setPoutside, h1]

/-- Witness for C3: the one-token chart `exChart1` with a root of inside probability 1. -/
theorem set_Alphas_single_root_witness :
    set_Alphas exEnv 1 exChart1 (exHeapRoot 1)
        = Outcome.done (setPoutside (exHeapRoot 1) 0 (1 / (exHeapRoot 1 0).prob)) [1, 1] ∧
      (set_Alphas exEnv 1 exChart1 (exHeapRoot 1)).poutside? 0
        = some (1 / (exHeapRoot 1 0).prob) ∧
      (set_Alphas exEnv 1 exChart1 (exHeapRoot 1)).poutside? 0 = some 1 :=
  have hw := set_Alphas_single_root exEnv 1 exChart1 (exHeapRoot 1) 0 rfl (by decide)
    (fun j i hji => by simp [exChart1, hji]) rfl (by simp [exHeapRoot]) (le_refl 1)
  ⟨hw.1, hw.2.1, hw.2.2 rfl⟩

/-! ### Item pool (C5, C6) -/

theorem addtochart_step (t : Int) (trm : Term) (p : Pool) (k m : Nat)
    (hwf : p.WF t k m) :
    ∃ p1, addtochart t trm p = some (k, p1) ∧ p1.WF t (k + 1) (max m (k + 1)) ∧
      ∃ itm, (p1.itemsToDelete t)[k]? = some itm ∧ itm.term = trm ∧ itm.start = 0 := by
  obtain ⟨hk, hlen, hsz, hkm⟩ := hwf
  by_cases hfull : k = m
  · subst hfull
    simp only [addtochart, hk, hsz, ge_iff_le, le_refl, if_true, hlen, List.length_append,
      List.length_singleton, Int.toNat_ofNat, Nat.lt_succ_self, Nat.cast_nonneg, and_self,
      if_true, Option.some.injEq, Prod.mk.injEq, true_and, exists_eq_left', Pool.WF]
    refine ⟨⟨?_, ?_, ?_, ?_⟩, ?_⟩
    · simp
    · simp [hlen]
    · simp [hsz]
    · simp
    · simp [List.getElem?_set, hlen, Item.set]
  · have hlt : k < m := lt_of_le_of_ne hkm hfull
    have hnot : ¬ ((m : Int) ≤ (k : Int)) := by omega
    simp only [addtochart, hk, hsz, ge_iff_le, hnot, if_false, hlen, Int.toNat_ofNat, hlt,
      Nat.cast_nonneg, and_self, if_true, Option.some.injEq, Prod.mk.injEq, true_and,
      exists_eq_left', Pool.WF]
    refine ⟨⟨?_, ?_, ?_, ?_⟩, ?_⟩
    · simp
    · simp [hlen]; omega
    · simp [hsz]; omega
    · omega
    · simp [List.getElem?_set, hlen, hlt, Item.set]

theorem addtochartMany_run (t : Int) (trms : List Term) :
    ∀ (p : Pool) (k m : Nat), p.WF t k m →
      ∃ p1, addtochartMany t trms p = some (List.range' k trms.length, p1) ∧
        p1.WF t (k + trms.length) (max m (k + trms.length)) := by
  induction trms with
  | nil =>
    intro p k m hwf
    refine ⟨p, rfl, ?_⟩
    obtain ⟨h1, h2, h3, h4⟩ := hwf
    simp [Pool.WF, h1, h2, h3, h4]
  | cons trm rest ih =>
    intro p k m hwf
    obtain ⟨p1, hstep, hwf1, -⟩ := addtochart_step t trm p k m hwf
    obtain ⟨p2, hrun, hwf2⟩ := ih p1 (k + 1) (max m (k + 1)) hwf1
    refine ⟨p2, ?_, ?_⟩
    · simp [addtochartMany, hstep, hrun, List.range']
    · have e1 : k + 1 + rest.length = k + (trm :: rest).length := by
        simp [List.length_cons]; omega
      have e2 : max (max m (k + 1)) (k + 1 + rest.length) = max m (k + (trm :: rest).length) := by
        simp [List.length_cons]; omega
      rw [e1] at hwf2 e2
      rw [e2] at hwf2
      exact hwf2

/-- C5. For a thread `t` whose pool holds `s` items, constructing a chart on
`t` resets the next-free counter to 0 and leaves the pool size at `s`; `n`
calls of `addtochart` then all succeed, the k-th call returns slot `k-1` (so
the slots handed out are pairwise distinct), and the pool ends with
`max s n` items, never fewer than `s`. -/
theorem addtochart_pool_growth (env : TermEnv) (sentence : List String) (t : Int)
    (p : Pool) (s : Nat) (trms : List Term)
    (hlen : (p.itemsToDelete t).length = s) (hsize : p.itemsToDeletesize t = s) :
    ((construct env sentence t p).2.numItemsToDelete t = 0 ∧
      ((construct env sentence t p).2.itemsToDelete t).length = s) ∧
    ∃ p1, addtochartMany t trms (construct env sentence t p).2
          = some (List.range trms.length, p1) ∧
        (p1.itemsToDelete t).length = max s trms.length ∧
        p1.itemsToDeletesize t = (max s trms.length : Nat) ∧
        s ≤ (p1.itemsToDelete t).length ∧
        (List.range trms.length).Nodup := by
  have hwf : (construct env sentence t p).2.WF t 0 s := by
    simp [construct, Pool.resetFor, Pool.WF, hlen, hsize]
  refine ⟨⟨by simp [construct, Pool.resetFor], by simp [construct, Pool.resetFor, hlen]⟩, ?_⟩
  obtain ⟨p1, hrun, h1, h2, h3, -⟩ := addtochartMany_run t trms _ 0 s hwf
  refine ⟨p1, ?_, ?_, ?_, ?_, List.nodup_range _⟩
  · rw [hrun, List.range_eq_range']
  · simpa using h2
  · simpa using h3
  · rw [h2]; exact le_max_left _ _


/-- Witness for C5: three items acquired on a thread whose pool holds two slots. -/
theorem addtochart_pool_growth_witness :
    ((construct exEnv ["go"] 0 exPoolUsed).2.numItemsToDelete 0 = 0 ∧
      ((construct exEnv ["go"] 0 exPoolUsed).2.itemsToDelete 0).length = 2) ∧
    ∃ p1, addtochartMany 0 [exRoot, exNP, exNP] (construct exEnv ["go"] 0 exPoolUsed).2
          = some (List.range [exRoot, exNP, exNP].length, p1) ∧
        (p1.itemsToDelete 0).length = max 2 [exRoot, exNP, exNP].length ∧
        p1.itemsToDeletesize 0 = (max 2 [exRoot, exNP, exNP].length : Nat) ∧
        2 ≤ (p1.itemsToDelete 0).length ∧
        (List.range [exRoot, exNP, exNP].length).Nodup :=
  addtochart_pool_growth exEnv ["go"] 0 exPoolUsed 2 [exRoot, exNP, exNP] rfl rfl

/-- C6. In every pool state (size counter equal to the vector length,
next-free counter not beyond it), for every thread and category `trm`,
`addtochart(trm)` returns the slot at the next-free counter, and the item in
that slot then has category `trm` and start position 0, whether the slot was
just appended or held other data before. -/
theorem addtochart_item_reset (t : Int) (trm : Term) (p : Pool) (k m : Nat)
    (hnum : p.numItemsToDelete t = k) (hlen : (p.itemsToDelete t).length = m)
    (hsize : p.itemsToDeletesize t = m) (hkm : k ≤ m) :
    ∃ p1 itm, addtochart t trm p = some (k, p1) ∧
      (p1.itemsToDelete t)[k]? = some itm ∧ itm.term = trm ∧ itm.start = 0 := by
  obtain ⟨p1, hstep, -, itm, hitm, h1, h2⟩ := addtochart_step t trm p k m ⟨hnum, hlen, hsize, hkm⟩
  exact ⟨p1, itm, hstep, hitm, h1, h2⟩

/-- Witness for C6: a reused slot (after the counter reset) and an appended slot. -/
theorem addtochart_item_reset_witness :
    (∃ p1 itm, addtochart 0 exRoot (exPoolUsed.resetFor 0) = some (0, p1) ∧
      (p1.itemsToDelete 0)[0]? = some itm ∧ itm.term = exRoot ∧ itm.start = 0) ∧
    (∃ p1 itm, addtochart 0 exRoot exPoolUsed = some (2, p1) ∧
      (p1.itemsToDelete 0)[2]? = some itm ∧ itm.term = exRoot ∧ itm.start = 0) :=
  ⟨addtochart_item_reset 0 exRoot (exPoolUsed.resetFor 0) 0 2 rfl rfl rfl (by decide),
   addtochart_item_reset 0 exRoot exPoolUsed 2 2 rfl rfl rfl (le_refl 2)⟩

/-! ### Guide constraints: `addConstraint` and `inGuide` (C8, C9) -/

/-- Counterexample to C8 as stated: the id 32768 does not fit a `short`, it is
stored as -32768 and the query for 32768 fails. -/
theorem addConstraint_inGuide_out_of_short :
    inGuide (addConstraint exChart1 0 1 32768) 0 1 32768 = false := by decide

theorem inGuideScan_append (trm : Int) (vs ws : List Int) :
    inGuideScan trm (vs ++ ws) = (inGuideScan trm vs || inGuideScan trm ws) := by
  induction vs with
  | nil => simp [inGuideScan]
  | cons v vs ih =>
    by_cases hv : v = trm <;> simp [inGuideScan, hv, ih]

theorem toShort_of_range (c : Int) (hlo : -32768 ≤ c) (hhi : c ≤ 32767) : toShort c = c := by
  unfold toShort; omega

/-- C8 (amended). For every guide state, every span and every category id in
the range of a `short`, `inGuide(start, end, c)` is true after
`addConstraint(start, end, c)`. -/
theorem addConstraint_then_inGuide (c : ChartBase) (start ed trm : Int)
    (hlo : -32768 ≤ trm) (hhi : trm ≤ 32767) :
    inGuide (addConstraint c start ed trm) start ed trm = true := by
  simp [inGuide, addConstraint, pushGuide, inGuideScan_append, inGuideScan,
    toShort_of_range trm hlo hhi]

/-- Witness for C8 (amended): the largest id a `short` holds. -/
theorem addConstraint_then_inGuide_witness :
    inGuide (addConstraint exChart1 0 1 32767) 0 1 32767 = true :=
  addConstraint_then_inGuide exChart1 0 1 32767 (by decide) (by decide)

/-- Counterexample to C9 as stated: recording the id 65541 on span (0,1) turns
the query for the different id 5 on that span from false to true. -/
theorem addConstraint_changes_other_id :
    inGuide exChart1 0 1 5 = false ∧
      inGuide (addConstraint exChart1 0 1 65541) 0 1 5 = true := by decide

/-- C9 (amended). On an empty guide every query is false; and
`addConstraint(start, end, c)` leaves the answer of every query unchanged
except the query for the same span and the id `c` as narrowed to a `short`. -/
theorem addConstraint_frame (c : ChartBase) (start ed trm s e t : Int) :
    (c.guide = (fun _ _ => []) → inGuide c s e t = false) ∧
    (¬ (s = start ∧ e = ed ∧ t = toShort trm) →
      inGuide (addConstraint c start ed trm) s e t = inGuide c s e t) := by
  constructor
  · intro hg; simp [inGuide, hg, inGuideScan]
  · intro hne
    by_cases hse : s = start ∧ e = ed
    · have ht : ¬ toShort trm = t := fun h => hne ⟨hse.1, hse.2, h.symm⟩
      simp [inGuide, addConstraint, pushGuide, hse, inGuideScan_append, inGuideScan, ht]
    · simp [inGuide, addConstraint, pushGuide, hse]

/-- Witness for C9 (amended): recording id 6 leaves the query for id 5 false. -/
theorem addConstraint_frame_witness :
    inGuide exChart1 0 1 5 = false ∧
      inGuide (addConstraint exChart1 0 1 6) 0 1 5 = inGuide exChart1 0 1 5 :=
  ⟨(addConstraint_frame exChart1 0 1 6 0 1 5).1 rfl,
   (addConstraint_frame exChart1 0 1 6 0 1 5).2 (by decide)⟩

/-! ### The constructor: `endPos` (C10) -/

/-- Counterexample to C10 as stated: for the two-token sentence `. x` the
second-to-last token exists and is final-class, yet the constructor leaves
`endPos` at 2 where the claimed rule gives 0. -/
theorem endPos_two_tokens_not_claimed :
    (construct exEnv [".", "x"] 0 exPoolEmpty).1.endPos = 2 ∧
      endPosClaimed exEnv 2 [".", "x"].reverse = 0 := by decide

theorem lexeme_reverse (r : List String) (k : Nat) (hk : k < r.length) :
    lexeme r.reverse ((r.length : Int) - 1 - k) = r.getD k "" := by
  have h0 : (0 : Int) ≤ (r.length : Int) - 1 - k := by omega
  have h1 : ((r.length : Int) - 1 - k).toNat = r.length - 1 - k := by omega
  simp only [lexeme, h0, if_true, h1]
  rw [List.getD_eq_getElem?_getD, List.getD_eq_getElem?_getD,
    List.getElem?_reverse (by omega)]
  congr 2
  omega

theorem endPosGuarded_eq_claimed (env : TermEnv) (n : Int) (r : List String)
    (hlen : r.length ≠ 2) : endPosGuarded env n r = endPosClaimed env n r := by
  match r with
  | [] => rfl
  | [a] => simp [endPosGuarded, endPosClaimed]
  | [a, b] => simp at hlen
  | a :: b :: d :: rest => simp [endPosGuarded, endPosClaimed]

theorem construct_endPos_guarded (env : TermEnv) (sentence : List String) (id : Int)
    (p : Pool) :
    (construct env sentence id p).1.endPos
      = endPosGuarded env sentence.length sentence.reverse := by
  obtain ⟨r, rfl⟩ : ∃ r : List String, sentence = r.reverse := ⟨sentence.reverse, by simp⟩
  simp only [construct, computeEndPos, List.reverse_reverse, List.length_reverse]
  match r with
  | [] => simp [endPosGuarded]
  | [a] =>
    have ha := lexeme_reverse [a] 0 (by simp)
    simp at ha
    by_cases hfa : finalPunc env a <;> simp [endPosGuarded, ha, hfa]
  | [a, b] =>
    have ha := lexeme_reverse [a, b] 0 (by simp)
    simp at ha
    by_cases hfa : finalPunc env a <;> simp [endPosGuarded, ha, hfa]
  | a :: b :: d :: rest =>
    have hlen : (2 : Int) < ((a :: b :: d :: rest).length : Int) := by
      simp only [List.length_cons]; omega
    have hpos : (0 : Int) < ((a :: b :: d :: rest).length : Int) := by omega
    have ha : lexeme (a :: b :: d :: rest).reverse (((a :: b :: d :: rest).length : Int) - 1)
        = a := by
      have h := lexeme_reverse (a :: b :: d :: rest) 0 (by simp)
      rw [show (((a :: b :: d :: rest).length : Int) - 1 - ((0 : Nat) : Int))
        = ((a :: b :: d :: rest).length : Int) - 1 by simp] at h
      exact h
    have hb : lexeme (a :: b :: d :: rest).reverse (((a :: b :: d :: rest).length : Int) - 2)
        = b := by
      have h := lexeme_reverse (a :: b :: d :: rest) 1 (by simp)
      rw [show (((a :: b :: d :: rest).length : Int) - 1 - ((1 : Nat) : Int))
        = ((a :: b :: d :: rest).length : Int) - 2 by omega] at h
      exact h
    have hd : lexeme (a :: b :: d :: rest).reverse (((a :: b :: d :: rest).length : Int) - 3)
        = d := by
      have h := lexeme_reverse (a :: b :: d :: rest) 2 (by simp)
      rw [show (((a :: b :: d :: rest).length : Int) - 1 - ((2 : Nat) : Int))
        = ((a :: b :: d :: rest).length : Int) - 3 by omega] at h
      exact h
    rw [ha, hb, hd]
    simp only [hlen, hpos, true_and, if_true, endPosGuarded]
    by_cases hfa : finalPunc env a
    · simp [hfa]
    · by_cases hfb : finalPunc env b
      · simp [hfa, hfb]
      · by_cases hfd : finalPunc env d <;> simp [hfa, hfb, hfd]

/-- C10 (amended). The constructor sets `endPos` to `wrd_count_-1` when the
last token is final-class; otherwise, only when the sentence has more than
two tokens, to `wrd_count_-2` when the second-to-last token is final-class
and else to `wrd_count_-3` when the third-to-last is; otherwise to
`wrd_count_`. The rule agrees with the claimed one on every sentence whose
length is not 2. -/
theorem construct_endPos (env : TermEnv) (sentence : List String) (id : Int) (p : Pool) :
    (construct env sentence id p).1.wrd_count_ = sentence.length ∧
    (construct env sentence id p).1.endPos
      = endPosGuarded env sentence.length sentence.reverse ∧
    (sentence.length ≠ 2 →
      (construct env sentence id p).1.endPos
        = endPosClaimed env sentence.length sentence.reverse) := by
  refine ⟨rfl, construct_endPos_guarded env sentence id p, fun hlen => ?_⟩
  rw [construct_endPos_guarded,
    endPosGuarded_eq_claimed env _ _ (by simpa using hlen)]

/-- Witness for C10 (amended): a four-token sentence ending in a final-class token
followed by one more token. -/
theorem construct_endPos_witness :
    (construct exEnv ["we", "go", ".", "x"] 0 exPoolEmpty).1.wrd_count_
      = ["we", "go", ".", "x"].length ∧
    (construct exEnv ["we", "go", ".", "x"] 0 exPoolEmpty).1.endPos
      = endPosGuarded exEnv ["we", "go", ".", "x"].length ["we", "go", ".", "x"].reverse ∧
    (construct exEnv ["we", "go", ".", "x"] 0 exPoolEmpty).1.endPos
      = endPosClaimed exEnv ["we", "go", ".", "x"].length ["we", "go", ".", "x"].reverse :=
  ⟨(construct_endPos exEnv ["we", "go", ".", "x"] 0 exPoolEmpty).1,
   (construct_endPos exEnv ["we", "go", ".", "x"] 0 exPoolEmpty).2.1,
   (construct_endPos exEnv ["we", "go", ".", "x"] 0 exPoolEmpty).2.2 (by decide)⟩

/-! ### Guide constraints: `setGuide` (C7) -/

theorem recordNodes_append (env : TermEnv) (l1 l2 : List (String × Int × Int)) :
    ∀ g, recordNodes env (l1 ++ l2) g = (recordNodes env l1 g).bind (recordNodes env l2) := by
  induction l1 with
  | nil => intro g; rfl
  | cons nd l1 ih =>
    intro g
    obtain ⟨nm, s, f⟩ := nd
    simp only [List.cons_append, recordNodes]
    cases env.get nm with
    | none => rfl
    | some t => exact ih _

mutual
theorem setGuideAux_eq_recordNodes (env : TermEnv) :
    ∀ (tree : InputTree) (g : Guide), setGuideAux env tree g = recordNodes env tree.nodes g
  | .null, g => by simp [setGuideAux, InputTree.nodes, recordNodes]
  | .node term start finish subTrees, g => by
    simp only [setGuideAux, InputTree.nodes, recordNodes]
    cases env.get term with
    | none => rfl
    | some t => exact setGuideSubs_eq_recordNodes env subTrees _
theorem setGuideSubs_eq_recordNodes (env : TermEnv) :
    ∀ (ts : List InputTree) (g : Guide),
      setGuideSubs env ts g = recordNodes env (InputTree.nodesList ts) g
  | [], g => by simp [setGuideSubs, InputTree.nodesList, recordNodes]
  | t :: ts, g => by
    simp only [setGuideSubs, InputTree.nodesList, recordNodes_append]
    rw [setGuideAux_eq_recordNodes env t g]
    cases recordNodes env t.nodes g with
    | none => rfl
    | some g1 => exact setGuideSubs_eq_recordNodes env ts g1
end

theorem recordNodes_inGuide (env : TermEnv) (l : List (String × Int × Int)) :
    ∀ g : Guide,
      (∀ nd ∈ l, ∃ t, env.get nd.1 = some t ∧ -32768 ≤ t.toInt ∧ t.toInt ≤ 32767) →
      ∃ g1, recordNodes env l g = some g1 ∧
        ∀ s e id, inGuideScan id (g1 s e) = true ↔
          (inGuideScan id (g s e) = true ∨
            ∃ nd ∈ l, nd.2.1 = s ∧ nd.2.2 = e ∧ ∃ t, env.get nd.1 = some t ∧ t.toInt = id) := by
  induction l with
  | nil => intro g _; exact ⟨g, rfl, fun s e id => by simp⟩
  | cons nd l ih =>
    intro g hres
    obtain ⟨nm, st, fi⟩ := nd
    obtain ⟨t, ht, hlo, hhi⟩ := hres (nm, st, fi) (List.mem_cons_self _ _)
    obtain ⟨g1, hg1, hiff⟩ := ih (pushGuide g st fi t.toInt)
      (fun nd hnd => hres nd (List.mem_cons_of_mem _ hnd))
    refine ⟨g1, by simp [recordNodes, ht, hg1], fun s e id => ?_⟩
    rw [hiff s e id]
    by_cases hse : s = st ∧ e = fi
    · obtain ⟨rfl, rfl⟩ := hse
      simp only [pushGuide, and_self, if_true, inGuideScan_append, inGuideScan,
        toShort_of_range _ hlo hhi, Bool.or_eq_true, List.mem_cons, exists_eq_or_imp,
        true_and, ht, Option.some.injEq, exists_eq_left']
      by_cases hid : t.toInt = id <;> simp [hid, or_assoc]
    · have hse2 : ¬ (st = s ∧ fi = e) := fun h => hse ⟨h.1.symm, h.2.symm⟩
      simp only [pushGuide, hse, if_false, List.mem_cons, exists_eq_or_imp]
      constructor
      · rintro (h | h)
        · exact Or.inl h
        · exact Or.inr (Or.inr h)
      · rintro (h | ⟨h1, h2, _⟩ | h)
        · exact Or.inl h
        · exact absurd ⟨h1, h2⟩ hse2
        · exact Or.inr h

/-- Counterexample to C7 as stated: the registry gives the category `X` the id
32768; after `setGuide` on the one-node tree `X` over (0,1), from an empty
guide, `inGuide(0,1,32768)` is false although the node has start 0, finish 1
and registry id 32768, and `inGuide(0,1,-32768)` is true although no node has
the id -32768: the guide stores the id narrowed to a `short`. -/
theorem setGuide_id_out_of_short :
    exChart1.guide = (fun _ _ => []) ∧
    (setGuide exEnvWide exChart1 (InputTree.node "X" 0 1 [])).map
      (fun c1 => inGuide c1 0 1 32768) = some false ∧
    (∃ nd ∈ (InputTree.node "X" 0 1 []).nodes, nd.2.1 = 0 ∧ nd.2.2 = 1 ∧
      ∃ t, exEnvWide.get nd.1 = some t ∧ t.toInt = 32768) ∧
    (setGuide exEnvWide exChart1 (InputTree.node "X" 0 1 [])).map
      (fun c1 => inGuide c1 0 1 (-32768)) = some true ∧
    ¬ (∃ nd ∈ (InputTree.node "X" 0 1 []).nodes, nd.2.1 = 0 ∧ nd.2.2 = 1 ∧
      ∃ t, exEnvWide.get nd.1 = some t ∧ t.toInt = -32768) := by
  refine ⟨rfl, by decide, ⟨("X", 0, 1), by simp [InputTree.nodes, InputTree.nodesList],
    rfl, rfl, exWide, by decide, rfl⟩, by decide, ?_⟩
  rintro ⟨nd, hnd, -, -, t, ht, hid⟩
  have hnd1 : nd = ("X", 0, 1) := by
    simpa [InputTree.nodes, InputTree.nodesList] using hnd
  subst hnd1
  have ht1 : t = exWide := by
    have : exEnvWide.get "X" = some exWide := by decide
    rw [this] at ht
    exact (Option.some.inj ht).symm
  subst ht1
  exact absurd hid (by decide)

/-- C7 (amended). Starting from an empty guide, `setGuide(tree)` on a tree
whose category names are all registered with ids in the range of a `short`
(-32768 to 32767) returns, and afterwards `inGuide(s, e, id)` is true exactly when some node of the tree has
start `s`, finish `e` and a category whose registry id is `id`. For the tree
`S` over (0,5) with one child `NP` over (0,2) this gives `inGuide(0,5,id(S))`,
`inGuide(0,2,id(NP))` and not `inGuide(0,2,id(S))`. On a null tree `setGuide`
records nothing. -/
theorem setGuide_inGuide_iff (env : TermEnv) (c : ChartBase)
    (hempty : c.guide = fun _ _ => []) :
    (∀ tree : InputTree,
      (∀ nd ∈ tree.nodes, ∃ t, env.get nd.1 = some t ∧ -32768 ≤ t.toInt ∧ t.toInt ≤ 32767) →
      ∃ c1, setGuide env c tree = some c1 ∧
        ∀ s e id, inGuide c1 s e id = true ↔
          ∃ nd ∈ tree.nodes, nd.2.1 = s ∧ nd.2.2 = e ∧
            ∃ t, env.get nd.1 = some t ∧ t.toInt = id) ∧
    (∀ tS tNP : Term, env.get "S" = some tS → env.get "NP" = some tNP →
      (-32768 ≤ tS.toInt ∧ tS.toInt ≤ 32767) → (-32768 ≤ tNP.toInt ∧ tNP.toInt ≤ 32767) →
      tS.toInt ≠ tNP.toInt →
      ∃ c1, setGuide env c exTree = some c1 ∧
        inGuide c1 0 5 tS.toInt = true ∧ inGuide c1 0 2 tNP.toInt = true ∧
        inGuide c1 0 2 tS.toInt = false) ∧
    setGuide env c InputTree.null = some c := by
  have hgen : ∀ tree : InputTree,
      (∀ nd ∈ tree.nodes, ∃ t, env.get nd.1 = some t ∧ -32768 ≤ t.toInt ∧ t.toInt ≤ 32767) →
      ∃ c1, setGuide env c tree = some c1 ∧
        ∀ s e id, inGuide c1 s e id = true ↔
          ∃ nd ∈ tree.nodes, nd.2.1 = s ∧ nd.2.2 = e ∧
            ∃ t, env.get nd.1 = some t ∧ t.toInt = id := by
    intro tree hres
    obtain ⟨g1, hg1, hiff⟩ := recordNodes_inGuide env tree.nodes c.guide hres
    refine ⟨{ c with guide := g1 }, ?_, fun s e id => ?_⟩
    · simp [setGuide, setGuideAux_eq_recordNodes, hg1]
    · simp only [inGuide]
      rw [hiff s e id, hempty]
      simp [inGuideScan]
  refine ⟨hgen, ?_, by simp [setGuide, setGuideAux]⟩
  intro tS tNP hS hNP hSr hNPr hne
  have hnodes : exTree.nodes = [("S", 0, 5), ("NP", 0, 2)] := by
    simp [exTree, InputTree.nodes, InputTree.nodesList]
  obtain ⟨c1, hc1, hiff⟩ := hgen exTree (by
    intro nd hnd
    rw [hnodes] at hnd
    simp only [List.mem_cons, List.mem_singleton, List.not_mem_nil, or_false] at hnd
    rcases hnd with rfl | rfl
    · exact ⟨tS, hS, hSr.1, hSr.2⟩
    · exact ⟨tNP, hNP, hNPr.1, hNPr.2⟩)
  refine ⟨c1, hc1, ?_, ?_, ?_⟩
  · rw [hiff]; exact ⟨("S", 0, 5), by simp [hnodes], rfl, rfl, tS, hS, rfl⟩
  · rw [hiff]; exact ⟨("NP", 0, 2), by simp [hnodes], rfl, rfl, tNP, hNP, rfl⟩
  · rw [Bool.eq_false_iff]
    intro hin
    obtain ⟨nd, hnd, h1, h2, t, ht, hid⟩ := (hiff 0 2 tS.toInt).1 hin
    rw [hnodes] at hnd
    simp only [List.mem_cons, List.mem_singleton, List.not_mem_nil, or_false] at hnd
    rcases hnd with rfl | rfl
    · simp at h2
    · rw [hNP] at ht
      cases ht
      exact hne hid.symm

/-- Witness for C7 (amended): the example registry, chart and tree. -/
theorem setGuide_inGuide_iff_witness :
    (∃ c1, setGuide exEnv exChart1 exTree = some c1 ∧
        ∀ s e id, inGuide c1 s e id = true ↔
          ∃ nd ∈ exTree.nodes, nd.2.1 = s ∧ nd.2.2 = e ∧
            ∃ t, exEnv.get nd.1 = some t ∧ t.toInt = id) ∧
    (∃ c1, setGuide exEnv exChart1 exTree = some c1 ∧
        inGuide c1 0 5 exS.toInt = true ∧ inGuide c1 0 2 exNP.toInt = true ∧
        inGuide c1 0 2 exS.toInt = false) ∧
    setGuide exEnv exChart1 InputTree.null = some exChart1 :=
  have hw := setGuide_inGuide_iff exEnv exChart1 rfl
  ⟨hw.1 exTree (by
      intro nd hnd
      have hnodes : exTree.nodes = [("S", 0, 5), ("NP", 0, 2)] := by
        simp [exTree, InputTree.nodes, InputTree.nodesList]
      rw [hnodes] at hnd
      simp only [List.mem_cons, List.mem_singleton, List.not_mem_nil, or_false] at hnd
      rcases hnd with rfl | rfl
      · exact ⟨exS, by decide, by decide, by decide⟩
      · exact ⟨exNP, by decide, by decide, by decide⟩),
   hw.2.1 exS exNP (by decide) (by decide) (by decide) (by decide) (by decide),
   hw.2.2⟩


/-! ### Outside pass: the capacity of `tempAlpha` (C4) -/

theorem liveCount_cons (snode itm : Nat) (il : List Nat) :
    liveCount snode (itm :: il)
      = if itm = snode then liveCount snode il else liveCount snode il + 1 := by
  by_cases h : itm = snode <;> simp [liveCount, List.filter_cons, h]

theorem candidates_eq_none (snode : Nat) (h : Heap) (il : List Nat) :
    ∀ tempAlpha : List ℚ, tempAlpha.length ≤ tempAlphaSize →
      (candidates snode h il tempAlpha = none
        ↔ tempAlphaSize < tempAlpha.length + liveCount snode il) := by
  induction il with
  | nil => intro tempAlpha hle; simpa [candidates, liveCount] using hle
  | cons itm il ih =>
    intro tempAlpha hle
    rw [liveCount_cons]
    by_cases hs : itm = snode
    · simp only [candidates, hs, if_true]
      exact ih tempAlpha hle
    · by_cases hcap : tempAlpha.length < tempAlphaSize
      · simp only [candidates, hs, hcap, if_true, if_false]
        rw [ih _ (by simp only [List.length_append, List.length_singleton]; omega)]
        simp only [List.length_append, List.length_singleton]
        omega
      · simp only [candidates, hs, hcap, if_false]
        simp only [true_iff]
        omega

theorem candidates_length (snode : Nat) (h : Heap) (il : List Nat) :
    ∀ tempAlpha out : List ℚ, candidates snode h il tempAlpha = some out →
      out.length = tempAlpha.length + liveCount snode il := by
  induction il with
  | nil =>
    intro tempAlpha out hc
    simp only [candidates, Option.some.injEq] at hc
    simp [← hc, liveCount]
  | cons itm il ih =>
    intro tempAlpha out hc
    rw [liveCount_cons]
    by_cases hs : itm = snode
    · simp only [candidates, hs, if_true] at hc
      simpa [hs] using ih tempAlpha out hc
    · by_cases hcap : tempAlpha.length < tempAlphaSize
      · simp only [candidates, hs, hcap, if_true, if_false] at hc
        have := ih _ out hc
        simp only [List.length_append, List.length_singleton] at this
        simp only [hs, if_false]
        omega
      · simp [candidates, hs, hcap] at hc

theorem applyAlphas_temppos (snode : Nat) (sAlpha : ℚ) (top : Bool) (tempAlpha : List ℚ)
    (il : List Nat) :
    ∀ (h : Heap) (vc : Bool) (tp : Nat) (h1 : Heap) (vc1 : Bool) (tp1 : Nat),
      applyAlphas snode sAlpha top tempAlpha il h vc tp = .ok (h1, vc1, tp1) →
      tp1 = tp + liveCount snode il := by
  induction il with
  | nil =>
    intro h vc tp h1 vc1 tp1 ha
    simp only [applyAlphas, Except.ok.injEq, Prod.mk.injEq] at ha
    simp [liveCount, ← ha.2.2]
  | cons itm il ih =>
    intro h vc tp h1 vc1 tp1 ha
    rw [liveCount_cons]
    unfold applyAlphas at ha
    by_cases hs : itm = snode
    · simp only [hs, if_true] at ha ⊢
      exact ih _ _ _ _ _ _ ha
    · simp only [hs, if_false] at ha ⊢
      split at ha
      · have := ih _ _ _ _ _ _ ha; omega
      · split at ha
        · split at ha
          · cases ha
          · have := ih _ _ _ _ _ _ ha; omega
        · split at ha
          · have := ih _ _ _ _ _ _ ha; omega
          · have := ih _ _ _ _ _ _ ha; omega

theorem applyAlphas_error (snode : Nat) (sAlpha : ℚ) (top : Bool) (tempAlpha : List ℚ)
    (il : List Nat) :
    ∀ (h : Heap) (vc : Bool) (tp : Nat) (f : Fatal),
      applyAlphas snode sAlpha top tempAlpha il h vc tp = .error f → f = Fatal.alphaWentDown := by
  induction il with
  | nil => intro h vc tp f ha; simp [applyAlphas] at ha
  | cons itm il ih =>
    intro h vc tp f ha
    unfold applyAlphas at ha
    by_cases hs : itm = snode
    · simp only [hs, if_true] at ha
      exact ih _ _ _ _ ha
    · simp only [hs, if_false] at ha
      split at ha
      · exact ih _ _ _ _ ha
      · split at ha
        · split at ha
          · simp only [Except.error.injEq] at ha; exact ha.symm
          · exact ih _ _ _ _ ha
        · split at ha
          · exact ih _ _ _ _ ha
          · exact ih _ _ _ _ ha

theorem alphaPass_ne_funny (snode : Nat) (sAlpha : ℚ) (top : Bool) (il : List Nat)
    (h : Heap) : alphaPass snode sAlpha top il h ≠ .error Fatal.funny := by
  unfold alphaPass
  cases hc : candidates snode h il [] with
  | none => simp
  | some tempAlpha =>
    simp only
    cases ha : applyAlphas snode sAlpha top tempAlpha il h false 0 with
    | error f =>
      have := applyAlphas_error _ _ _ _ _ _ _ _ _ ha
      simp [this]
    | ok r =>
      obtain ⟨h1, vc1, tp1⟩ := r
      have h1 := applyAlphas_temppos _ _ _ _ _ _ _ _ _ _ _ ha
      have h2 := candidates_length _ _ _ _ _ hc
      simp only [List.length_nil] at h2
      have : tp1 = tempAlpha.length := by omega
      simp [this]

theorem alphaPass_capacity (snode : Nat) (sAlpha : ℚ) (top : Bool) (il : List Nat)
    (h : Heap) (hbig : tempAlphaSize < liveCount snode il) :
    alphaPass snode sAlpha top il h = .error Fatal.capacity := by
  have hn : candidates snode h il [] = none :=
    (candidates_eq_none snode h il [] (Nat.zero_le _)).2 (by simpa using hbig)
  simp [alphaPass, hn]

theorem processBucket_capacity (c : ChartBase) (snode : Nat) (sAlpha : ℚ) (fuel : Nat)
    (j i : Int) (h : Heap) (hfuel : 1 ≤ fuel)
    (hbig : tempAlphaSize < liveCount snode (c.regs j i)) :
    processBucket c snode sAlpha fuel j i h = .error Fatal.capacity := by
  obtain ⟨f, rfl⟩ : ∃ f, fuel = f + 1 := ⟨fuel - 1, by omega⟩
  simp [processBucket, alphaLoop, alphaPass_capacity _ _ _ _ _ hbig]

theorem alphaLoop_error (snode : Nat) (sAlpha : ℚ) (top : Bool) (il : List Nat) :
    ∀ (fuel : Nat) (h : Heap) (n : Nat) (f : Fatal),
      alphaLoop snode sAlpha top il fuel h n = .error f →
      f = Fatal.capacity ∨ f = Fatal.alphaWentDown ∨ f = Fatal.outOfFuel := by
  intro fuel
  induction fuel with
  | zero => intro h n f hl; simp [alphaLoop] at hl; simp [← hl]
  | succ fuel ih =>
    intro h n f hl
    unfold alphaLoop at hl
    cases hp : alphaPass snode sAlpha top il h with
    | error g =>
      rw [hp] at hl
      simp only [Except.error.injEq] at hl
      subst hl
      have hnf := alphaPass_ne_funny snode sAlpha top il h
      unfold alphaPass at hp
      cases hc : candidates snode h il [] with
      | none => rw [hc] at hp; simp only [Except.error.injEq] at hp; simp [← hp]
      | some tempAlpha =>
        rw [hc] at hp
        simp only at hp
        cases ha : applyAlphas snode sAlpha top tempAlpha il h false 0 with
        | error g2 =>
          rw [ha] at hp
          simp only [Except.error.injEq] at hp
          have := applyAlphas_error _ _ _ _ _ _ _ _ _ ha
          simp [← hp, this]
        | ok r =>
          obtain ⟨h1, vc1, tp1⟩ := r
          rw [ha] at hp
          simp only at hp
          split at hp
          · have h1 := applyAlphas_temppos _ _ _ _ _ _ _ _ _ _ _ ha
            have h2 := candidates_length _ _ _ _ _ hc
            simp only [List.length_nil] at h2
            omega
          · cases hp
    | ok r =>
      obtain ⟨h1, vc⟩ := r
      rw [hp] at hl
      cases vc with
      | true => exact ih _ _ _ hl
      | false => cases hl

theorem runBuckets_append (c : ChartBase) (snode : Nat) (sAlpha : ℚ) (fuel : Nat)
    (l1 l2 : List (Int × Int)) :
    ∀ (h : Heap) (passes : List Nat),
      runBuckets c snode sAlpha fuel (l1 ++ l2) h passes
        = match runBuckets c snode sAlpha fuel l1 h passes with
          | .done h1 passes1 => runBuckets c snode sAlpha fuel l2 h1 passes1
          | o => o := by
  induction l1 with
  | nil => intro h passes; simp [runBuckets]
  | cons b l1 ih =>
    intro h passes
    obtain ⟨j, i⟩ := b
    simp only [List.cons_append, runBuckets]
    cases processBucket c snode sAlpha fuel j i h with
    | error f => rfl
    | ok r => obtain ⟨h1, n⟩ := r; exact ih h1 _

theorem runBuckets_outcome (c : ChartBase) (snode : Nat) (sAlpha : ℚ) (fuel : Nat)
    (l : List (Int × Int)) :
    ∀ (h : Heap) (passes : List Nat),
      (∃ h1 passes1, runBuckets c snode sAlpha fuel l h passes = .done h1 passes1) ∨
      runBuckets c snode sAlpha fuel l h passes = .fatal Fatal.capacity ∨
      runBuckets c snode sAlpha fuel l h passes = .fatal Fatal.alphaWentDown ∨
      runBuckets c snode sAlpha fuel l h passes = .fatal Fatal.outOfFuel := by
  induction l with
  | nil => intro h passes; exact Or.inl ⟨h, passes, rfl⟩
  | cons b l ih =>
    intro h passes
    obtain ⟨j, i⟩ := b
    simp only [runBuckets]
    cases hp : processBucket c snode sAlpha fuel j i h with
    | error f =>
      rcases alphaLoop_error _ _ _ _ _ _ _ _ hp with rfl | rfl | rfl <;> simp
    | ok r => obtain ⟨h1, n⟩ := r; exact ih h1 _

theorem mem_bucketOrder (wc j i : Int) :
    (j, i) ∈ bucketOrder wc ↔ (0 ≤ j ∧ j < wc) ∧ (0 ≤ i ∧ i ≤ wc - j) := by
  simp only [bucketOrder, jRange, iRange, List.mem_flatMap, List.mem_reverse, List.mem_map,
    List.mem_range, Prod.mk.injEq]
  constructor
  · rintro ⟨j1, ⟨n, hn, rfl⟩, i1, ⟨m, hm, rfl⟩, rfl, rfl⟩
    omega
  · rintro ⟨⟨hj0, hj1⟩, hi0, hi1⟩
    exact ⟨j, ⟨j.toNat, by omega, by omega⟩, i, ⟨i.toNat, by omega, by omega⟩, rfl, rfl⟩

theorem bucketOrder_head (wc : Int) (hwc : 0 < wc) :
    ∃ l, bucketOrder wc = (wc - 1, 0) :: l := by
  obtain ⟨n, rfl⟩ : ∃ n : Nat, wc = (n : Int) + 1 := ⟨(wc - 1).toNat, by omega⟩
  have h1 : ((n : Int) + 1).toNat = n + 1 := by omega
  have h2 : ((n : Int) + 1 - (n : Int) + 1).toNat = 1 + 1 := by omega
  have h3 : (n : Int) + 1 - 1 = n := by omega
  simp only [bucketOrder, jRange, h1, List.range_succ, List.map_append, List.map_cons,
    List.map_nil, List.reverse_append, List.reverse_cons, List.reverse_nil, List.nil_append,
    List.singleton_append, List.flatMap_cons, iRange, h2, h3, List.range_zero, Nat.cast_zero,
    List.cons_append]
  exact ⟨_, rfl⟩

/-- C4 (amended). When the root item exists with nonzero inside probability
and some visited bucket `regs[j][i]` holds more than 400 entries other than
the start item, every run of the loop of that bucket stops at the failed
capacity check, so `set_Alphas` never completes the pass: it ends in the
capacity condition, unless the loop of a bucket processed earlier ended in
"Alpha went down" or did not terminate; when the bucket is the top bucket,
which is processed first, it ends in the capacity condition. -/
theorem set_Alphas_capacity_fatal (env : TermEnv) (fuel : Nat) (c : ChartBase) (h : Heap)
    (snode : Nat) (j i : Int)
    (hS : get_S env c h = some snode) (hp : (h snode).prob ≠ 0)
    (hj : 0 ≤ j ∧ j < c.wrd_count_) (hi : 0 ≤ i ∧ i ≤ c.wrd_count_ - j)
    (hbig : tempAlphaSize < liveCount snode (c.regs j i)) (hfuel : 1 ≤ fuel) :
    (∀ h1, processBucket c snode (1 / (h snode).prob) fuel j i h1 = .error Fatal.capacity) ∧
    (∃ l1 l2, bucketOrder c.wrd_count_ = l1 ++ (j, i) :: l2 ∧
      set_Alphas env fuel c h
        = match runBuckets c snode (1 / (h snode).prob) fuel l1
            (setPoutside h snode (1 / (h snode).prob)) [] with
          | .done _ _ => .fatal Fatal.capacity
          | o => o) ∧
    (set_Alphas env fuel c h = .fatal Fatal.capacity ∨
      set_Alphas env fuel c h = .fatal Fatal.alphaWentDown ∨
      set_Alphas env fuel c h = .fatal Fatal.outOfFuel) ∧
    (j = c.wrd_count_ - 1 → i = 0 → set_Alphas env fuel c h = .fatal Fatal.capacity) := by
  have hcap : ∀ h1, processBucket c snode (1 / (h snode).prob) fuel j i h1
      = .error Fatal.capacity :=
    fun h1 => processBucket_capacity c snode _ fuel j i h1 hfuel hbig
  have hset : set_Alphas env fuel c h
      = runBuckets c snode (1 / (h snode).prob) fuel (bucketOrder c.wrd_count_)
          (setPoutside h snode (1 / (h snode).prob)) [] := by
    simp [set_Alphas, hS, hp]
  have hsplit : ∀ l1 l2, bucketOrder c.wrd_count_ = l1 ++ (j, i) :: l2 →
      set_Alphas env fuel c h
        = match runBuckets c snode (1 / (h snode).prob) fuel l1
            (setPoutside h snode (1 / (h snode).prob)) [] with
          | .done _ _ => .fatal Fatal.capacity
          | o => o := by
    intro l1 l2 hl
    rw [hset, hl, runBuckets_append]
    cases runBuckets c snode (1 / (h snode).prob) fuel l1
        (setPoutside h snode (1 / (h snode).prob)) [] with
    | warned h1 => rfl
    | done h1 ps => simp only [runBuckets, hcap]
    | fatal f => rfl
  obtain ⟨l1, l2, hl⟩ := List.append_of_mem ((mem_bucketOrder _ j i).2 ⟨hj, hi⟩)
  refine ⟨hcap, ⟨l1, l2, hl, hsplit l1 l2 hl⟩, ?_, ?_⟩
  · rw [hsplit l1 l2 hl]
    rcases runBuckets_outcome c snode (1 / (h snode).prob) fuel l1
        (setPoutside h snode (1 / (h snode).prob)) [] with ⟨h1, ps, hd⟩ | hf | hf | hf
    · rw [hd]; exact Or.inl rfl
    · rw [hf]; exact Or.inl rfl
    · rw [hf]; exact Or.inr (Or.inl rfl)
    · rw [hf]; exact Or.inr (Or.inr rfl)
  · intro hjt hit
    obtain ⟨l, hhead⟩ := bucketOrder_head c.wrd_count_ (by omega)
    subst hjt hit
    have := hsplit [] l (by simpa using hhead)
    simpa only [runBuckets, List.nil_append] using this

/-- Witness for C4 (amended): the top bucket of `exChartOver` holds 401 entries other
than the start item. -/
theorem set_Alphas_capacity_fatal_witness :
    set_Alphas exEnv 1 exChartOver exHeapFull = .fatal Fatal.capacity :=
  (set_Alphas_capacity_fatal exEnv 1 exChartOver exHeapFull 0 0 0 (by decide) (by decide!)
    (by decide) (by decide) (by decide!) (le_refl 1)).2.2.2 rfl rfl


/-! ### Outside pass: a second run (C2) -/

/-- Why the spans of the chart matter for a second run: in the heap `exHeap2`
the spans are not consistent (item `1` over (0,1) needs an edge over (0,2)
whose finished parent, item `2`, lies over (1,2)), so a parent of the same
span length sits in a bucket processed after its child's. The first run
completes, leaving item `1` at 0 and item `2` at 1, and the second run moves
item `1` to 1. -/
theorem set_Alphas_second_run_differs :
    spanOK exChart2 exHeap2 = false ∧
    parentsWithin spanAbove exChart2 exHeap2 = true ∧
    (set_Alphas exEnv 5 exChart2 exHeap2).passes? = some [1, 1, 1, 2, 1] ∧
    (set_Alphas exEnv 5 exChart2 exHeap2).poutside? 1 = some 0 ∧
    (set_Alphas exEnv 5 exChart2
      ((set_Alphas exEnv 5 exChart2 exHeap2).heapOr exHeap2)).poutside? 1 = some 1 := by
  decide!

theorem static_setPoutside (h : Heap) (x : Nat) (v : ℚ) (y : Nat) :
    (setPoutside h x v y).static = (h y).static := by
  unfold setPoutside
  by_cases hy : y = x <;> simp [hy, Item.static]

theorem Item.eq_of_static (a b : Item) (hs : a.static = b.static)
    (hp : a.poutside = b.poutside) : a = b := by
  cases a; cases b
  simp only [Item.static, Item.mk.injEq] at hs
  simp only at hp
  simp [hs, hp]

theorem SameStatic.needme_eq {a b : Heap} (hs : SameStatic a b) (x : Nat) :
    (a x).needme = (b x).needme := by
  have := congrArg Item.needme (hs x)
  simpa [Item.static] using this

theorem SameStatic.prob_eq {a b : Heap} (hs : SameStatic a b) (x : Nat) :
    (a x).prob = (b x).prob := by
  have := congrArg Item.prob (hs x)
  simpa [Item.static] using this

theorem SameStatic.term_eq {a b : Heap} (hs : SameStatic a b) (x : Nat) :
    (a x).term = (b x).term := by
  have := congrArg Item.term (hs x)
  simpa [Item.static] using this

theorem SameStatic.setPoutside_static {a b : Heap} (hs : SameStatic a b) (x : Nat) (v w : ℚ) :
    SameStatic (setPoutside a x v) (setPoutside b x w) := by
  intro y; rw [static_setPoutside, static_setPoutside]; exact hs y

theorem AgreeOn.setPoutside_agree {P : Nat → Prop} {a b : Heap} (hag : AgreeOn P a b) (x : Nat)
    (v : ℚ) : AgreeOn P (setPoutside a x v) (setPoutside b x v) := by
  intro y hy
  unfold ChartBase.setPoutside
  by_cases hyx : y = x
  · simp [hyx]
  · simpa [hyx] using hag y hy

theorem initBucket_static (snode : Nat) (il : List Nat) :
    ∀ (h : Heap) (y : Nat), (initBucket snode il h y).static = (h y).static := by
  induction il with
  | nil => intro h y; rfl
  | cons itm il ih =>
    intro h y
    simp only [initBucket]
    rw [ih]
    by_cases hs : itm ≠ snode
    · simp only [hs, if_true, ne_eq, not_false_eq_true]; exact static_setPoutside _ _ _ _
    · simp [hs]

theorem initBucket_poutside (snode : Nat) (il : List Nat) :
    ∀ (h : Heap) (y : Nat),
      (initBucket snode il h y).poutside
        = if y ∈ il ∧ y ≠ snode then 0 else (h y).poutside := by
  induction il with
  | nil => intro h y; simp [initBucket]
  | cons itm il ih =>
    intro h y
    simp only [initBucket]
    rw [ih]
    by_cases hs : itm = snode
    · subst hs
      by_cases hy : y = itm
      · simp [hy]
      · simp [hy]
    · by_cases hy : y = itm
      · subst hy
        by_cases hin : y ∈ il <;> simp [hin, hs, ChartBase.setPoutside]
      · simp [hs, hy, ChartBase.setPoutside]

theorem initBucket_other (snode : Nat) (il : List Nat) (h : Heap) (y : Nat)
    (hy : y ∉ il) : initBucket snode il h y = h y := by
  apply Item.eq_of_static
  · exact initBucket_static snode il h y
  · rw [initBucket_poutside]; simp [hy]

/-! ### Outside pass: buckets whose entries have no needing edge -/

theorem getD_zero_of_all_zero (l : List ℚ) (hz : ∀ v ∈ l, v = 0) (k : Nat) :
    l.getD k 0 = 0 := by
  rw [List.getD_eq_getElem?_getD]
  cases hk : l[k]? with
  | none => rfl
  | some v => exact hz v (List.getElem?_mem hk)

theorem liveCount_le_length (snode : Nat) (il : List Nat) : liveCount snode il ≤ il.length :=
  List.length_filter_le _ _

theorem liveCount_eq_length (snode : Nat) (il : List Nat) (hne : ∀ x ∈ il, x ≠ snode) :
    liveCount snode il = il.length := by
  unfold liveCount
  rw [List.filter_eq_self.2 (fun x hx => by simpa using hne x hx)]

theorem candidates_quiet (snode : Nat) (h : Heap) (il : List Nat) :
    ∀ tempAlpha : List ℚ, (∀ itm ∈ il, itm ≠ snode → (h itm).needme = []) →
      tempAlpha.length + liveCount snode il ≤ tempAlphaSize → (∀ v ∈ tempAlpha, v = 0) →
      ∃ out, candidates snode h il tempAlpha = some out ∧ ∀ v ∈ out, v = 0 := by
  induction il with
  | nil => intro tempAlpha _ _ hz; exact ⟨tempAlpha, rfl, hz⟩
  | cons itm il ih =>
    intro tempAlpha hneed hcap hz
    have hrest : ∀ x ∈ il, x ≠ snode → (h x).needme = [] :=
      fun x hx => hneed x (List.mem_cons_of_mem _ hx)
    rw [liveCount_cons] at hcap
    unfold candidates
    by_cases hsn : itm = snode
    · simp only [hsn, if_true] at hcap ⊢
      exact ih tempAlpha hrest hcap hz
    · simp only [hsn, if_false] at hcap ⊢
      have hlt : tempAlpha.length < tempAlphaSize := by omega
      simp only [hlt, if_true, hneed itm (List.mem_cons_self _ _) hsn, itmalphaSum,
        zero_div]
      refine ih _ hrest (by simp only [List.length_append, List.length_singleton]; omega) ?_
      intro v hv
      rcases List.mem_append.1 hv with hv | hv
      · exact hz v hv
      · simpa using hv

theorem applyAlphas_quiet (snode : Nat) (sAlpha : ℚ) (top : Bool) (tempAlpha : List ℚ)
    (hz : ∀ v ∈ tempAlpha, v = 0) (h : Heap) (il : List Nat)
    (hq : ∀ itm ∈ il, itm ≠ snode →
      (top && (h itm).term.isRoot) = false ∧ (h itm).poutside = 0) :
    ∀ (vc : Bool) (tp : Nat),
      applyAlphas snode sAlpha top tempAlpha il h vc tp
        = .ok (h, vc, tp + liveCount snode il) := by
  induction il with
  | nil => intro vc tp; simp [applyAlphas, liveCount]
  | cons itm il ih =>
    intro vc tp
    have hrest := ih (fun x hx => hq x (List.mem_cons_of_mem _ hx))
    rw [liveCount_cons]
    unfold applyAlphas
    by_cases hsn : itm = snode
    · simp only [hsn, if_true]
      exact hrest vc tp
    · obtain ⟨hpin, hzero⟩ := hq itm (List.mem_cons_self _ _) hsn
      simp only [hsn, if_false, hpin, Bool.false_eq_true, getD_zero_of_all_zero _ hz, hzero,
        ne_eq, not_true_eq_false, if_true]
      rw [hrest vc (tp + 1)]
      simp only [Nat.add_assoc, Nat.add_comm 1]

theorem alphaPass_quiet (snode : Nat) (sAlpha : ℚ) (top : Bool) (il : List Nat) (h : Heap)
    (hneed : ∀ itm ∈ il, itm ≠ snode → (h itm).needme = [])
    (hq : ∀ itm ∈ il, itm ≠ snode →
      (top && (h itm).term.isRoot) = false ∧ (h itm).poutside = 0)
    (hcap : liveCount snode il ≤ tempAlphaSize) :
    alphaPass snode sAlpha top il h = .ok (h, false) := by
  obtain ⟨out, hout, hz⟩ := candidates_quiet snode h il [] hneed (by simpa using hcap)
    (fun v hv => by cases hv)
  have hlen := candidates_length snode h il [] out hout
  simp only [List.length_nil, Nat.zero_add] at hlen
  unfold alphaPass
  rw [hout]
  simp only [applyAlphas_quiet snode sAlpha top out hz h il hq, Nat.zero_add, hlen, ne_eq,
    not_true_eq_false, if_false]

theorem processBucket_quiet (c : ChartBase) (snode : Nat) (sAlpha : ℚ) (fuel : Nat)
    (j i : Int) (h : Heap) (hfuel : 1 ≤ fuel)
    (hneed : ∀ itm ∈ c.regs j i, itm ≠ snode → (h itm).needme = [])
    (hpin : ∀ itm ∈ c.regs j i, itm ≠ snode →
      ((decide (i = 0) && decide (j = c.wrd_count_ - 1)) && (h itm).term.isRoot) = false)
    (hcap : liveCount snode (c.regs j i) ≤ tempAlphaSize) :
    processBucket c snode sAlpha fuel j i h = .ok (initBucket snode (c.regs j i) h, 1) := by
  obtain ⟨f, rfl⟩ : ∃ f, fuel = f + 1 := ⟨fuel - 1, by omega⟩
  have hs : SameStatic (initBucket snode (c.regs j i) h) h :=
    fun y => initBucket_static _ _ _ _
  have hp := alphaPass_quiet snode sAlpha (decide (i = 0) && decide (j = c.wrd_count_ - 1))
    (c.regs j i) (initBucket snode (c.regs j i) h)
    (fun itm hitm hsn => by rw [hs.needme_eq itm]; exact hneed itm hitm hsn)
    (fun itm hitm hsn => ⟨by rw [hs.term_eq itm]; exact hpin itm hitm hsn,
      by rw [initBucket_poutside]; simp [hitm, hsn]⟩)
    hcap
  simp only [processBucket, alphaLoop, hp]

theorem set_Alphas_eq_runBuckets (env : TermEnv) (fuel : Nat) (c : ChartBase) (h : Heap)
    (snode : Nat) (hS : get_S env c h = some snode) (hp : (h snode).prob ≠ 0) :
    set_Alphas env fuel c h
      = runBuckets c snode (1 / (h snode).prob) fuel (bucketOrder c.wrd_count_)
          (setPoutside h snode (1 / (h snode).prob)) [] := by
  unfold set_Alphas
  rw [hS]
  simp only [if_neg hp]

theorem runBuckets_two (c : ChartBase) (snode : Nat) (sAlpha : ℚ) (fuel : Nat)
    (j1 i1 j2 i2 : Int) (h h1 h2 : Heap) (n1 n2 : Nat)
    (e1 : processBucket c snode sAlpha fuel j1 i1 h = .ok (h1, n1))
    (e2 : processBucket c snode sAlpha fuel j2 i2 h1 = .ok (h2, n2)) :
    runBuckets c snode sAlpha fuel [(j1, i1), (j2, i2)] h [] = .done h2 [n1, n2] := by
  simp only [runBuckets, e1, e2, List.nil_append, List.singleton_append]

/-- Counterexample to C4 as stated: the top bucket of `exChartFull` holds 401
entries, more than the capacity of 400, the root item exists with inside
probability 1, and `set_Alphas` completes the pass (one pass per bucket)
with no fatal condition: the start item takes no slot of `tempAlpha`. -/
theorem set_Alphas_full_bucket_completes :
    400 < (exChartFull.regs 0 0).length ∧
    get_S exEnv exChartFull exHeapFull = some 0 ∧ (exHeapFull 0).prob ≠ 0 ∧
    (set_Alphas exEnv 1 exChartFull exHeapFull).passes? = some [1, 1] ∧
    (set_Alphas exEnv 1 exChartFull exHeapFull).fatal? = none := by
  have hS : get_S exEnv exChartFull exHeapFull = some 0 := by decide
  have hp : (exHeapFull 0).prob ≠ 0 := by simp [exHeapFull]
  have hreg : exChartFull.regs 0 0 = 0 :: List.range' 1 400 := by
    simp [exChartFull]
  have hreg1 : exChartFull.regs 0 1 = [] := by simp [exChartFull]
  have hneed : ∀ (a : Heap), SameStatic a exHeapFull → ∀ itm, (a itm).needme = [] := by
    intro a ha itm
    rw [ha.needme_eq itm]
    by_cases h0 : itm = 0 <;> simp [exHeapFull, h0]
  have hroot : ∀ (a : Heap), SameStatic a exHeapFull → ∀ itm, itm ≠ 0 →
      (a itm).term.isRoot = false := by
    intro a ha itm h0
    rw [ha.term_eq itm]
    simp [exHeapFull, h0, exNP]
  have hcap : liveCount 0 (exChartFull.regs 0 0) ≤ tempAlphaSize := by
    rw [hreg, liveCount_cons]
    simp only [if_true]
    exact le_trans (liveCount_le_length _ _) (by simp [tempAlphaSize])
  have hs0 : SameStatic (setPoutside exHeapFull 0 (1 / (exHeapFull 0).prob)) exHeapFull :=
    fun y => static_setPoutside _ _ _ _
  have hb0 := processBucket_quiet exChartFull 0 (1 / (exHeapFull 0).prob) 1 0 0
    (setPoutside exHeapFull 0 (1 / (exHeapFull 0).prob)) (le_refl 1)
    (fun itm _ _ => hneed _ hs0 itm)
    (fun itm _ h0 => by rw [hroot _ hs0 itm h0]; simp) hcap
  have hs1 : SameStatic (initBucket 0 (exChartFull.regs 0 0)
      (setPoutside exHeapFull 0 (1 / (exHeapFull 0).prob))) exHeapFull :=
    fun y => (initBucket_static _ _ _ _).trans (hs0 y)
  have hb1 := processBucket_quiet exChartFull 0 (1 / (exHeapFull 0).prob) 1 0 1
    (initBucket 0 (exChartFull.regs 0 0)
      (setPoutside exHeapFull 0 (1 / (exHeapFull 0).prob))) (le_refl 1)
    (fun itm _ _ => hneed _ hs1 itm)
    (fun itm _ h0 => by rw [hroot _ hs1 itm h0]; simp)
    (by rw [hreg1]; simp [liveCount])
  have hrun : ∃ h1, set_Alphas exEnv 1 exChartFull exHeapFull = .done h1 [1, 1] :=
    ⟨_, (set_Alphas_eq_runBuckets exEnv 1 exChartFull exHeapFull 0 hS hp).trans
      (runBuckets_two exChartFull 0 _ 1 0 0 0 1 _ _ _ 1 1 hb0 hb1)⟩
  obtain ⟨h1, hrun⟩ := hrun
  refine ⟨by rw [hreg]; simp, hS, hp, ?_, ?_⟩
  · rw [hrun]; rfl
  · rw [hrun]; rfl

/-! ### Outside pass: two runs from heaps that differ in outside probabilities -/

theorem itmalphaSum_congr (a b : Heap) (es : List Edge) :
    ∀ acc : ℚ,
      (∀ e ∈ es, ∀ p, e.finishedParent = some p → (a p).poutside = (b p).poutside) →
      itmalphaSum a es acc = itmalphaSum b es acc := by
  induction es with
  | nil => intro acc _; rfl
  | cons e es ih =>
    intro acc hpar
    have hrest : ∀ e1 ∈ es, ∀ p, e1.finishedParent = some p → (a p).poutside = (b p).poutside :=
      fun e1 he1 => hpar e1 (List.mem_cons_of_mem _ he1)
    unfold itmalphaSum
    cases hfp : e.finishedParent with
    | none => simp only; exact ih acc hrest
    | some p =>
      simp only
      rw [hpar e (List.mem_cons_self _ _) p hfp]
      exact ih _ hrest

theorem candidates_congr (snode : Nat) (P : Nat → Prop) (a b : Heap) (hs : SameStatic a b)
    (hag : AgreeOn P a b) (il : List Nat) :
    ∀ tempAlpha : List ℚ, ParentsIn P snode il a →
      candidates snode a il tempAlpha = candidates snode b il tempAlpha := by
  induction il with
  | nil => intro tempAlpha _; rfl
  | cons itm il ih =>
    intro tempAlpha hpar
    have hrest : ParentsIn P snode il a :=
      fun x hx => hpar x (List.mem_cons_of_mem _ hx)
    unfold candidates
    by_cases hsn : itm = snode
    · simp only [hsn, if_true]; exact ih tempAlpha hrest
    · simp only [hsn, if_false]
      have hsum : itmalphaSum a (a itm).needme 0 = itmalphaSum b (b itm).needme 0 := by
        rw [← hs.needme_eq itm]
        exact itmalphaSum_congr a b _ 0
          (fun e he p hp => hag p (hpar itm (List.mem_cons_self _ _) hsn e he p hp))
      rw [hsum, hs.prob_eq itm]
      split
      · exact ih _ hrest
      · rfl

theorem applyAlphas_sim (snode : Nat) (sAlpha : ℚ) (top : Bool) (tempAlpha : List ℚ)
    (P : Nat → Prop) (il : List Nat) :
    ∀ (a b : Heap) (vc : Bool) (tp : Nat), SameStatic a b → AgreeOn P a b →
      (∀ itm ∈ il, itm ≠ snode → P itm) →
      ExceptRel (ApplyRel P) (applyAlphas snode sAlpha top tempAlpha il a vc tp)
        (applyAlphas snode sAlpha top tempAlpha il b vc tp) := by
  induction il with
  | nil => intro a b vc tp hs hag _; exact ⟨hs, hag, rfl, rfl⟩
  | cons itm il ih =>
    intro a b vc tp hs hag hP
    have hrest : ∀ x ∈ il, x ≠ snode → P x := fun x hx => hP x (List.mem_cons_of_mem _ hx)
    unfold applyAlphas
    by_cases hsn : itm = snode
    · simp only [hsn, if_true]; exact ih a b vc tp hs hag hrest
    · simp only [hsn, if_false]
      rw [← hs.term_eq itm, ← hag itm (hP itm (List.mem_cons_self _ _) hsn)]
      split
      · exact ih _ _ _ _ (hs.setPoutside_static _ _ _) (hag.setPoutside_agree _ _) hrest
      · split
        · split
          · exact rfl
          · exact ih _ _ _ _ hs hag hrest
        · split
          · exact ih _ _ _ _ (hs.setPoutside_static _ _ _) (hag.setPoutside_agree _ _) hrest
          · exact ih _ _ _ _ hs hag hrest

theorem applyAlphas_frame (snode : Nat) (sAlpha : ℚ) (top : Bool) (tempAlpha : List ℚ)
    (il : List Nat) :
    ∀ (a : Heap) (vc : Bool) (tp : Nat) (r : Heap × Bool × Nat),
      applyAlphas snode sAlpha top tempAlpha il a vc tp = .ok r →
      SameStatic r.1 a ∧ ∀ y, y ∉ il → r.1 y = a y := by
  induction il with
  | nil =>
    intro a vc tp r hr
    simp only [applyAlphas, Except.ok.injEq] at hr
    subst hr
    exact ⟨fun _ => rfl, fun _ _ => rfl⟩
  | cons itm il ih =>
    intro a vc tp r hr
    have hset : ∀ (v : ℚ) (vc1 : Bool) (tp1 : Nat),
        applyAlphas snode sAlpha top tempAlpha il (setPoutside a itm v) vc1 tp1 = .ok r →
        SameStatic r.1 a ∧ ∀ y, y ∉ itm :: il → r.1 y = a y := by
      intro v vc1 tp1 h1
      obtain ⟨h2, h3⟩ := ih _ _ _ _ h1
      refine ⟨fun y => (h2 y).trans (static_setPoutside _ _ _ _), fun y hy => ?_⟩
      rw [h3 y (fun hin => hy (List.mem_cons_of_mem _ hin))]
      have : y ≠ itm := fun h => hy (h ▸ List.mem_cons_self _ _)
      simp [ChartBase.setPoutside, this]
    have hkeep : ∀ (vc1 : Bool) (tp1 : Nat),
        applyAlphas snode sAlpha top tempAlpha il a vc1 tp1 = .ok r →
        SameStatic r.1 a ∧ ∀ y, y ∉ itm :: il → r.1 y = a y := by
      intro vc1 tp1 h1
      obtain ⟨h2, h3⟩ := ih _ _ _ _ h1
      exact ⟨h2, fun y hy => h3 y (fun hin => hy (List.mem_cons_of_mem _ hin))⟩
    unfold applyAlphas at hr
    by_cases hsn : itm = snode
    · simp only [hsn, if_true] at hr
      exact hkeep _ _ hr
    · simp only [hsn, if_false] at hr
      split at hr
      · exact hset _ _ _ hr
      · split at hr
        · split at hr
          · cases hr
          · exact hkeep _ _ hr
        · split at hr
          · exact hset _ _ _ hr
          · exact hkeep _ _ hr

theorem ParentsIn.of_static {P : Nat → Prop} {snode : Nat} {il : List Nat} {a a1 : Heap}
    (hpar : ParentsIn P snode il a) (hs : SameStatic a1 a) : ParentsIn P snode il a1 := by
  intro itm hitm hsn e he p hp
  rw [hs.needme_eq itm] at he
  exact hpar itm hitm hsn e he p hp

theorem SameStatic.symm {a b : Heap} (hs : SameStatic a b) : SameStatic b a :=
  fun x => (hs x).symm

theorem SameStatic.trans {a b c : Heap} (h1 : SameStatic a b) (h2 : SameStatic b c) :
    SameStatic a c := fun x => (h1 x).trans (h2 x)

theorem alphaPass_sim (snode : Nat) (sAlpha : ℚ) (top : Bool) (P : Nat → Prop)
    (il : List Nat) (a b : Heap) (hs : SameStatic a b) (hag : AgreeOn P a b)
    (hP : ∀ itm ∈ il, itm ≠ snode → P itm) (hpar : ParentsIn P snode il a) :
    ExceptRel (StepRel P) (alphaPass snode sAlpha top il a) (alphaPass snode sAlpha top il b) := by
  unfold alphaPass
  rw [← candidates_congr snode P a b hs hag il [] hpar]
  cases candidates snode a il [] with
  | none => exact rfl
  | some tempAlpha =>
    simp only
    have hsim := applyAlphas_sim snode sAlpha top tempAlpha P il a b false 0 hs hag hP
    cases h1 : applyAlphas snode sAlpha top tempAlpha il a false 0 with
    | error f =>
      cases h2 : applyAlphas snode sAlpha top tempAlpha il b false 0 with
      | error g => rw [h1, h2] at hsim; exact hsim
      | ok r2 => rw [h1, h2] at hsim; exact hsim.elim
    | ok r1 =>
      cases h2 : applyAlphas snode sAlpha top tempAlpha il b false 0 with
      | error g => rw [h1, h2] at hsim; exact hsim.elim
      | ok r2 =>
        rw [h1, h2] at hsim
        obtain ⟨a1, v1, t1⟩ := r1
        obtain ⟨b1, v2, t2⟩ := r2
        obtain ⟨hs1, hag1, hv, ht⟩ := hsim
        simp only at hv ht
        subst hv ht
        simp only
        split
        · exact rfl
        · exact ⟨hs1, hag1, rfl⟩

theorem alphaPass_frame (snode : Nat) (sAlpha : ℚ) (top : Bool) (il : List Nat) (a : Heap)
    (r : Heap × Bool) (hr : alphaPass snode sAlpha top il a = .ok r) :
    SameStatic r.1 a ∧ ∀ y, y ∉ il → r.1 y = a y := by
  unfold alphaPass at hr
  cases hc : candidates snode a il [] with
  | none => rw [hc] at hr; cases hr
  | some tempAlpha =>
    rw [hc] at hr
    simp only at hr
    cases h1 : applyAlphas snode sAlpha top tempAlpha il a false 0 with
    | error f => rw [h1] at hr; cases hr
    | ok r1 =>
      rw [h1] at hr
      obtain ⟨a1, v1, t1⟩ := r1
      simp only at hr
      split at hr
      · cases hr
      · simp only [Except.ok.injEq] at hr
        subst hr
        exact applyAlphas_frame _ _ _ _ _ _ _ _ _ h1

theorem alphaLoop_sim (snode : Nat) (sAlpha : ℚ) (top : Bool) (P : Nat → Prop)
    (il : List Nat) (hP : ∀ itm ∈ il, itm ≠ snode → P itm) :
    ∀ (fuel : Nat) (a b : Heap) (n : Nat), SameStatic a b → AgreeOn P a b →
      ParentsIn P snode il a →
      ExceptRel (StepRel P) (alphaLoop snode sAlpha top il fuel a n)
        (alphaLoop snode sAlpha top il fuel b n) := by
  intro fuel
  induction fuel with
  | zero => intro a b n _ _ _; exact rfl
  | succ fuel ih =>
    intro a b n hs hag hpar
    have hsim := alphaPass_sim snode sAlpha top P il a b hs hag hP hpar
    unfold alphaLoop
    cases h1 : alphaPass snode sAlpha top il a with
    | error f =>
      cases h2 : alphaPass snode sAlpha top il b with
      | error g => rw [h1, h2] at hsim; exact hsim
      | ok r2 => rw [h1, h2] at hsim; exact hsim.elim
    | ok r1 =>
      cases h2 : alphaPass snode sAlpha top il b with
      | error g => rw [h1, h2] at hsim; exact hsim.elim
      | ok r2 =>
        rw [h1, h2] at hsim
        have hfr := (alphaPass_frame _ _ _ _ _ _ h1).1
        obtain ⟨a1, v1⟩ := r1
        obtain ⟨b1, v2⟩ := r2
        obtain ⟨hs1, hag1, hv⟩ := hsim
        simp only at hv hfr
        subst hv
        cases v1 with
        | true => exact ih a1 b1 (n + 1) hs1 hag1 (hpar.of_static hfr)
        | false => exact ⟨hs1, hag1, rfl⟩

theorem alphaLoop_frame (snode : Nat) (sAlpha : ℚ) (top : Bool) (il : List Nat) :
    ∀ (fuel : Nat) (a : Heap) (n : Nat) (r : Heap × Nat),
      alphaLoop snode sAlpha top il fuel a n = .ok r →
      SameStatic r.1 a ∧ ∀ y, y ∉ il → r.1 y = a y := by
  intro fuel
  induction fuel with
  | zero => intro a n r hr; simp [alphaLoop] at hr
  | succ fuel ih =>
    intro a n r hr
    unfold alphaLoop at hr
    cases h1 : alphaPass snode sAlpha top il a with
    | error f => rw [h1] at hr; cases hr
    | ok r1 =>
      rw [h1] at hr
      obtain ⟨hf1, hf2⟩ := alphaPass_frame _ _ _ _ _ _ h1
      obtain ⟨a1, v1⟩ := r1
      cases v1 with
      | true =>
        simp only at hr hf1 hf2
        obtain ⟨hg1, hg2⟩ := ih _ _ _ hr
        exact ⟨hg1.trans hf1, fun y hy => (hg2 y hy).trans (hf2 y hy)⟩
      | false =>
        simp only [Except.ok.injEq] at hr
        subst hr
        exact ⟨hf1, hf2⟩

theorem processBucket_sim (c : ChartBase) (snode : Nat) (sAlpha : ℚ) (fuel : Nat)
    (j i : Int) (P : Nat → Prop) (a b : Heap) (hs : SameStatic a b) (hag : AgreeOn P a b)
    (hsn : P snode)
    (hpar : ParentsIn (fun y => P y ∨ y ∈ c.regs j i) snode (c.regs j i) a) :
    ExceptRel (StepRel (fun y => P y ∨ y ∈ c.regs j i))
      (processBucket c snode sAlpha fuel j i a) (processBucket c snode sAlpha fuel j i b) := by
  unfold processBucket
  have hsa : SameStatic (initBucket snode (c.regs j i) a) a :=
    fun y => initBucket_static _ _ _ _
  have hsb : SameStatic (initBucket snode (c.regs j i) b) b :=
    fun y => initBucket_static _ _ _ _
  refine alphaLoop_sim snode sAlpha _ _ (c.regs j i) (fun itm hitm _ => Or.inr hitm) fuel _ _ 0
    (hsa.trans (hs.trans hsb.symm)) ?_ (hpar.of_static hsa)
  intro y hy
  rw [initBucket_poutside, initBucket_poutside]
  by_cases hin : y ∈ c.regs j i ∧ y ≠ snode
  · simp [hin]
  · simp only [hin, if_false]
    rcases hy with hy | hy
    · exact hag y hy
    · have : y = snode := by
        by_contra hne
        exact hin ⟨hy, hne⟩
      subst this
      exact hag y hsn

theorem processBucket_frame (c : ChartBase) (snode : Nat) (sAlpha : ℚ) (fuel : Nat)
    (j i : Int) (a : Heap) (r : Heap × Nat)
    (hr : processBucket c snode sAlpha fuel j i a = .ok r) :
    SameStatic r.1 a ∧ ∀ y, y ∉ c.regs j i → r.1 y = a y := by
  unfold processBucket at hr
  obtain ⟨h1, h2⟩ := alphaLoop_frame _ _ _ _ _ _ _ _ hr
  exact ⟨h1.trans (fun y => initBucket_static _ _ _ _),
    fun y hy => (h2 y hy).trans (initBucket_other _ _ _ _ hy)⟩

theorem ParentsChain.of_static_chain (c : ChartBase) (snode : Nat) {a a1 : Heap}
    (hs : SameStatic a1 a) (l : List (Int × Int)) :
    ∀ P : Nat → Prop, ParentsChain c snode a l P → ParentsChain c snode a1 l P := by
  induction l with
  | nil => intro P _; trivial
  | cons bk rest ih =>
    intro P hch
    exact ⟨hch.1.of_static hs, ih _ hch.2⟩

theorem OutcomeRel.mono {P Q : Nat → Prop} (hPQ : ∀ y, Q y → P y) :
    ∀ o1 o2 : Outcome, OutcomeRel P o1 o2 → OutcomeRel Q o1 o2
  | .fatal _, .fatal _, h => h
  | .done _ _, .done _ _, h => ⟨h.1, fun y hy => h.2.1 y (hPQ y hy), h.2.2⟩
  | .warned _, _, h => h.elim
  | .fatal _, .done _ _, h => h.elim
  | .fatal _, .warned _, h => h.elim
  | .done _ _, .fatal _, h => h.elim
  | .done _ _, .warned _, h => h.elim

theorem runBuckets_sim (c : ChartBase) (snode : Nat) (sAlpha : ℚ) (fuel : Nat)
    (l : List (Int × Int)) :
    ∀ (P : Nat → Prop) (a b : Heap) (passes : List Nat), SameStatic a b → AgreeOn P a b →
      P snode → ParentsChain c snode a l P →
      OutcomeRel (fun y => P y ∨ ∃ bk ∈ l, y ∈ c.regs bk.1 bk.2)
        (runBuckets c snode sAlpha fuel l a passes)
        (runBuckets c snode sAlpha fuel l b passes) := by
  induction l with
  | nil =>
    intro P a b passes hs hag _ _
    refine ⟨hs, fun y hy => ?_, rfl⟩
    rcases hy with hy | ⟨bk, hbk, _⟩
    · exact hag y hy
    · cases hbk
  | cons bk rest ih =>
    intro P a b passes hs hag hsn hch
    obtain ⟨j, i⟩ := bk
    have hsim := processBucket_sim c snode sAlpha fuel j i P a b hs hag hsn hch.1
    unfold runBuckets
    cases h1 : processBucket c snode sAlpha fuel j i a with
    | error f =>
      cases h2 : processBucket c snode sAlpha fuel j i b with
      | error g => rw [h1, h2] at hsim; exact hsim
      | ok r2 => rw [h1, h2] at hsim; exact hsim.elim
    | ok r1 =>
      cases h2 : processBucket c snode sAlpha fuel j i b with
      | error g => rw [h1, h2] at hsim; exact hsim.elim
      | ok r2 =>
        rw [h1, h2] at hsim
        have hfr := (processBucket_frame _ _ _ _ _ _ _ _ h1).1
        obtain ⟨a1, n1⟩ := r1
        obtain ⟨b1, n2⟩ := r2
        obtain ⟨hs1, hag1, hn⟩ := hsim
        simp only at hn hfr hs1 hag1
        subst hn
        simp only
        refine OutcomeRel.mono ?_ _ _
          (ih _ a1 b1 (passes ++ [n1]) hs1 hag1 (Or.inl hsn)
            (ParentsChain.of_static_chain c snode hfr rest _ hch.2))
        intro y hy
        rcases hy with hy | ⟨bk, hbk, hy⟩
        · exact Or.inl (Or.inl hy)
        · rcases List.mem_cons.1 hbk with rfl | hbk
          · exact Or.inl (Or.inr hy)
          · exact Or.inr ⟨bk, hbk, hy⟩

theorem runBuckets_frame (c : ChartBase) (snode : Nat) (sAlpha : ℚ) (fuel : Nat)
    (l : List (Int × Int)) :
    ∀ (a : Heap) (passes : List Nat) (a1 : Heap) (passes1 : List Nat),
      runBuckets c snode sAlpha fuel l a passes = .done a1 passes1 →
      SameStatic a1 a ∧ ∀ y, (∀ bk ∈ l, y ∉ c.regs bk.1 bk.2) → a1 y = a y := by
  induction l with
  | nil =>
    intro a passes a1 passes1 hr
    simp only [runBuckets, Outcome.done.injEq] at hr
    obtain ⟨rfl, -⟩ := hr
    exact ⟨fun _ => rfl, fun _ _ => rfl⟩
  | cons bk rest ih =>
    intro a passes a1 passes1 hr
    obtain ⟨j, i⟩ := bk
    unfold runBuckets at hr
    cases h1 : processBucket c snode sAlpha fuel j i a with
    | error f => rw [h1] at hr; cases hr
    | ok r1 =>
      rw [h1] at hr
      obtain ⟨hf1, hf2⟩ := processBucket_frame _ _ _ _ _ _ _ _ h1
      obtain ⟨a2, n⟩ := r1
      simp only at hr hf1 hf2
      obtain ⟨hg1, hg2⟩ := ih _ _ _ _ hr
      refine ⟨hg1.trans hf1, fun y hy => ?_⟩
      rw [hg2 y (fun bk hbk => hy bk (List.mem_cons_of_mem _ hbk))]
      exact hf2 y (hy (j, i) (List.mem_cons_self _ _))

theorem bucketOrder_pairwise (wc : Int) : (bucketOrder wc).Pairwise Before := by
  unfold bucketOrder
  rw [List.pairwise_flatMap]
  constructor
  · intro j _
    rw [List.pairwise_map]
    unfold iRange
    rw [List.pairwise_map]
    refine (List.pairwise_lt_range _).imp ?_
    intro m n hmn
    exact Or.inr ⟨rfl, by simp only; omega⟩
  · unfold jRange
    rw [List.pairwise_reverse, List.pairwise_map]
    refine (List.pairwise_lt_range _).imp ?_
    intro m n hmn x hx y hy
    simp only [List.mem_map] at hx hy
    obtain ⟨i1, _, rfl⟩ := hx
    obtain ⟨i2, _, rfl⟩ := hy
    exact Or.inl (by simp only; omega)

theorem parentsWithin_spec (ok : Int × Int → Int × Int → Bool) (c : ChartBase) (h : Heap)
    (hpw : parentsWithin ok c h = true) :
    ∀ bk ∈ bucketOrder c.wrd_count_, ∀ itm ∈ c.regs bk.1 bk.2, ∀ e ∈ (h itm).needme,
      ∀ p, e.finishedParent = some p →
        ∃ b1 ∈ bucketOrder c.wrd_count_, p ∈ c.regs b1.1 b1.2 ∧ ok bk b1 = true := by
  intro bk hbk itm hitm e he p hp
  simp only [parentsWithin, List.all_eq_true] at hpw
  have h1 := hpw bk hbk itm hitm e he
  rw [hp] at h1
  simp only [List.any_eq_true, Bool.and_eq_true, decide_eq_true_eq] at h1
  exact h1

theorem parentsChain_of_notAfter (c : ChartBase) (snode : Nat) (h : Heap)
    (hpw : parentsWithin notAfter c h = true) (l2 : List (Int × Int)) :
    ∀ (l1 : List (Int × Int)) (P : Nat → Prop), bucketOrder c.wrd_count_ = l1 ++ l2 →
      (∀ y, (∃ bk ∈ l1, y ∈ c.regs bk.1 bk.2) → P y) → ParentsChain c snode h l2 P := by
  induction l2 with
  | nil => intro l1 P _ _; trivial
  | cons bk rest ih =>
    intro l1 P hl hP
    have hpair := bucketOrder_pairwise c.wrd_count_
    rw [hl, List.pairwise_append] at hpair
    have hafter : ∀ b1 ∈ rest, Before bk b1 := (List.pairwise_cons.1 hpair.2.1).1
    have hbk : bk ∈ bucketOrder c.wrd_count_ := by rw [hl]; simp
    refine ⟨?_, ih (l1 ++ [bk]) _ (by rw [hl]; simp) ?_⟩
    · intro itm hitm _ e he p hp
      obtain ⟨b1, hb1, hpin, hok⟩ := parentsWithin_spec notAfter c h hpw bk hbk itm hitm e he p hp
      rw [hl] at hb1
      rcases List.mem_append.1 hb1 with hb1 | hb1
      · exact Or.inl (hP p ⟨b1, hb1, hpin⟩)
      · rcases List.mem_cons.1 hb1 with rfl | hb1
        · exact Or.inr hpin
        · exfalso
          have hbef := hafter b1 hb1
          simp only [notAfter, Bool.or_eq_true, Bool.and_eq_true, decide_eq_true_eq] at hok
          unfold Before at hbef
          omega
    · intro y hy
      obtain ⟨b1, hb1, hy⟩ := hy
      rcases List.mem_append.1 hb1 with hb1 | hb1
      · exact Or.inl (hP y ⟨b1, hb1, hy⟩)
      · rw [List.mem_singleton] at hb1
        subst hb1
        exact Or.inr hy

theorem get_S_congr (env : TermEnv) (c : ChartBase) {a b : Heap} (hs : SameStatic a b) :
    get_S env c a = get_S env c b := by
  unfold get_S
  have : (fun itm => decide ((a itm).term = env.rootTerm))
      = (fun itm => decide ((b itm).term = env.rootTerm)) := by
    funext itm; rw [hs.term_eq itm]
  rw [this]

theorem Outcome.eq_done_of_passes (o : Outcome) (h : Heap) (ps : List Nat)
    (hp : o.passes? = some ps) : o = .done (o.heapOr h) ps := by
  cases o with
  | warned h1 => simp [Outcome.passes?] at hp
  | done h1 qs =>
    simp only [Outcome.passes?, Option.some.injEq] at hp
    simp [Outcome.heapOr, hp]
  | fatal f => simp [Outcome.passes?] at hp

theorem set_Alphas_independent (env : TermEnv) (fuel : Nat) (c : ChartBase) (h h1 : Heap)
    (ps : List Nat) (hrun : set_Alphas env fuel c h = .done h1 ps)
    (hpar : parentsWithin notAfter c h = true) (h0 : Heap) (hs0 : SameStatic h0 h) :
    ∃ snode h2, get_S env c h = some snode ∧ set_Alphas env fuel c h0 = .done h2 ps ∧
      SameStatic h1 h ∧ SameStatic h2 h ∧
      (∀ x, (x = snode ∨ ∃ bk ∈ bucketOrder c.wrd_count_, x ∈ c.regs bk.1 bk.2) →
        (h2 x).poutside = (h1 x).poutside) ∧
      (∀ x, ¬ (x = snode ∨ ∃ bk ∈ bucketOrder c.wrd_count_, x ∈ c.regs bk.1 bk.2) →
        h2 x = h0 x) := by
  unfold set_Alphas at hrun
  cases hS : get_S env c h with
  | none => rw [hS] at hrun; cases hrun
  | some snode =>
    rw [hS] at hrun
    simp only at hrun
    by_cases hp : (h snode).prob = 0
    · rw [if_pos hp] at hrun; cases hrun
    · rw [if_neg hp] at hrun
      have hS0 : get_S env c h0 = some snode := by rw [get_S_congr env c hs0, hS]
      have hp0 : (h0 snode).prob = (h snode).prob := hs0.prob_eq snode
      have hrun0 : set_Alphas env fuel c h0
          = runBuckets c snode (1 / (h snode).prob) fuel (bucketOrder c.wrd_count_)
              (setPoutside h0 snode (1 / (h snode).prob)) [] := by
        unfold set_Alphas
        rw [hS0]
        simp only [hp0, if_neg hp]
      have hsa : SameStatic (setPoutside h snode (1 / (h snode).prob)) h :=
        fun y => static_setPoutside _ _ _ _
      have hsb : SameStatic (setPoutside h0 snode (1 / (h snode).prob)) h0 :=
        fun y => static_setPoutside _ _ _ _
      have hchain : ParentsChain c snode (setPoutside h snode (1 / (h snode).prob))
          (bucketOrder c.wrd_count_) (fun y => y = snode) :=
        ParentsChain.of_static_chain c snode hsa _ _
          (parentsChain_of_notAfter c snode h hpar _ [] _ (by simp)
            (fun y hy => by obtain ⟨bk, hbk, _⟩ := hy; cases hbk))
      have hsim := runBuckets_sim c snode (1 / (h snode).prob) fuel (bucketOrder c.wrd_count_)
        (fun y => y = snode) _ _ [] (hsa.trans (hs0.symm.trans hsb.symm))
        (fun y hy => by simp [ChartBase.setPoutside, hy]) rfl hchain
      rw [hrun] at hsim
      cases hr2 : runBuckets c snode (1 / (h snode).prob) fuel (bucketOrder c.wrd_count_)
          (setPoutside h0 snode (1 / (h snode).prob)) [] with
      | warned h2 => rw [hr2] at hsim; exact hsim.elim
      | fatal f => rw [hr2] at hsim; exact hsim.elim
      | done h2 qs =>
        rw [hr2] at hsim
        obtain ⟨hs12, hag, hps⟩ := hsim
        subst hps
        obtain ⟨hf1, -⟩ := runBuckets_frame _ _ _ _ _ _ _ _ _ hrun
        obtain ⟨hf2, hf3⟩ := runBuckets_frame _ _ _ _ _ _ _ _ _ hr2
        refine ⟨snode, h2, rfl, by rw [hrun0, hr2], hf1.trans hsa,
          (hf2.trans hsb).trans hs0, fun x hx => (hag x hx).symm, fun x hx => ?_⟩
        rw [hf3 x (fun bk hbk hin => hx (Or.inr ⟨bk, hbk, hin⟩))]
        have : x ≠ snode := fun hxs => hx (Or.inl hxs)
        simp [ChartBase.setPoutside, this]

/-- The order condition behind idempotence. When `set_Alphas` completes on a
chart in which every finished parent of a needing edge of a bucket entry lies
in that same bucket or in a bucket processed before it (strictly greater span length, or
the same span length and a smaller start), the outside probability of every
chart item after the run does not depend on the outside probabilities held
before the call, and a second run completes with the same pass counts and
leaves every item's outside probability as the first run left it. -/
theorem set_Alphas_idempotent (env : TermEnv) (fuel : Nat) (c : ChartBase) (h h1 : Heap)
    (ps : List Nat) (hrun : set_Alphas env fuel c h = .done h1 ps)
    (hpar : parentsWithin notAfter c h = true) :
    set_Alphas env fuel c h1 = .done h1 ps ∧
    (∀ x, (set_Alphas env fuel c h1).poutside? x = some (h1 x).poutside) ∧
    (∀ h0, SameStatic h0 h →
      ∃ h2, set_Alphas env fuel c h0 = .done h2 ps ∧
        ∀ bk ∈ bucketOrder c.wrd_count_, ∀ x ∈ c.regs bk.1 bk.2,
          (h2 x).poutside = (h1 x).poutside) := by
  have hsecond : set_Alphas env fuel c h1 = .done h1 ps := by
    obtain ⟨snode, h2, -, hr0, hs1, -, -, -⟩ :=
      set_Alphas_independent env fuel c h h1 ps hrun hpar h (fun _ => rfl)
    obtain ⟨snode, h2, -, hr2, -, hs2, hin, hout⟩ :=
      set_Alphas_independent env fuel c h h1 ps hrun hpar h1 hs1
    have : h2 = h1 := by
      funext x
      by_cases hx : x = snode ∨ ∃ bk ∈ bucketOrder c.wrd_count_, x ∈ c.regs bk.1 bk.2
      · exact Item.eq_of_static _ _ ((hs2 x).trans (hs1 x).symm) (hin x hx)
      · exact hout x hx
    rw [hr2, this]
  refine ⟨hsecond, fun x => by rw [hsecond]; rfl, fun h0 hs0 => ?_⟩
  obtain ⟨snode, h2, -, hr2, -, -, hin, -⟩ :=
    set_Alphas_independent env fuel c h h1 ps hrun hpar h0 hs0
  exact ⟨h2, hr2, fun bk hbk x hx => hin x (Or.inr ⟨bk, hbk, hx⟩)⟩

/-! ### The constructor: bounds of `endPos` and token reads (C20) -/

theorem finalPunc_false_of_not (env : TermEnv) (w : String) (h : ¬ finalPunc env w = true) :
    finalPunc env w = false := by
  simpa using h

/-- C20. For every sentence the `endPos` computed by the constructor is at
least 0, lies between `wrd_count_-3` and `wrd_count_`, and whenever it is
below `wrd_count_` the token at index `endPos` is final-class; every token
index the constructor reads lies in `0 .. wrd_count_-1`, and no token is read
for an empty sentence. -/
theorem computeEndPos_bounds (env : TermEnv) (sentence : List String) (id : Int)
    (p : Pool) :
    (construct env sentence id p).1.endPos = (computeEndPos env sentence).1 ∧
    0 ≤ (computeEndPos env sentence).1 ∧
    (sentence.length : Int) - 3 ≤ (computeEndPos env sentence).1 ∧
    (computeEndPos env sentence).1 ≤ sentence.length ∧
    ((computeEndPos env sentence).1 < sentence.length →
      finalPunc env (lexeme sentence (computeEndPos env sentence).1) = true) ∧
    (∀ k ∈ (computeEndPos env sentence).2, 0 ≤ k ∧ k ≤ (sentence.length : Int) - 1) ∧
    (sentence.length = 0 → (computeEndPos env sentence).2 = []) := by
  refine ⟨rfl, ?_⟩
  unfold computeEndPos
  simp only
  by_cases h1 : 0 < (sentence.length : Int) ∧
      finalPunc env (lexeme sentence ((sentence.length : Int) - 1)) = true
  · rw [if_pos h1]
    obtain ⟨hpos, hf⟩ := h1
    refine ⟨by omega, by omega, by omega, fun _ => hf, ?_, ?_⟩
    · intro k hk; simp only [List.mem_singleton] at hk; omega
    · intro h0; omega
  · rw [if_neg h1]
    by_cases h2 : 2 < (sentence.length : Int)
    · rw [if_pos h2]
      have hpos : 0 < (sentence.length : Int) := by omega
      by_cases hf2 : finalPunc env (lexeme sentence ((sentence.length : Int) - 2)) = true
      · rw [if_pos hf2]
        refine ⟨by omega, by omega, by omega, fun _ => hf2, ?_, ?_⟩
        · intro k hk
          simp only [hpos, if_true, List.mem_append, List.mem_singleton, List.mem_cons,
            List.not_mem_nil, or_false] at hk
          omega
        · intro h0; omega
      · rw [if_neg hf2]
        by_cases hf3 : finalPunc env (lexeme sentence ((sentence.length : Int) - 3)) = true
        · rw [if_pos hf3]
          refine ⟨by omega, by omega, by omega, fun _ => hf3, ?_, ?_⟩
          · intro k hk
            simp only [hpos, if_true, List.mem_append, List.mem_singleton, List.mem_cons,
              List.not_mem_nil, or_false] at hk
            omega
          · intro h0; omega
        · rw [if_neg hf3]
          refine ⟨by omega, by omega, le_refl _, fun h => absurd h (lt_irrefl _), ?_, ?_⟩
          · intro k hk
            simp only [hpos, if_true, List.mem_append, List.mem_singleton, List.mem_cons,
              List.not_mem_nil, or_false] at hk
            omega
          · intro h0; omega
    · rw [if_neg h2]
      refine ⟨by omega, by omega, le_refl _, fun h => absurd h (lt_irrefl _), ?_, ?_⟩
      · intro k hk
        by_cases hpos : 0 < (sentence.length : Int)
        · simp only [hpos, if_true, List.mem_singleton] at hk; omega
        · simp only [hpos, if_false, List.not_mem_nil] at hk
      · intro h0
        have : ¬ (0 < (sentence.length : Int)) := by omega
        simp only [this, if_false]

/-- Witness for C20: a three-token sentence ending in a final-class token. -/
theorem computeEndPos_bounds_witness :
    (computeEndPos exEnv ["we", "go", "."]).1 = 2 ∧
    finalPunc exEnv (lexeme ["we", "go", "."] (computeEndPos exEnv ["we", "go", "."]).1) = true ∧
    (computeEndPos exEnv []).2 = [] :=
  ⟨by decide,
   (computeEndPos_bounds exEnv ["we", "go", "."] 0 exPoolEmpty).2.2.2.2.1 (by decide),
   (computeEndPos_bounds exEnv [] 0 exPoolEmpty).2.2.2.2.2.2 rfl⟩

/-! ### effEnd (C11, C12, C15) -/

/-- C11. For every chart and every position `pos` at or after `endPos`,
`effEnd(pos)` returns 1 when `pos == endPos` and 0 when `pos > endPos`, and
reads no token; in particular on the chart the constructor builds for any
sentence. -/
theorem effEnd_at_or_after_endPos (env : TermEnv) (c : ChartBase) (pos : Int)
    (hpos : c.endPos ≤ pos) :
    (pos = c.endPos → effEnd env c pos = (1, [])) ∧
    (c.endPos < pos → effEnd env c pos = (0, [])) ∧
    (effEnd env c pos).2 = [] := by
  unfold effEnd
  by_cases hgt : pos > c.endPos
  · have hne : pos ≠ c.endPos := by omega
    simp [hgt, hne]
  · have heq : pos = c.endPos := by omega
    simp [hgt, heq]

/-- Witness for C11: positions 2 and 3 of the chart of `we go .`, whose `endPos` is 2. -/
theorem effEnd_at_or_after_endPos_witness :
    effEnd exEnv (exChartOf ["we", "go", "."]) 2 = (1, []) ∧
    effEnd exEnv (exChartOf ["we", "go", "."]) 3 = (0, []) :=
  ⟨(effEnd_at_or_after_endPos exEnv (exChartOf ["we", "go", "."]) 2 (by decide)).1 (by decide),
   (effEnd_at_or_after_endPos exEnv (exChartOf ["we", "go", "."]) 3 (by decide)).2.1
     (by decide)⟩

/-- C12. On the chart the constructor builds for a sentence, for every
position `pos` with `0 ≤ pos < endPos`: `effEnd(pos)` returns 1 exactly when
the token at `pos` is final-class, or `pos ≤ wrd_count_-3` and the token at
`pos` is a comma and the token at `pos+1` is the closing quote; it returns 0
otherwise; and the token indices it reads (`pos`, and `pos+1` only in the
comma case) lie in `0 .. wrd_count_-1`. -/
theorem effEnd_before_endPos (env : TermEnv) (sentence : List String) (id : Int) (p : Pool)
    (pos : Int) (h0 : 0 ≤ pos) (hlt : pos < (construct env sentence id p).1.endPos) :
    ((effEnd env (construct env sentence id p).1 pos).1 = 1 ↔
      (finalPunc env (lexeme sentence pos) = true ∨
        (pos ≤ (sentence.length : Int) - 3 ∧ lexeme sentence pos = "," ∧
          lexeme sentence (pos + 1) = closeQuote))) ∧
    ((effEnd env (construct env sentence id p).1 pos).1 = 1 ∨
      (effEnd env (construct env sentence id p).1 pos).1 = 0) ∧
    ((effEnd env (construct env sentence id p).1 pos).2 = [pos] ∨
      ((effEnd env (construct env sentence id p).1 pos).2 = [pos, pos + 1] ∧
        finalPunc env (lexeme sentence pos) = false ∧
        pos ≤ (sentence.length : Int) - 3 ∧ lexeme sentence pos = ",")) ∧
    (∀ k ∈ (effEnd env (construct env sentence id p).1 pos).2,
      0 ≤ k ∧ k ≤ (sentence.length : Int) - 1) := by
  have hb := (computeEndPos_bounds env sentence id p).2.2.2.1
  have hend : (construct env sentence id p).1.endPos = (computeEndPos env sentence).1 := rfl
  have hwc : (construct env sentence id p).1.wrd_count_ = sentence.length := rfl
  have hsen : (construct env sentence id p).1.sentence_ = sentence := rfl
  rw [hend] at hlt
  have hn1 : ¬ pos > (construct env sentence id p).1.endPos := by rw [hend]; omega
  have hn2 : ¬ pos = (construct env sentence id p).1.endPos := by rw [hend]; omega
  unfold effEnd
  rw [if_neg hn1, if_neg hn2]
  simp only [hwc, hsen]
  by_cases hf : finalPunc env (lexeme sentence pos) = true
  · rw [if_pos hf]
    refine ⟨⟨fun _ => Or.inl hf, fun _ => rfl⟩, Or.inl rfl, Or.inl rfl, ?_⟩
    intro k hk
    simp only [List.mem_singleton] at hk
    omega
  · have hff := finalPunc_false_of_not env _ hf
    rw [if_neg hf]
    by_cases hfar : pos > (sentence.length : Int) - 3
    · rw [if_pos hfar]
      refine ⟨⟨fun h => absurd h (show ¬ (0 : Int) = 1 by decide), ?_⟩, Or.inr rfl, Or.inl rfl, ?_⟩
      · rintro (h | ⟨h, -, -⟩)
        · exact absurd h hf
        · omega
      · intro k hk
        simp only [List.mem_singleton] at hk
        omega
    · rw [if_neg hfar]
      have hle : pos ≤ (sentence.length : Int) - 3 := by omega
      by_cases hcomma : lexeme sentence pos = ","
      · rw [if_pos hcomma]
        by_cases hq : lexeme sentence (pos + 1) = closeQuote
        · rw [if_pos hq]
          refine ⟨⟨fun _ => Or.inr ⟨hle, hcomma, hq⟩, fun _ => rfl⟩, Or.inl rfl,
            Or.inr ⟨rfl, hff, hle, hcomma⟩, ?_⟩
          intro k hk
          simp only [List.mem_cons, List.mem_singleton, List.not_mem_nil, or_false] at hk
          omega
        · rw [if_neg hq]
          refine ⟨⟨fun h => absurd h (show ¬ (0 : Int) = 1 by decide), ?_⟩, Or.inr rfl,
            Or.inr ⟨rfl, hff, hle, hcomma⟩, ?_⟩
          · rintro (h | ⟨-, -, h⟩)
            · exact absurd h hf
            · exact absurd h hq
          · intro k hk
            simp only [List.mem_cons, List.mem_singleton, List.not_mem_nil, or_false] at hk
            omega
      · rw [if_neg hcomma]
        refine ⟨⟨fun h => absurd h (show ¬ (0 : Int) = 1 by decide), ?_⟩, Or.inr rfl, Or.inl rfl, ?_⟩
        · rintro (h | ⟨-, h, -⟩)
          · exact absurd h hf
          · exact absurd h hcomma
        · intro k hk
          simp only [List.mem_singleton] at hk
          omega

/-- Witness for C12: position 1 of `we , '' go .` holds a comma followed by
the closing quote, and `endPos` is 4. -/
theorem effEnd_before_endPos_witness :
    (effEnd exEnv (construct exEnv ["we", ",", closeQuote, "go", "."] 0 exPoolEmpty).1 1).1 = 1 ∧
    (∀ k ∈ (effEnd exEnv (construct exEnv ["we", ",", closeQuote, "go", "."] 0
        exPoolEmpty).1 1).2,
      0 ≤ k ∧ k ≤ ((["we", ",", closeQuote, "go", "."] : List String).length : Int) - 1) :=
  have hw := effEnd_before_endPos exEnv ["we", ",", closeQuote, "go", "."] 0 exPoolEmpty 1
    (by decide) (by decide)
  ⟨hw.1.2 (Or.inr ⟨by decide, by decide, by decide⟩), hw.2.2.2⟩

/-- Counterexample to C15 as stated: the chart of the two-token sentence `go .`
has `wrd_count_ = 2` and `endPos = 1`, and `effEnd(2)` returns 0. -/
theorem effEnd_wordCount_zero :
    (exChartOf ["go", "."]).wrd_count_ = 2 ∧ (exChartOf ["go", "."]).endPos = 1 ∧
    (effEnd exEnv (exChartOf ["go", "."]) (exChartOf ["go", "."]).wrd_count_).1 = 0 := by
  decide

/-- C15 (amended). On the chart freshly constructed for any sentence,
`effEnd(endPos)` returns 1 without reading a token; `effEnd(wrd_count_)`
returns 1 exactly when `endPos == wrd_count_`, that is when the constructor
found no final-class token, and returns 0 when `endPos < wrd_count_`. -/
theorem effEnd_at_endPos_and_wordCount (env : TermEnv) (sentence : List String) (id : Int)
    (p : Pool) :
    effEnd env (construct env sentence id p).1 (construct env sentence id p).1.endPos
      = (1, []) ∧
    ((effEnd env (construct env sentence id p).1
        (construct env sentence id p).1.wrd_count_).1 = 1 ↔
      (construct env sentence id p).1.endPos = (construct env sentence id p).1.wrd_count_) ∧
    ((construct env sentence id p).1.endPos < (construct env sentence id p).1.wrd_count_ →
      effEnd env (construct env sentence id p).1 (construct env sentence id p).1.wrd_count_
        = (0, [])) := by
  have hb : (construct env sentence id p).1.endPos
      ≤ (construct env sentence id p).1.wrd_count_ :=
    (computeEndPos_bounds env sentence id p).2.2.2.1
  refine ⟨by simp [effEnd], ?_, ?_⟩
  · by_cases heq : (construct env sentence id p).1.endPos
        = (construct env sentence id p).1.wrd_count_
    · simp [effEnd, heq]
    · have hgt : (construct env sentence id p).1.wrd_count_
          > (construct env sentence id p).1.endPos := by omega
      simp [effEnd, hgt, heq]
  · intro hlt
    have hgt : (construct env sentence id p).1.wrd_count_
        > (construct env sentence id p).1.endPos := by omega
    simp [effEnd, hgt]

/-- Witness for C15 (amended): `we go` has no final-class token, `go .` has one. -/
theorem effEnd_at_endPos_and_wordCount_witness :
    (effEnd exEnv (exChartOf ["we", "go"]) (exChartOf ["we", "go"]).wrd_count_).1 = 1 ∧
    effEnd exEnv (exChartOf ["go", "."]) (exChartOf ["go", "."]).wrd_count_ = (0, []) :=
  ⟨(effEnd_at_endPos_and_wordCount exEnv ["we", "go"] 0 exPoolEmpty).2.1.2 (by decide),
   (effEnd_at_endPos_and_wordCount exEnv ["go", "."] 0 exPoolEmpty).2.2 (by decide)⟩

/-! ### endFactorComp (C13, C14) -/

theorem effEnd_zero_or_one (env : TermEnv) (c : ChartBase) (pos : Int) :
    (effEnd env c pos).1 = 0 ∨ (effEnd env c pos).1 = 1 := by
  unfold effEnd
  split
  · exact Or.inl rfl
  · split
    · exact Or.inr rfl
    · simp only
      split
      · exact Or.inr rfl
      · split
        · exact Or.inl rfl
        · split
          · split
            · exact Or.inr rfl
            · exact Or.inl rfl
          · exact Or.inl rfl

/-- C13. For every chart (whatever its tokens and `endPos`) and every edge
with `start == 0` and `loc == wrd_count_` whose left-hand-side category, as
the registry holds it under its name, is root or sentence-category,
`endFactorComp` returns `endFactor`. -/
theorem endFactorComp_full_sentence (env : TermEnv) (fs : Factors) (c : ChartBase)
    (dnrl : Edge) (hstart : dnrl.start = 0) (hloc : dnrl.loc = c.wrd_count_)
    (hreg : env.get dnrl.lhs.name = some dnrl.lhs)
    (hcat : dnrl.lhs.isRoot = true ∨ dnrl.lhs.isS = true) :
    endFactorComp env fs c dnrl = some fs.endFactor := by
  unfold endFactorComp
  simp only [hreg]
  have h1 : (dnrl.lhs.isRoot || dnrl.lhs.isS) = true := by
    rcases hcat with h | h <;> simp [h]
  rw [if_pos ⟨h1, hloc, hstart⟩]

/-- Witness for C13: an `S` edge over the whole of `go .`, whose last token is
final-class, and over the whole of `we go`, whose last token is not. -/
theorem endFactorComp_full_sentence_witness :
    endFactorComp exEnv exFactors (exChartOf ["go", "."]) (exEdgeS 0 2) = some exFactors.endFactor ∧
    endFactorComp exEnv exFactors (exChartOf ["we", "go"]) (exEdgeS 0 2)
      = some exFactors.endFactor :=
  ⟨endFactorComp_full_sentence exEnv exFactors (exChartOf ["go", "."]) (exEdgeS 0 2) rfl rfl
     (by decide) (Or.inr rfl),
   endFactorComp_full_sentence exEnv exFactors (exChartOf ["we", "go"]) (exEdgeS 0 2) rfl rfl
     (by decide) (Or.inr rfl)⟩

/-- C14. `effEnd` returns only 0 or 1 at every position, so `endFactorComp`
never returns the reserved value 0.95: for every edge whose category name is
registered it returns `endFactor` when the edge is a full-sentence root/S
edge or `effEnd(loc) == 1`, and `midFactor` in every other case. -/
theorem endFactorComp_two_values (env : TermEnv) (fs : Factors) (c : ChartBase) :
    (∀ pos, (effEnd env c pos).1 = 0 ∨ (effEnd env c pos).1 = 1) ∧
    (∀ (dnrl : Edge) (trm : Term), env.get dnrl.lhs.name = some trm →
      endFactorComp env fs c dnrl
        = some (if ((trm.isRoot || trm.isS) = true ∧ dnrl.loc = c.wrd_count_ ∧ dnrl.start = 0) ∨
              (effEnd env c dnrl.loc).1 = 1
            then fs.endFactor else fs.midFactor)) := by
  refine ⟨effEnd_zero_or_one env c, ?_⟩
  intro dnrl trm hreg
  unfold endFactorComp
  simp only [hreg]
  by_cases hfull : (trm.isRoot || trm.isS) = true ∧ dnrl.loc = c.wrd_count_ ∧ dnrl.start = 0
  · rw [if_pos hfull, if_pos (Or.inl hfull)]
  · rw [if_neg hfull]
    rcases effEnd_zero_or_one env c dnrl.loc with h0 | h1
    · have hne : ¬ (effEnd env c dnrl.loc).1 = 1 := by rw [h0]; decide
      rw [if_neg hne, if_pos h0, if_neg (by rintro (h | h); exact hfull h; exact hne h)]
    · rw [if_pos h1, if_pos (Or.inr h1)]

/-- Witness for C14: in `we go . x` an `NP` edge ending at `endPos = 2` gets
`endFactor`, one ending at position 1 gets `midFactor`. -/
theorem endFactorComp_two_values_witness :
    endFactorComp exEnv exFactors (exChartOf ["we", "go", ".", "x"]) (exEdgeNP 0 2)
      = some exFactors.endFactor ∧
    endFactorComp exEnv exFactors (exChartOf ["we", "go", ".", "x"]) (exEdgeNP 0 1)
      = some exFactors.midFactor :=
  ⟨((endFactorComp_two_values exEnv exFactors (exChartOf ["we", "go", ".", "x"])).2
      (exEdgeNP 0 2) exNP (by decide)).trans (by rw [if_pos (Or.inr (by decide))]),
   ((endFactorComp_two_values exEnv exFactors (exChartOf ["we", "go", ".", "x"])).2
      (exEdgeNP 0 1) exNP (by decide)).trans
      (by rw [if_neg (by decide)])⟩

/-! ### Outside pass: what one pass computes (C16) -/

theorem alphaRatio_pos : 0 < alphaRatio := by
  unfold alphaRatio; norm_num

theorem alphaRatio_lt_one : alphaRatio < 1 := by
  unfold alphaRatio; norm_num

theorem itmalphaSum_eq_parentSum (h : Heap) (es : List Edge) :
    ∀ acc : ℚ, itmalphaSum h es acc = acc + parentSum h es := by
  induction es with
  | nil => intro acc; simp [itmalphaSum, parentSum]
  | cons e es ih =>
    intro acc
    unfold itmalphaSum
    cases hfp : e.finishedParent with
    | none =>
      simp only
      rw [ih]
      simp [parentSum, List.filterMap_cons, hfp]
    | some p =>
      simp only
      rw [ih]
      simp only [parentSum, List.filterMap_cons, hfp, Option.map_some', List.sum_cons]
      ring

theorem candOf_eq_parentSum (h : Heap) (itm : Nat) :
    candOf h itm = parentSum h (h itm).needme / (h itm).prob := by
  unfold candOf
  rw [itmalphaSum_eq_parentSum, zero_add]

theorem candidates_eq_map (snode : Nat) (h : Heap) (il : List Nat) :
    ∀ tempAlpha : List ℚ, tempAlpha.length + liveCount snode il ≤ tempAlphaSize →
      candidates snode h il tempAlpha
        = some (tempAlpha ++ (il.filter (fun itm => decide (itm ≠ snode))).map (candOf h)) := by
  induction il with
  | nil => intro tempAlpha _; simp [candidates]
  | cons itm il ih =>
    intro tempAlpha hcap
    rw [liveCount_cons] at hcap
    unfold candidates
    by_cases hsn : itm = snode
    · simp only [hsn, if_true] at hcap ⊢
      rw [ih tempAlpha hcap]
      simp
    · simp only [hsn, if_false] at hcap ⊢
      have hlt : tempAlpha.length < tempAlphaSize := by omega
      rw [if_pos hlt, ih _ (by simp only [List.length_append, List.length_singleton]; omega)]
      simp [List.filter_cons, hsn, candOf]

theorem applyAlphas_cons_ne (snode : Nat) (sAlpha : ℚ) (top : Bool) (tempAlpha : List ℚ)
    (itm : Nat) (il : List Nat) (h : Heap) (vc : Bool) (tp : Nat) (hsn : itm ≠ snode) :
    applyAlphas snode sAlpha top tempAlpha (itm :: il) h vc tp
      = match applyEntry sAlpha top (tempAlpha.getD tp 0) itm h vc with
        | .error f => .error f
        | .ok (h1, vc1) => applyAlphas snode sAlpha top tempAlpha il h1 vc1 (tp + 1) := by
  rw [applyAlphas]
  simp only [hsn, if_false]
  unfold applyEntry
  split
  · rfl
  · split
    · split
      · rfl
      · rfl
    · split
      · rfl
      · rfl

theorem getD_append_head (pre rest : List ℚ) (a : ℚ) :
    (pre ++ a :: rest).getD pre.length 0 = a := by
  induction pre with
  | nil => rfl
  | cons b pre ih => simpa using ih

theorem setPoutside_same (h : Heap) (x : Nat) (v : ℚ) : (setPoutside h x v x).poutside = v := by
  simp [ChartBase.setPoutside]

theorem setPoutside_other (h : Heap) (x y : Nat) (v : ℚ) (hne : y ≠ x) :
    setPoutside h x v y = h y := by
  simp [ChartBase.setPoutside, hne]

theorem applyEntry_char (sAlpha : ℚ) (top : Bool) (h0 h : Heap) (vc : Bool) (x : Nat)
    (hinv : PassInv sAlpha top h0 h vc) (hok : ¬ wentDown top h0 x) :
    ∃ h1, applyEntry sAlpha top (candOf h0 x) x h vc = .ok (h1, vc || takes top h0 x) ∧
      PassInv sAlpha top h0 h1 (vc || takes top h0 x) ∧
      (h1 x).poutside = passValue sAlpha top h0 x ∧ ∀ y, y ≠ x → h1 y = h y := by
  obtain ⟨hs, hdis, hflag⟩ := hinv
  have hterm : (h x).term = (h0 x).term := hs.term_eq x
  -- the invariant after writing the pass value of `x`
  have hinvSet : ∀ (v : ℚ) (f : Bool), v = passValue sAlpha top h0 x →
      (pinned top h0 x = false → f = true) → (vc = true → f = true) →
      PassInv sAlpha top h0 (setPoutside h x v) f := by
    intro v f hv hf hmono
    refine ⟨fun y => (static_setPoutside _ _ _ _).trans (hs y), fun y => ?_, fun y hp hne => ?_⟩
    · by_cases hy : y = x
      · subst hy; exact Or.inr (by rw [setPoutside_same, hv])
      · rw [setPoutside_other _ _ _ _ hy]; exact hdis y
    · by_cases hy : y = x
      · subst hy; exact hf hp
      · rw [setPoutside_other _ _ _ _ hy] at hne; exact hmono (hflag y hp hne)
  have hinvKeep : ∀ f : Bool, (vc = true → f = true) → PassInv sAlpha top h0 h f :=
    fun f hmono => ⟨hs, hdis, fun y hp hne => hmono (hflag y hp hne)⟩
  by_cases hpin : pinned top h0 x = true
  · have hcond : (top && (h x).term.isRoot) = true := by rw [hterm]; exact hpin
    have htk : takes top h0 x = false := by simp [takes, hpin]
    have hpv : passValue sAlpha top h0 x = sAlpha := by simp [passValue, hpin]
    refine ⟨setPoutside h x sAlpha, ?_, ?_, ?_, fun y hy => setPoutside_other _ _ _ _ hy⟩
    · simp only [applyEntry, hcond, if_true, htk, Bool.or_false]
    · rw [htk, Bool.or_false]
      exact hinvSet sAlpha vc hpv.symm (fun hp => by rw [hp] at hpin; cases hpin) id
    · rw [setPoutside_same, hpv]
  · have hpinf : pinned top h0 x = false := by simpa using hpin
    have hcond : (top && (h x).term.isRoot) = false := by rw [hterm]; exact hpinf
    by_cases hn : candOf h0 x = 0
    · have htk : takes top h0 x = false := by simp [takes, hn]
      have hpv : passValue sAlpha top h0 x = (h0 x).poutside := by
        simp [passValue, hpinf, hn]
      have hcur : (h x).poutside = (h0 x).poutside := by
        rcases hdis x with hc | hc
        · exact hc
        · rw [hc, hpv]
      have hz : (h0 x).poutside = 0 := by
        by_contra hne
        exact hok ⟨hpinf, hn, hne⟩
      refine ⟨h, ?_, ?_, ?_, fun _ _ => rfl⟩
      · simp only [applyEntry, hcond, Bool.false_eq_true, if_false, hn, if_true, hcur, hz, ne_eq,
          not_true_eq_false, htk, Bool.or_false]
      · rw [htk, Bool.or_false]; exact hinvKeep vc id
      · rw [hcur, hpv]
    · by_cases ht : (h0 x).poutside / candOf h0 x < alphaRatio
      · have htk : takes top h0 x = true := by simp [takes, hpinf, hn, ht]
        have hpv : passValue sAlpha top h0 x = candOf h0 x := by
          simp [passValue, hpinf, hn, ht]
        have hne0 : (h0 x).poutside ≠ candOf h0 x := by
          intro heq
          rw [heq, div_self hn] at ht
          exact absurd ht (not_lt.2 alphaRatio_lt_one.le)
        rcases hdis x with hc | hc
        · refine ⟨setPoutside h x (candOf h0 x), ?_, ?_, ?_,
            fun y hy => setPoutside_other _ _ _ _ hy⟩
          · simp only [applyEntry, hcond, Bool.false_eq_true, if_false, hn, hc, ht, if_true, htk, Bool.or_true]
          · rw [htk, Bool.or_true]
            exact hinvSet _ true hpv.symm (fun _ => rfl) (fun _ => rfl)
          · rw [setPoutside_same, hpv]
        · have hcur : (h x).poutside = candOf h0 x := by rw [hc, hpv]
          have hvc : vc = true := hflag x hpinf (by rw [hcur]; exact fun h => hne0 h.symm)
          have hnot : ¬ (candOf h0 x / candOf h0 x < alphaRatio) := by
            rw [div_self hn]; exact not_lt.2 alphaRatio_lt_one.le
          refine ⟨h, ?_, ?_, ?_, fun _ _ => rfl⟩
          · simp only [applyEntry, hcond, Bool.false_eq_true, if_false, hn, hcur, hnot, htk, hvc, Bool.or_true]
          · rw [htk, Bool.or_true]; exact hinvKeep true (fun _ => rfl)
          · rw [hcur, hpv]
      · have htk : takes top h0 x = false := by simp [takes, ht]
        have hpv : passValue sAlpha top h0 x = (h0 x).poutside := by
          simp [passValue, hpinf, ht]
        have hcur : (h x).poutside = (h0 x).poutside := by
          rcases hdis x with hc | hc
          · exact hc
          · rw [hc, hpv]
        refine ⟨h, ?_, ?_, ?_, fun _ _ => rfl⟩
        · simp only [applyEntry, hcond, Bool.false_eq_true, if_false, hn, hcur, ht, htk, Bool.or_false]
        · rw [htk, Bool.or_false]; exact hinvKeep vc id
        · rw [hcur, hpv]

theorem applyAlphas_char (snode : Nat) (sAlpha : ℚ) (top : Bool) (h0 : Heap) (il : List Nat) :
    ∀ (pre : List ℚ) (h : Heap) (vc : Bool), PassInv sAlpha top h0 h vc →
      (∀ x ∈ il, x ≠ snode → ¬ wentDown top h0 x) →
      ∃ h1, applyAlphas snode sAlpha top
            (pre ++ (il.filter (fun itm => decide (itm ≠ snode))).map (candOf h0)) il h vc
            pre.length
          = .ok (h1, vc || il.any (fun x => decide (x ≠ snode) && takes top h0 x),
              pre.length + liveCount snode il) ∧
        PassInv sAlpha top h0 h1
          (vc || il.any (fun x => decide (x ≠ snode) && takes top h0 x)) ∧
        (∀ y ∈ il, y ≠ snode → (h1 y).poutside = passValue sAlpha top h0 y) ∧
        (∀ y, ¬ (y ∈ il ∧ y ≠ snode) → h1 y = h y) := by
  induction il with
  | nil =>
    intro pre h vc hinv _
    refine ⟨h, ?_, ?_, ?_, fun _ _ => rfl⟩
    · simp [applyAlphas, liveCount]
    · simpa using hinv
    · intro y hy; cases hy
  | cons x il ih =>
    intro pre h vc hinv hok
    have hokrest : ∀ y ∈ il, y ≠ snode → ¬ wentDown top h0 y :=
      fun y hy => hok y (List.mem_cons_of_mem _ hy)
    by_cases hsn : x = snode
    · obtain ⟨h1, hrun, hinv1, hval, hfr⟩ := ih pre h vc hinv hokrest
      refine ⟨h1, ?_, ?_, ?_, ?_⟩
      · rw [applyAlphas, if_pos hsn, liveCount_cons, if_pos hsn]
        simpa [List.filter_cons, hsn] using hrun
      · simpa [hsn] using hinv1
      · intro y hy hne
        rcases List.mem_cons.1 hy with rfl | hy
        · exact absurd hsn hne
        · exact hval y hy hne
      · intro y hy
        exact hfr y (fun hc => hy ⟨List.mem_cons_of_mem _ hc.1, hc.2⟩)
    · obtain ⟨h1, hstep, hinv1, hx, hoth⟩ :=
        applyEntry_char sAlpha top h0 h vc x hinv (hok x (List.mem_cons_self _ _) hsn)
      obtain ⟨h2, hrun, hinv2, hval, hfr⟩ :=
        ih (pre ++ [candOf h0 x]) h1 (vc || takes top h0 x) hinv1 hokrest
      have hfilter : (x :: il).filter (fun itm => decide (itm ≠ snode))
          = x :: il.filter (fun itm => decide (itm ≠ snode)) := by
        simp [List.filter_cons, hsn]
      have hflagEq : (vc || (x :: il).any (fun x => decide (x ≠ snode) && takes top h0 x))
          = (vc || takes top h0 x || il.any (fun x => decide (x ≠ snode) && takes top h0 x)) := by
        simp [List.any_cons, hsn, Bool.or_assoc]
      refine ⟨h2, ?_, ?_, ?_, ?_⟩
      · rw [applyAlphas_cons_ne _ _ _ _ _ _ _ _ _ hsn, hfilter, List.map_cons,
          getD_append_head, hstep, liveCount_cons, if_neg hsn, hflagEq]
        simp only
        have hrun2 := hrun
        simp only [List.append_assoc, List.singleton_append, List.length_append,
          List.length_singleton] at hrun2
        rw [hrun2]
        simp only [Nat.add_assoc, Nat.add_comm 1]
      · rw [hflagEq]; exact hinv2
      · intro y hy hne
        by_cases hyil : y ∈ il
        · exact hval y hyil hne
        · rcases List.mem_cons.1 hy with rfl | hy
          · rw [hfr y (fun hc => hyil hc.1)]; exact hx
          · exact absurd hy hyil
      · intro y hy
        have hyx : y ≠ x := by
          intro hyx
          subst hyx
          exact hy ⟨List.mem_cons_self _ _, hsn⟩
        rw [hfr y (fun hc => hy ⟨List.mem_cons_of_mem _ hc.1, hc.2⟩)]
        exact hoth y hyx

theorem passInv_start (sAlpha : ℚ) (top : Bool) (h0 : Heap) :
    PassInv sAlpha top h0 h0 false :=
  ⟨fun _ => rfl, fun _ => Or.inl rfl, fun _ _ hne => absurd rfl hne⟩

theorem alphaPass_char (snode : Nat) (sAlpha : ℚ) (top : Bool) (il : List Nat) (h0 : Heap)
    (hcap : liveCount snode il ≤ tempAlphaSize)
    (hok : ∀ x ∈ il, x ≠ snode → ¬ wentDown top h0 x) :
    ∃ h1, alphaPass snode sAlpha top il h0
          = .ok (h1, il.any (fun x => decide (x ≠ snode) && takes top h0 x)) ∧
      SameStatic h1 h0 ∧
      (∀ y ∈ il, y ≠ snode → (h1 y).poutside = passValue sAlpha top h0 y) ∧
      (∀ y, ¬ (y ∈ il ∧ y ≠ snode) → h1 y = h0 y) := by
  have hc := candidates_eq_map snode h0 il [] (by simpa using hcap)
  obtain ⟨h1, hrun, hinv, hval, hfr⟩ :=
    applyAlphas_char snode sAlpha top h0 il [] h0 false (passInv_start sAlpha top h0) hok
  refine ⟨h1, ?_, hinv.1, hval, hfr⟩
  unfold alphaPass
  rw [hc]
  simp only [List.nil_append, List.length_nil, Nat.zero_add, Bool.false_or] at hrun ⊢
  rw [hrun]
  simp [liveCount]

theorem eq_ok_of_stepOk {β : Type} [Inhabited β] (r : Except Fatal (Heap × β)) (h : Heap)
    (hr : stepOk r = true) : r = .ok (stepResult r h) := by
  cases r with
  | error f => simp [stepOk] at hr
  | ok x => rfl

theorem applyEntry_wentDown (sAlpha : ℚ) (top : Bool) (h0 h : Heap) (vc : Bool) (x : Nat)
    (hinv : PassInv sAlpha top h0 h vc) (hbad : wentDown top h0 x) :
    applyEntry sAlpha top (candOf h0 x) x h vc = .error Fatal.alphaWentDown := by
  obtain ⟨hs, hdis, -⟩ := hinv
  obtain ⟨hpinf, hn, hne⟩ := hbad
  have hcond : (top && (h x).term.isRoot) = false := by rw [hs.term_eq x]; exact hpinf
  have hpv : passValue sAlpha top h0 x = (h0 x).poutside := by simp [passValue, hpinf, hn]
  have hcur : (h x).poutside = (h0 x).poutside := by
    rcases hdis x with hc | hc
    · exact hc
    · rw [hc, hpv]
  simp only [applyEntry, hcond, Bool.false_eq_true, if_false, hn, if_true, hcur, ne_eq, hne,
    not_false_eq_true]

theorem applyAlphas_wentDown (snode : Nat) (sAlpha : ℚ) (top : Bool) (h0 : Heap)
    (il : List Nat) :
    ∀ (pre : List ℚ) (h : Heap) (vc : Bool), PassInv sAlpha top h0 h vc →
      (∃ x ∈ il, x ≠ snode ∧ wentDown top h0 x) →
      applyAlphas snode sAlpha top
          (pre ++ (il.filter (fun itm => decide (itm ≠ snode))).map (candOf h0)) il h vc
          pre.length
        = .error Fatal.alphaWentDown := by
  induction il with
  | nil => intro pre h vc _ hbad; obtain ⟨x, hx, -⟩ := hbad; cases hx
  | cons x il ih =>
    intro pre h vc hinv hbad
    by_cases hsn : x = snode
    · have hbad2 : ∃ y ∈ il, y ≠ snode ∧ wentDown top h0 y := by
        obtain ⟨y, hy, hne, hw⟩ := hbad
        rcases List.mem_cons.1 hy with rfl | hy
        · exact absurd hsn hne
        · exact ⟨y, hy, hne, hw⟩
      rw [applyAlphas, if_pos hsn]
      simpa [List.filter_cons, hsn] using ih pre h vc hinv hbad2
    · have hfilter : (x :: il).filter (fun itm => decide (itm ≠ snode))
          = x :: il.filter (fun itm => decide (itm ≠ snode)) := by
        simp [List.filter_cons, hsn]
      rw [applyAlphas_cons_ne _ _ _ _ _ _ _ _ _ hsn, hfilter, List.map_cons, getD_append_head]
      by_cases hx : wentDown top h0 x
      · rw [applyEntry_wentDown sAlpha top h0 h vc x hinv hx]
      · obtain ⟨h1, hstep, hinv1, -, -⟩ := applyEntry_char sAlpha top h0 h vc x hinv hx
        have hbad2 : ∃ y ∈ il, y ≠ snode ∧ wentDown top h0 y := by
          obtain ⟨y, hy, hne, hw⟩ := hbad
          rcases List.mem_cons.1 hy with rfl | hy
          · exact absurd hw hx
          · exact ⟨y, hy, hne, hw⟩
        rw [hstep]
        simp only
        have hrun := ih (pre ++ [candOf h0 x]) h1 _ hinv1 hbad2
        simp only [List.append_assoc, List.singleton_append, List.length_append,
          List.length_singleton] at hrun
        exact hrun

theorem alphaPass_wentDown (snode : Nat) (sAlpha : ℚ) (top : Bool) (il : List Nat) (h0 : Heap)
    (hcap : liveCount snode il ≤ tempAlphaSize)
    (hbad : ∃ x ∈ il, x ≠ snode ∧ wentDown top h0 x) :
    alphaPass snode sAlpha top il h0 = .error Fatal.alphaWentDown := by
  have hc := candidates_eq_map snode h0 il [] (by simpa using hcap)
  have hrun := applyAlphas_wentDown snode sAlpha top h0 il [] h0 false
    (passInv_start sAlpha top h0) hbad
  unfold alphaPass
  rw [hc]
  simp only [List.nil_append, List.length_nil] at hrun ⊢
  rw [hrun]

theorem alphaPass_ok_iff (snode : Nat) (sAlpha : ℚ) (top : Bool) (il : List Nat) (h0 : Heap) :
    stepOk (alphaPass snode sAlpha top il h0) = true ↔
      (liveCount snode il ≤ tempAlphaSize ∧ ∀ x ∈ il, x ≠ snode → ¬ wentDown top h0 x) := by
  constructor
  · intro hok
    by_cases hcap : liveCount snode il ≤ tempAlphaSize
    · refine ⟨hcap, fun x hx hne hw => ?_⟩
      rw [alphaPass_wentDown snode sAlpha top il h0 hcap ⟨x, hx, hne, hw⟩] at hok
      simp [stepOk] at hok
    · rw [alphaPass_capacity snode sAlpha top il h0 (by omega)] at hok
      simp [stepOk] at hok
  · rintro ⟨hcap, hgood⟩
    obtain ⟨h1, hrun, -⟩ := alphaPass_char snode sAlpha top il h0 hcap hgood
    rw [hrun]; rfl

/-- At the boundary of the convergence test: the previous value over the
candidate equals the `double` `.95` exactly (and is below 19/20), the test
`oOutside/nOutside < .95` fails, and the pass keeps the previous value with
`valuesChanging` false. -/
theorem alphaPass_at_alphaRatio :
    (exHeapEdge 1).poutside / candOf exHeapEdge 1 = alphaRatio ∧
    (exHeapEdge 1).poutside / candOf exHeapEdge 1 < 19 / 20 ∧
    stepOk (alphaPass 0 1 false [1] exHeapEdge) = true ∧
    ((stepResult (alphaPass 0 1 false [1] exHeapEdge) exHeapEdge).1 1).poutside
      = 4278419646001971 ∧
    (stepResult (alphaPass 0 1 false [1] exHeapEdge) exHeapEdge).2 = false := by
  decide!

/-! ### Outside pass: the state a bucket loop exits with (C17) -/

/-- C17, the code at the failing input. The chart `exChartPin` with the heap
`exHeapPin` has consistent spans. In its top bucket `[0, 1, 2]` the first
pass pins item `1` to `sAlpha = 1`, a write that does not set
`valuesChanging`, and nothing else changes, so the loop exits after one pass
with item `2` at 0; the bucket is not at a fixed point, since one more pass
on that state moves item `2`, whose parent is item `1`, to 1. -/
theorem bucket_loop_exit_not_fixed :
    spanOK exChartPin exHeapPin = true ∧
    (set_Alphas exEnv 3 exChartPin exHeapPin).passes? = some [1, 1] ∧
    (set_Alphas exEnv 3 exChartPin exHeapPin).poutside? 2 = some 0 ∧
    stepOk (alphaPass 0 1 true (exChartPin.regs 0 0)
      ((set_Alphas exEnv 3 exChartPin exHeapPin).heapOr exHeapPin)) = true ∧
    ((stepResult (alphaPass 0 1 true (exChartPin.regs 0 0)
      ((set_Alphas exEnv 3 exChartPin exHeapPin).heapOr exHeapPin)) exHeapPin).1 2).poutside
      = 1 := by
  decide!

theorem alphaLoop_last (snode : Nat) (sAlpha : ℚ) (top : Bool) (il : List Nat) :
    ∀ (fuel : Nat) (h : Heap) (n : Nat) (h1 : Heap) (k : Nat),
      alphaLoop snode sAlpha top il fuel h n = .ok (h1, k) →
      ∃ hp, alphaPass snode sAlpha top il hp = .ok (h1, false) ∧
        ((hp = h ∧ k = n + 1) ∨
          (n + 2 ≤ k ∧ ∃ hq, alphaPass snode sAlpha top il hq = .ok (hp, true))) := by
  intro fuel
  induction fuel with
  | zero => intro h n h1 k hl; simp [alphaLoop] at hl
  | succ fuel ih =>
    intro h n h1 k hl
    unfold alphaLoop at hl
    cases hp : alphaPass snode sAlpha top il h with
    | error f => rw [hp] at hl; cases hl
    | ok r =>
      obtain ⟨h2, v⟩ := r
      rw [hp] at hl
      cases v with
      | false =>
        simp only [Except.ok.injEq, Prod.mk.injEq] at hl
        obtain ⟨rfl, rfl⟩ := hl
        exact ⟨h, hp, Or.inl ⟨rfl, rfl⟩⟩
      | true =>
        simp only at hl
        obtain ⟨hq, hlast, hcase⟩ := ih h2 (n + 1) h1 k hl
        refine ⟨hq, hlast, Or.inr ?_⟩
        rcases hcase with ⟨rfl, rfl⟩ | ⟨hk, hq2, hpass⟩
        · exact ⟨le_refl _, h, hp⟩
        · exact ⟨by omega, hq2, hpass⟩

theorem pinned_congr (top : Bool) {a b : Heap} (hs : SameStatic a b) (x : Nat) :
    pinned top a x = pinned top b x := by
  unfold pinned; rw [hs.term_eq x]

theorem alphaPass_result (snode : Nat) (sAlpha : ℚ) (top : Bool) (il : List Nat)
    (h0 h1 : Heap) (f : Bool) (hpass : alphaPass snode sAlpha top il h0 = .ok (h1, f)) :
    (liveCount snode il ≤ tempAlphaSize ∧ ∀ x ∈ il, x ≠ snode → ¬ wentDown top h0 x) ∧
    f = il.any (fun x => decide (x ≠ snode) && takes top h0 x) ∧
    SameStatic h1 h0 ∧
    (∀ y ∈ il, y ≠ snode → (h1 y).poutside = passValue sAlpha top h0 y) ∧
    (∀ y, ¬ (y ∈ il ∧ y ≠ snode) → h1 y = h0 y) := by
  have hok : stepOk (alphaPass snode sAlpha top il h0) = true := by rw [hpass]; rfl
  have hcond := (alphaPass_ok_iff snode sAlpha top il h0).1 hok
  obtain ⟨h2, hrun, hs, hval, hfr⟩ := alphaPass_char snode sAlpha top il h0 hcond.1 hcond.2
  rw [hrun] at hpass
  simp only [Except.ok.injEq, Prod.mk.injEq] at hpass
  obtain ⟨rfl, rfl⟩ := hpass
  exact ⟨hcond, rfl, hs, hval, hfr⟩

theorem alphaPass_unchanged (snode : Nat) (sAlpha : ℚ) (top : Bool) (il : List Nat)
    (h0 h1 : Heap) (hpass : alphaPass snode sAlpha top il h0 = .ok (h1, false))
    (hpin : ∀ x ∈ il, x ≠ snode → pinned top h0 x = true → (h0 x).poutside = sAlpha) :
    h1 = h0 := by
  obtain ⟨-, hf, hs, hval, hfr⟩ := alphaPass_result snode sAlpha top il h0 h1 false hpass
  funext y
  by_cases hy : y ∈ il ∧ y ≠ snode
  · apply Item.eq_of_static _ _ (hs y)
    rw [hval y hy.1 hy.2]
    by_cases hp : pinned top h0 y = true
    · simp only [passValue, hp, if_true]
      exact (hpin y hy.1 hy.2 hp).symm
    · have hnt : takes top h0 y = false := by
        have hall := hf.symm
        rw [List.any_eq_false] at hall
        have := hall y hy.1
        simpa [hy.2] using this
      have hpf : pinned top h0 y = false := by simpa using hp
      simp only [takes, hpf, Bool.not_false, Bool.true_and, Bool.and_eq_false_imp,
        decide_eq_true_eq, decide_eq_false_iff_not] at hnt
      simp only [passValue, hpf, Bool.false_eq_true, if_false]
      rw [if_neg (fun hc => hnt hc.1 hc.2)]
  · exact hfr y hy

theorem alphaPass_pins (snode : Nat) (sAlpha : ℚ) (top : Bool) (il : List Nat)
    (h0 h1 : Heap) (f : Bool) (hpass : alphaPass snode sAlpha top il h0 = .ok (h1, f)) :
    ∀ x ∈ il, x ≠ snode → pinned top h1 x = true → (h1 x).poutside = sAlpha := by
  obtain ⟨-, -, hs, hval, -⟩ := alphaPass_result snode sAlpha top il h0 h1 f hpass
  intro x hx hne hp
  rw [pinned_congr top hs x] at hp
  rw [hval x hx hne]
  simp [passValue, hp]

/-- The same chart with one more entry in the top bucket: item `3`, whose
parent is the start item, takes its candidate in the first pass and so sets
`valuesChanging`; the loop then runs three passes and item `2` ends at 1, not
at the 0 it ends at in `exChartPin`. Whether the loop goes on after a pin
depends on an entry unrelated to the pinned one. -/
theorem bucket_loop_exit_depends_on_other :
    spanOK exChartPin4 exHeapPin4 = true ∧
    (set_Alphas exEnv 4 exChartPin4 exHeapPin4).passes? = some [3, 1] ∧
    (set_Alphas exEnv 4 exChartPin4 exHeapPin4).poutside? 2 = some 1 ∧
    (set_Alphas exEnv 3 exChartPin exHeapPin).poutside? 2 = some 0 := by
  decide!

/-- Where the exit state of a bucket loop is a fixed point. When the loop of
a bucket exits normally, one more pass on the resulting state returns the
same state with `valuesChanging` false,
provided the last pass did not pin an entry to a new value: this holds for
every bucket other than the top bucket, for the top bucket when it has no
root-category entry other than the start item, and whenever the loop ran at
least two passes. -/
theorem bucket_loop_exit_fixed (c : ChartBase) (snode : Nat) (sAlpha : ℚ) (fuel : Nat)
    (j i : Int) (h h1 : Heap) (k : Nat)
    (hrun : processBucket c snode sAlpha fuel j i h = .ok (h1, k))
    (hcond : (decide (i = 0) && decide (j = c.wrd_count_ - 1)) = false ∨
      (∀ x ∈ c.regs j i, x ≠ snode → (h x).term.isRoot = false) ∨ 2 ≤ k) :
    alphaPass snode sAlpha (decide (i = 0) && decide (j = c.wrd_count_ - 1)) (c.regs j i) h1
        = .ok (h1, false) ∧
    ∀ x, ((stepResult (alphaPass snode sAlpha (decide (i = 0) && decide (j = c.wrd_count_ - 1))
      (c.regs j i) h1) h1).1 x).poutside = (h1 x).poutside := by
  have hfix : alphaPass snode sAlpha (decide (i = 0) && decide (j = c.wrd_count_ - 1))
      (c.regs j i) h1 = .ok (h1, false) := by
    unfold processBucket at hrun
    obtain ⟨hp, hlast, hcase⟩ := alphaLoop_last _ _ _ _ _ _ _ _ _ hrun
    have hpins : ∀ x ∈ c.regs j i, x ≠ snode →
        pinned (decide (i = 0) && decide (j = c.wrd_count_ - 1)) hp x = true →
        (hp x).poutside = sAlpha := by
      rcases hcase with ⟨rfl, hk⟩ | ⟨-, hq, hpass⟩
      · intro x hx hne hp
        exfalso
        have hst : SameStatic (initBucket snode (c.regs j i) h) h :=
          fun y => initBucket_static _ _ _ _
        rw [pinned_congr _ hst x] at hp
        rcases hcond with htop | hnoroot | hk2
        · simp [pinned, htop] at hp
        · simp [pinned, hnoroot x hx hne] at hp
        · omega
      · exact alphaPass_pins _ _ _ _ _ _ _ hpass
    have heq := alphaPass_unchanged _ _ _ _ _ _ hlast hpins
    rw [heq] at hlast ⊢
    exact hlast
  refine ⟨hfix, fun x => ?_⟩
  rw [hfix]
  rfl

/-- An instance of the fixed-point lemma: the bucket `regs[0][0]` of the two-token chart
`exChart2`, which is not the top bucket, from the heap `exHeapChain`. -/
theorem bucket_loop_exit_fixed_witness :
    alphaPass 0 1 (decide ((0 : Int) = 0) && decide ((0 : Int) = exChart2.wrd_count_ - 1))
        (exChart2.regs 0 0) (stepResult (processBucket exChart2 0 1 5 0 0 exHeapChain)
          exHeapChain).1
      = .ok ((stepResult (processBucket exChart2 0 1 5 0 0 exHeapChain) exHeapChain).1,
          false) :=
  (bucket_loop_exit_fixed exChart2 0 1 5 0 0 exHeapChain
    (stepResult (processBucket exChart2 0 1 5 0 0 exHeapChain) exHeapChain).1
    (stepResult (processBucket exChart2 0 1 5 0 0 exHeapChain) exHeapChain).2
    (eq_ok_of_stepOk _ exHeapChain (by decide!)) (Or.inl (by decide))).1

/-! ### Outside pass: buckets without parents of their own (C19) -/

theorem candOf_congr (a b : Heap) (x : Nat) (hs : SameStatic a b)
    (hpar : ∀ e ∈ (b x).needme, ∀ p, e.finishedParent = some p →
      (a p).poutside = (b p).poutside) :
    candOf a x = candOf b x := by
  unfold candOf
  rw [hs.needme_eq x, hs.prob_eq x, itmalphaSum_congr a b _ 0 hpar]

/-- Counterexample to C19 as stated: the bucket `regs[0][0]` of `exChartWide`
is not the top bucket, none of its 401 items has a finished parent in it (the
parent of each is the root item `0`), all inside and edge probabilities are
1 and the root's outside probability is 1, yet its loop does not end within
two passes with every item at its candidate: the first pass stops at the
failed capacity check. -/
theorem bucket_loop_over_capacity :
    (decide ((0 : Int) = 0) && decide ((0 : Int) = exChartWide.wrd_count_ - 1)) = false ∧
    (∀ x ∈ exChartWide.regs 0 0, 0 < (exHeapWide x).prob ∧
      ∀ e ∈ (exHeapWide x).needme, 0 ≤ e.prob ∧ e.finishedParent = some 0) ∧
    0 ∉ exChartWide.regs 0 0 ∧ 0 ≤ (exHeapWide 0).poutside ∧
    processBucket exChartWide 0 1 2 0 0 exHeapWide = .error Fatal.capacity := by
  have hreg : exChartWide.regs 0 0 = List.range' 1 401 := by simp [exChartWide]
  have hmem : ∀ x ∈ exChartWide.regs 0 0, x ≠ 0 := by
    intro x hx
    rw [hreg, List.mem_range'_1] at hx
    omega
  refine ⟨by decide, ?_, fun h0 => hmem 0 h0 rfl, by simp [exHeapWide], ?_⟩
  · intro x hx
    have hx0 := hmem x hx
    simp [exHeapWide, hx0]
  · apply processBucket_capacity _ _ _ _ _ _ _ (by decide)
    rw [liveCount_eq_length 0 _ hmem, hreg]
    simp [tempAlphaSize]

theorem passValue_from_zero (sAlpha : ℚ) (a : Heap) (x : Nat)
    (hpin : pinned false a x = false) (hz : (a x).poutside = 0) :
    passValue sAlpha false a x = candOf a x := by
  by_cases hn : candOf a x = 0
  · simp [passValue, hpin, hn, hz]
  · have : (a x).poutside / candOf a x < alphaRatio := by
      rw [hz, zero_div]; exact alphaRatio_pos
    simp [passValue, hpin, hn, this]

theorem passValue_at_candidate (sAlpha : ℚ) (a : Heap) (x : Nat)
    (hpin : pinned false a x = false) (hc : (a x).poutside = candOf a x) :
    passValue sAlpha false a x = candOf a x ∧ takes false a x = false := by
  by_cases hn : candOf a x = 0
  · simp [passValue, takes, hpin, hn, hc]
  · have : ¬ ((a x).poutside / candOf a x < alphaRatio) := by
      rw [hc, div_self hn]; exact not_lt.2 alphaRatio_lt_one.le
    have h2 : ¬ (candOf a x / candOf a x < alphaRatio) := by
      rw [div_self hn]; exact not_lt.2 alphaRatio_lt_one.le
    refine ⟨?_, ?_⟩
    · rw [passValue, hpin, hc, if_neg (by simp), if_neg (fun hh => h2 hh.2)]
    · rw [takes, hpin, hc, decide_eq_false h2]; simp

/-- C19 (amended). For a bucket other than the top bucket that holds at most
400 entries other than the start item, in which no needing edge of an entry
has its finished parent in the same bucket and every inside probability is
positive, the loop ends normally after at most two passes, and every entry
other than the start item ends with its candidate: the sum of
parent outside probability times edge probability over its needing edges
with a finished parent, divided by its inside probability. -/
theorem bucket_loop_two_passes (c : ChartBase) (snode : Nat) (sAlpha : ℚ) (fuel : Nat)
    (j i : Int) (h : Heap)
    (htop : (decide (i = 0) && decide (j = c.wrd_count_ - 1)) = false)
    (hcap : liveCount snode (c.regs j i) ≤ tempAlphaSize)
    (hnoin : ∀ x ∈ c.regs j i, x ≠ snode → ∀ e ∈ (h x).needme, ∀ p,
      e.finishedParent = some p → p ∉ c.regs j i)
    (_hprob : ∀ x ∈ c.regs j i, 0 < (h x).prob)
    (hfuel : 2 ≤ fuel) :
    ∃ h1 k, processBucket c snode sAlpha fuel j i h = .ok (h1, k) ∧ k ≤ 2 ∧
      ∀ x ∈ c.regs j i, x ≠ snode →
        (h1 x).poutside = parentSum h1 (h1 x).needme / (h1 x).prob ∧
        (h1 x).poutside = parentSum h (h x).needme / (h x).prob := by
  obtain ⟨f, rfl⟩ : ∃ f, fuel = f + 2 := ⟨fuel - 2, by omega⟩
  -- candidates do not move while only entries of the bucket change
  have hcand : ∀ a : Heap, SameStatic a h → (∀ y, y ∉ c.regs j i → a y = h y) →
      ∀ x ∈ c.regs j i, x ≠ snode → candOf a x = candOf h x := by
    intro a hs hout x hx hne
    exact candOf_congr a h x hs
      (fun e he p hp => by rw [hout p (hnoin x hx hne e he p hp)])
  have hpinf : ∀ (a : Heap) (x : Nat), pinned false a x = false := fun a x => by simp [pinned]
  have hs0 : SameStatic (initBucket snode (c.regs j i) h) h :=
    fun y => initBucket_static _ _ _ _
  have hz0 : ∀ x ∈ c.regs j i, x ≠ snode →
      ((initBucket snode (c.regs j i) h) x).poutside = 0 := by
    intro x hx hne
    rw [initBucket_poutside]; simp [hx, hne]
  have hgood1 : ∀ x ∈ c.regs j i, x ≠ snode →
      ¬ wentDown false (initBucket snode (c.regs j i) h) x :=
    fun x hx hne hw => hw.2.2 (hz0 x hx hne)
  obtain ⟨h1, hrun1, hs1, hval1, hfr1⟩ :=
    alphaPass_char snode sAlpha false (c.regs j i) _ hcap hgood1
  have hout1 : ∀ y, y ∉ c.regs j i → h1 y = h y := fun y hy =>
    (hfr1 y (fun hc => hy hc.1)).trans (initBucket_other _ _ _ _ hy)
  have hv1 : ∀ x ∈ c.regs j i, x ≠ snode → (h1 x).poutside = candOf h x := by
    intro x hx hne
    rw [hval1 x hx hne, passValue_from_zero _ _ _ (hpinf _ _) (hz0 x hx hne)]
    exact hcand _ hs0 (fun y hy => initBucket_other _ _ _ _ hy) x hx hne
  have hfinal : ∀ a : Heap, SameStatic a h → (∀ y, y ∉ c.regs j i → a y = h y) →
      (∀ x ∈ c.regs j i, x ≠ snode → (a x).poutside = candOf h x) →
      ∀ x ∈ c.regs j i, x ≠ snode →
        (a x).poutside = parentSum a (a x).needme / (a x).prob ∧
        (a x).poutside = parentSum h (h x).needme / (h x).prob := by
    intro a hs hout hv x hx hne
    refine ⟨?_, ?_⟩
    · rw [← candOf_eq_parentSum, hcand a hs hout x hx hne]; exact hv x hx hne
    · rw [← candOf_eq_parentSum]; exact hv x hx hne
  simp only [processBucket, htop]
  rw [alphaLoop, hrun1]
  cases hflag : (c.regs j i).any (fun x => decide (x ≠ snode) && takes false
      (initBucket snode (c.regs j i) h) x) with
  | false =>
    exact ⟨h1, 1, rfl, by omega, hfinal h1 (hs1.trans hs0) hout1 hv1⟩
  | true =>
    simp only
    have hc1 : ∀ x ∈ c.regs j i, x ≠ snode → (h1 x).poutside = candOf h1 x := by
      intro x hx hne
      rw [hv1 x hx hne, hcand h1 (hs1.trans hs0) hout1 x hx hne]
    have hgood2 : ∀ x ∈ c.regs j i, x ≠ snode → ¬ wentDown false h1 x := by
      intro x hx hne hw
      exact hw.2.2 (by rw [hc1 x hx hne]; exact hw.2.1)
    obtain ⟨h2, hrun2, hs2, hval2, hfr2⟩ :=
      alphaPass_char snode sAlpha false (c.regs j i) h1 hcap hgood2
    have hnone : (c.regs j i).any (fun x => decide (x ≠ snode) && takes false h1 x)
        = false := by
      rw [List.any_eq_false]
      intro x hx
      by_cases hne : x = snode
      · simp [hne]
      · simp [(passValue_at_candidate sAlpha h1 x (hpinf _ _) (hc1 x hx hne)).2]
    rw [hnone] at hrun2
    rw [alphaLoop, hrun2]
    refine ⟨h2, 2, rfl, le_refl _, ?_⟩
    apply hfinal h2 ((hs2.trans hs1).trans hs0)
      (fun y hy => (hfr2 y (fun hc => hy hc.1)).trans (hout1 y hy))
    intro x hx hne
    rw [hval2 x hx hne, (passValue_at_candidate sAlpha h1 x (hpinf _ _) (hc1 x hx hne)).1,
      ← hc1 x hx hne]
    exact hv1 x hx hne

/-- Witness for C19 (amended): the bucket `regs[0][0] = [1]` of `exChart2`
from the heap `exHeapChain`; item `1` ends at its candidate 1. -/
theorem bucket_loop_two_passes_witness :
    ∃ h1 k, processBucket exChart2 0 1 2 0 0 exHeapChain = .ok (h1, k) ∧ k ≤ 2 ∧
      ∀ x ∈ exChart2.regs 0 0, x ≠ 0 →
        (h1 x).poutside = parentSum h1 (h1 x).needme / (h1 x).prob ∧
        (h1 x).poutside = parentSum exHeapChain (exHeapChain x).needme / (exHeapChain x).prob :=
  bucket_loop_two_passes exChart2 0 1 2 0 0 exHeapChain (by decide) (by decide)
    (by
      intro x hx hne e he p hp
      have hx1 : x = 1 := by simpa [exChart2] using hx
      subst hx1
      have he1 : e = Edge.mk 0 2 exRoot 1 (some 0) := by simpa [exHeapChain] using he
      subst he1
      have hp0 : p = 0 := by simpa using hp.symm
      subst hp0
      simp [exChart2])
    (by
      intro x hx
      have hx1 : x = 1 := by simpa [exChart2] using hx
      subst hx1
      simp [exHeapChain])
    (le_refl 2)

/-! ### Outside pass: values rise from pass to pass (C18) -/

theorem parentSum_mono (a b : Heap) :
    ∀ es : List Edge, (∀ e ∈ es, 0 ≤ e.prob) →
      (∀ e ∈ es, ∀ p, e.finishedParent = some p → (a p).poutside ≤ (b p).poutside) →
      parentSum a es ≤ parentSum b es := by
  intro es
  induction es with
  | nil => intro _ _; simp [parentSum]
  | cons e es ih =>
    intro hp hle
    have ih1 := ih (fun e1 he1 => hp e1 (List.mem_cons_of_mem _ he1))
      (fun e1 he1 => hle e1 (List.mem_cons_of_mem _ he1))
    unfold parentSum at ih1 ⊢
    cases hfp : e.finishedParent with
    | none => simpa [List.filterMap_cons, hfp] using ih1
    | some p =>
      simp only [List.filterMap_cons, hfp, Option.map_some', List.sum_cons]
      have := mul_le_mul_of_nonneg_right (hle e (List.mem_cons_self _ _) p hfp)
        (hp e (List.mem_cons_self _ _))
      linarith

theorem parentSum_nonneg (a : Heap) :
    ∀ es : List Edge, (∀ e ∈ es, 0 ≤ e.prob) →
      (∀ e ∈ es, ∀ p, e.finishedParent = some p → 0 ≤ (a p).poutside) →
      0 ≤ parentSum a es := by
  intro es
  induction es with
  | nil => intro _ _; simp [parentSum]
  | cons e es ih =>
    intro hp hle
    have ih1 := ih (fun e1 he1 => hp e1 (List.mem_cons_of_mem _ he1))
      (fun e1 he1 => hle e1 (List.mem_cons_of_mem _ he1))
    unfold parentSum at ih1 ⊢
    cases hfp : e.finishedParent with
    | none => simpa [List.filterMap_cons, hfp] using ih1
    | some p =>
      simp only [List.filterMap_cons, hfp, Option.map_some', List.sum_cons]
      have := mul_nonneg (hle e (List.mem_cons_self _ _) p hfp) (hp e (List.mem_cons_self _ _))
      linarith

theorem candOf_mono (a b : Heap) (x : Nat) (hs : SameStatic a b) (hprob : 0 < (b x).prob)
    (hedge : ∀ e ∈ (b x).needme, 0 ≤ e.prob)
    (hle : ∀ e ∈ (b x).needme, ∀ p, e.finishedParent = some p →
      (a p).poutside ≤ (b p).poutside) :
    candOf a x ≤ candOf b x := by
  rw [candOf_eq_parentSum, candOf_eq_parentSum, hs.needme_eq x, hs.prob_eq x]
  exact (div_le_div_iff_of_pos_right hprob).2 (parentSum_mono a b _ hedge hle)

theorem candOf_nonneg (a : Heap) (x : Nat) (hprob : 0 < (a x).prob)
    (hedge : ∀ e ∈ (a x).needme, 0 ≤ e.prob)
    (hpo : ∀ e ∈ (a x).needme, ∀ p, e.finishedParent = some p → 0 ≤ (a p).poutside) :
    0 ≤ candOf a x := by
  rw [candOf_eq_parentSum]
  exact div_nonneg (parentSum_nonneg a _ hedge hpo) hprob.le

theorem rising_parent (snode : Nat) (il : List Nat) (h a : Heap)
    (hnn : NonNegBucket snode il h) (hst : SameStatic a h)
    (hfr : ∀ y, ¬ (y ∈ il ∧ y ≠ snode) → a y = h y)
    (hpo : ∀ y ∈ il, y ≠ snode → 0 ≤ (a y).poutside)
    (x : Nat) (hx : x ∈ il) (hne : x ≠ snode) :
    ∀ e ∈ (a x).needme, ∀ p, e.finishedParent = some p → 0 ≤ (a p).poutside := by
  intro e he p hp
  by_cases hP : p ∈ il ∧ p ≠ snode
  · exact hpo p hP.1 hP.2
  · rw [hfr p hP]
    exact hnn.2.2 x hx hne e (by rw [← hst.needme_eq x]; exact he) p hp hP

theorem rising_cand (snode : Nat) (il : List Nat) (h a : Heap)
    (hnn : NonNegBucket snode il h) (hst : SameStatic a h)
    (hfr : ∀ y, ¬ (y ∈ il ∧ y ≠ snode) → a y = h y)
    (hpo : ∀ y ∈ il, y ≠ snode → 0 ≤ (a y).poutside)
    (x : Nat) (hx : x ∈ il) (hne : x ≠ snode) : 0 ≤ candOf a x := by
  apply candOf_nonneg
  · rw [hst.prob_eq x]; exact hnn.1 x hx
  · intro e he; exact hnn.2.1 x hx e (by rw [← hst.needme_eq x]; exact he)
  · exact rising_parent snode il h a hnn hst hfr hpo x hx hne

theorem risingInv_init (snode : Nat) (sAlpha : ℚ) (top : Bool) (il : List Nat) (h : Heap)
    (hnn : NonNegBucket snode il h) (hsA : 0 ≤ sAlpha) :
    RisingInv snode sAlpha top il h (initBucket snode il h) := by
  have hz : ∀ y ∈ il, y ≠ snode → (initBucket snode il h y).poutside = 0 := by
    intro y hy hne; rw [initBucket_poutside]; simp [hy, hne]
  have hst : SameStatic (initBucket snode il h) h := fun y => initBucket_static _ _ _ _
  have hfr : ∀ y, ¬ (y ∈ il ∧ y ≠ snode) → initBucket snode il h y = h y := by
    intro y hy
    apply Item.eq_of_static
    · exact initBucket_static _ _ _ _
    · rw [initBucket_poutside, if_neg hy]
  have hnonneg : ∀ y ∈ il, y ≠ snode → 0 ≤ (initBucket snode il h y).poutside :=
    fun y hy hne => by rw [hz y hy hne]
  refine ⟨hst, hfr, hnonneg, ?_, ?_⟩
  · intro y hy hne _
    rw [hz y hy hne]
    exact rising_cand snode il h _ hnn hst hfr hnonneg y hy hne
  · intro y hy hne _; rw [hz y hy hne]; exact hsA

theorem passValue_rises (sAlpha : ℚ) (top : Bool) (a : Heap) (y : Nat)
    (hpin : pinned top a y = true → (a y).poutside ≤ sAlpha)
    (hcand : pinned top a y = false → (a y).poutside ≤ candOf a y) :
    (a y).poutside ≤ passValue sAlpha top a y ∧
    (pinned top a y = false → passValue sAlpha top a y ≤ candOf a y) := by
  unfold passValue
  cases hp : pinned top a y with
  | true => simp [hpin hp]
  | false =>
    simp only [Bool.false_eq_true, if_false]
    split
    · exact ⟨hcand hp, fun _ => le_refl _⟩
    · exact ⟨le_refl _, fun _ => hcand hp⟩

theorem risingInv_step (snode : Nat) (sAlpha : ℚ) (top : Bool) (il : List Nat) (h a b : Heap)
    (f : Bool) (hnn : NonNegBucket snode il h) (hinv : RisingInv snode sAlpha top il h a)
    (hpass : alphaPass snode sAlpha top il a = .ok (b, f)) :
    RisingInv snode sAlpha top il h b ∧ ∀ x, (a x).poutside ≤ (b x).poutside := by
  obtain ⟨hst, hfr, hpo, hcand, hpin⟩ := hinv
  obtain ⟨_, _, hs1, hval, hfr1⟩ := alphaPass_result snode sAlpha top il a b f hpass
  have hpc : ∀ y, pinned top a y = pinned top h y := fun y => pinned_congr top hst y
  have hrise : ∀ y ∈ il, y ≠ snode → (a y).poutside ≤ passValue sAlpha top a y ∧
      (pinned top a y = false → passValue sAlpha top a y ≤ candOf a y) := by
    intro y hy hne
    exact passValue_rises sAlpha top a y (fun hp => hpin y hy hne (by rw [← hpc y]; exact hp))
      (fun hp => hcand y hy hne (by rw [← hpc y]; exact hp))
  have hmono : ∀ x, (a x).poutside ≤ (b x).poutside := by
    intro x
    by_cases hP : x ∈ il ∧ x ≠ snode
    · rw [hval x hP.1 hP.2]; exact (hrise x hP.1 hP.2).1
    · rw [hfr1 x hP]
  refine ⟨⟨hs1.trans hst, fun y hy => (hfr1 y hy).trans (hfr y hy),
    fun y hy hne => le_trans (hpo y hy hne) (hmono y), ?_, ?_⟩, hmono⟩
  · intro y hy hne hp
    have h1 : (b y).poutside ≤ candOf a y := by
      rw [hval y hy hne]; exact (hrise y hy hne).2 (by rw [hpc y]; exact hp)
    refine le_trans h1 (candOf_mono a b y hs1.symm ?_ ?_ (fun e _ p _ => hmono p))
    · rw [(hs1.trans hst).prob_eq y]; exact hnn.1 y hy
    · intro e he; exact hnn.2.1 y hy e (by rw [← (hs1.trans hst).needme_eq y]; exact he)
  · intro y hy hne hp
    rw [hval y hy hne, passValue, hpc y, hp, if_pos rfl]

theorem risingInv_no_wentDown (snode : Nat) (sAlpha : ℚ) (top : Bool) (il : List Nat)
    (h a : Heap) (hinv : RisingInv snode sAlpha top il h a) :
    ∀ x ∈ il, x ≠ snode → ¬ wentDown top a x := by
  intro x hx hne hw
  obtain ⟨hst, _, hpo, hcand, _⟩ := hinv
  have h1 := hcand x hx hne (by rw [← pinned_congr top hst x]; exact hw.1)
  rw [hw.2.1] at h1
  exact hw.2.2 (le_antisymm h1 (hpo x hx hne))

theorem risingInv_pass_ne (snode : Nat) (sAlpha : ℚ) (top : Bool) (il : List Nat)
    (h a : Heap) (hinv : RisingInv snode sAlpha top il h a) :
    alphaPass snode sAlpha top il a ≠ .error Fatal.alphaWentDown := by
  intro herr
  by_cases hcap : liveCount snode il ≤ tempAlphaSize
  · obtain ⟨h1, hrun, _⟩ := alphaPass_char snode sAlpha top il a hcap
      (risingInv_no_wentDown snode sAlpha top il h a hinv)
    rw [hrun] at herr; cases herr
  · rw [alphaPass_capacity snode sAlpha top il a (by omega)] at herr; cases herr

theorem risingInv_loop_ne (snode : Nat) (sAlpha : ℚ) (top : Bool) (il : List Nat) (h : Heap)
    (hnn : NonNegBucket snode il h) :
    ∀ (fuel : Nat) (a : Heap) (n : Nat), RisingInv snode sAlpha top il h a →
      alphaLoop snode sAlpha top il fuel a n ≠ .error Fatal.alphaWentDown := by
  intro fuel
  induction fuel with
  | zero => intro a n _ herr; simp [alphaLoop] at herr
  | succ fuel ih =>
    intro a n hinv herr
    rw [alphaLoop] at herr
    cases hp : alphaPass snode sAlpha top il a with
    | error e =>
      rw [hp] at herr
      simp only at herr
      exact risingInv_pass_ne snode sAlpha top il h a hinv (by rw [hp, Except.error.inj herr])
    | ok r =>
      obtain ⟨b, f⟩ := r
      rw [hp] at herr
      cases f with
      | false => simp at herr
      | true =>
        simp only at herr
        exact ih b (n + 1) (risingInv_step snode sAlpha top il h a b true hnn hinv hp).1 herr

theorem risingInv_loopState (snode : Nat) (sAlpha : ℚ) (top : Bool) (il : List Nat) (h : Heap)
    (hnn : NonNegBucket snode il h) :
    ∀ (n : Nat) (a0 a : Heap), RisingInv snode sAlpha top il h a0 →
      loopState snode sAlpha top il n a0 = some a → RisingInv snode sAlpha top il h a := by
  intro n
  induction n with
  | zero => intro a0 a hinv hl; simp only [loopState, Option.some.injEq] at hl; rw [← hl]; exact hinv
  | succ n ih =>
    intro a0 a hinv hl
    rw [loopState] at hl
    cases hp : alphaPass snode sAlpha top il a0 with
    | error e => rw [hp] at hl; simp at hl
    | ok r =>
      obtain ⟨b, f⟩ := r
      rw [hp] at hl
      cases f with
      | false => simp at hl
      | true =>
        simp only at hl
        exact ih b a (risingInv_step snode sAlpha top il h a0 b true hnn hinv hp).1 hl

/-- C18. `error("Alpha went down")` is unreachable when probabilities are
non-negative. For a bucket entered with a heap in which the start item has a
positive inside probability and holds `sAlpha = 1 / prob` as its outside
probability, every entry has a positive inside probability, every needing
edge of an entry has a non-negative probability and every finished parent
outside the bucket has a non-negative outside probability: the bucket loop
never stops with "Alpha went down", whatever the number of passes; and at
the start of every pass the loop runs, no non-pinned entry has a candidate
equal to 0 with a nonzero previous value, the pass does not stop with
"Alpha went down", and when it returns no outside probability has
decreased. -/
theorem alpha_never_goes_down (c : ChartBase) (snode : Nat) (j i : Int) (h : Heap)
    (hroot : 0 < (h snode).prob)
    (hS : (h snode).poutside = 1 / (h snode).prob)
    (hprob : ∀ x ∈ c.regs j i, 0 < (h x).prob)
    (hedge : ∀ x ∈ c.regs j i, ∀ e ∈ (h x).needme, 0 ≤ e.prob)
    (hpar : ∀ x ∈ c.regs j i, x ≠ snode → ∀ e ∈ (h x).needme, ∀ p,
      e.finishedParent = some p → p ∉ c.regs j i → 0 ≤ (h p).poutside) :
    (∀ fuel : Nat, processBucket c snode (1 / (h snode).prob) fuel j i h
      ≠ .error Fatal.alphaWentDown) ∧
    ∀ (n : Nat) (a : Heap),
      loopState snode (1 / (h snode).prob) (decide (i = 0) && decide (j = c.wrd_count_ - 1))
        (c.regs j i) n (initBucket snode (c.regs j i) h) = some a →
      (∀ x ∈ c.regs j i, x ≠ snode →
        pinned (decide (i = 0) && decide (j = c.wrd_count_ - 1)) a x = false →
        candOf a x = 0 → (a x).poutside = 0) ∧
      alphaPass snode (1 / (h snode).prob) (decide (i = 0) && decide (j = c.wrd_count_ - 1))
        (c.regs j i) a ≠ .error Fatal.alphaWentDown ∧
      ∀ (b : Heap) (f : Bool),
        alphaPass snode (1 / (h snode).prob) (decide (i = 0) && decide (j = c.wrd_count_ - 1))
          (c.regs j i) a = .ok (b, f) →
        ∀ x, (a x).poutside ≤ (b x).poutside := by
  have hsA : (0 : ℚ) ≤ 1 / (h snode).prob := div_nonneg zero_le_one hroot.le
  have hnn : NonNegBucket snode (c.regs j i) h := by
    refine ⟨hprob, hedge, ?_⟩
    intro x hx hne e he p hp hP
    by_cases hin : p ∈ c.regs j i
    · have hps : p = snode := by
        by_contra hc; exact hP ⟨hin, hc⟩
      rw [hps, hS]; exact hsA
    · exact hpar x hx hne e he p hp hin
  have hinit := risingInv_init snode (1 / (h snode).prob)
    (decide (i = 0) && decide (j = c.wrd_count_ - 1)) (c.regs j i) h hnn hsA
  refine ⟨fun fuel => risingInv_loop_ne snode _ _ _ h hnn fuel _ 0 hinit, ?_⟩
  intro n a hreach
  have hinv := risingInv_loopState snode _ _ _ h hnn n _ a hinit hreach
  refine ⟨?_, risingInv_pass_ne snode _ _ _ h a hinv, ?_⟩
  · intro x hx hne hpin hc
    by_contra hpo
    exact risingInv_no_wentDown snode _ _ _ h a hinv x hx hne ⟨hpin, hc, hpo⟩
  · intro b f hpass
    exact (risingInv_step snode _ _ _ h a b f hnn hinv hpass).2

/-- Witness for C18: the top bucket `[0, 1, 2]` of `exChartPin`, entered with
the start item `0` holding `sAlpha = 1`; item `2` has its parent `1` in the
bucket. -/
theorem alpha_never_goes_down_witness :
    processBucket exChartPin 0 (1 / ((setPoutside exHeapPin 0 1) 0).prob) 3 0 0
      (setPoutside exHeapPin 0 1) ≠ .error Fatal.alphaWentDown :=
  (alpha_never_goes_down exChartPin 0 0 0 (setPoutside exHeapPin 0 1)
    (by simp [setPoutside, exHeapPin])
    (by simp [setPoutside, exHeapPin])
    (by
      intro x _
      by_cases h0 : x = 0
      · simp [setPoutside, exHeapPin, h0]
      · by_cases h1 : x = 1
        · simp [setPoutside, exHeapPin, h1]
        · simp [setPoutside, exHeapPin, h0, h1])
    (by
      intro x _ e he
      by_cases h0 : x = 0
      · simp [setPoutside, exHeapPin, h0] at he
      · by_cases h1 : x = 1
        · simp [setPoutside, exHeapPin, h1] at he
        · have he1 : e = Edge.mk 0 1 exRoot 1 (some 1) := by
            simpa [setPoutside, exHeapPin, h0, h1] using he
          rw [he1]; norm_num)
    (by
      intro x _ _ e he p hp hnot
      by_cases h0 : x = 0
      · simp [setPoutside, exHeapPin, h0] at he
      · by_cases h1 : x = 1
        · simp [setPoutside, exHeapPin, h1] at he
        · have he1 : e = Edge.mk 0 1 exRoot 1 (some 1) := by
            simpa [setPoutside, exHeapPin, h0, h1] using he
          rw [he1] at hp
          have hp1 : p = 1 := by simpa using hp.symm
          exact absurd (by simp [exChartPin, hp1]) hnot)).1 3

/-! ### Outside pass: a second run on a chart with consistent spans (C2) -/

theorem spanOK_spec (c : ChartBase) (h : Heap) (hsp : spanOK c h = true) :
    ∀ bk ∈ bucketOrder c.wrd_count_, ∀ itm ∈ c.regs bk.1 bk.2,
      (h itm).start = bk.2 ∧ (h itm).finish = bk.2 + bk.1 + 1 ∧
      ∀ e ∈ (h itm).needme, ∀ p, e.finishedParent = some p →
        (h p).start = e.start ∧ (h p).finish = e.loc ∧
        e.start ≤ (h itm).start ∧ (h itm).finish ≤ e.loc := by
  intro bk hbk itm hitm
  simp only [spanOK, List.all_eq_true, Bool.and_eq_true, decide_eq_true_eq] at hsp
  obtain ⟨⟨h1, h2⟩, h3⟩ := hsp bk hbk itm hitm
  refine ⟨h1, h2, ?_⟩
  intro e he p hp
  have h4 := h3 e he
  rw [hp] at h4
  simp only [Bool.and_eq_true, decide_eq_true_eq] at h4
  exact ⟨h4.1.1.1, h4.1.1.2, h4.1.2, h4.2⟩

theorem parentsWithin_notAfter_of_spanOK (c : ChartBase) (h : Heap)
    (hsp : spanOK c h = true) (hpar : parentsWithin spanAbove c h = true) :
    parentsWithin notAfter c h = true := by
  simp only [parentsWithin, List.all_eq_true]
  intro bk hbk itm hitm e he
  cases hp : e.finishedParent with
  | none => rfl
  | some p =>
    obtain ⟨b1, hb1, hin, hab⟩ := parentsWithin_spec spanAbove c h hpar bk hbk itm hitm e he p hp
    obtain ⟨hs, hf, hed⟩ := spanOK_spec c h hsp bk hbk itm hitm
    obtain ⟨hps, hpf, hle1, hle2⟩ := hed e he p hp
    obtain ⟨hs1, hf1, -⟩ := spanOK_spec c h hsp b1 hb1 p hin
    simp only [List.any_eq_true, Bool.and_eq_true, decide_eq_true_eq]
    refine ⟨b1, hb1, hin, ?_⟩
    simp only [spanAbove, decide_eq_true_eq] at hab
    simp only [notAfter, Bool.or_eq_true, Bool.and_eq_true, decide_eq_true_eq]
    omega

theorem set_Alphas_warned (env : TermEnv) (fuel : Nat) (c : ChartBase) (h h1 : Heap)
    (hw : set_Alphas env fuel c h = .warned h1) : h1 = h := by
  unfold set_Alphas at hw
  split at hw
  · exact (Outcome.warned.inj hw).symm
  · split at hw
    · exact (Outcome.warned.inj hw).symm
    · rcases runBuckets_outcome c _ _ fuel _ _ _ with ⟨a, ps, hr⟩ | hr | hr | hr <;>
        rw [hr] at hw <;> cases hw

/-- C2. `set_Alphas` is idempotent on a converged chart. Take a chart with
consistent spans in which every finished parent of a needing edge of a
bucket entry lies in a visited bucket of the same or a strictly greater span
length, and on which `set_Alphas` terminates normally (it returns after the
warning or completes the pass). Running it a second time, on the heap the
first run left, gives every item the outside probability it had after the
first run, with the same pass counts; and when the first run completes, the
second returns the very same heap, and the outside probability of every
chart item after a run does not depend on the outside probabilities held
before the call. -/
theorem set_Alphas_second_run_same (env : TermEnv) (fuel : Nat) (c : ChartBase) (h : Heap)
    (hspan : spanOK c h = true)
    (hpar : parentsWithin spanAbove c h = true)
    (hok : (set_Alphas env fuel c h).fatal? = none) :
    (∀ x, (set_Alphas env fuel c ((set_Alphas env fuel c h).heapOr h)).poutside? x
      = (set_Alphas env fuel c h).poutside? x) ∧
    (∀ x, (set_Alphas env fuel c h).poutside? x
      = some (((set_Alphas env fuel c h).heapOr h) x).poutside) ∧
    (set_Alphas env fuel c ((set_Alphas env fuel c h).heapOr h)).passes?
      = (set_Alphas env fuel c h).passes? ∧
    (∀ (h1 : Heap) (ps : List Nat), set_Alphas env fuel c h = .done h1 ps →
      set_Alphas env fuel c h1 = .done h1 ps ∧
      ∀ h0, SameStatic h0 h →
        ∃ h2, set_Alphas env fuel c h0 = .done h2 ps ∧
          ∀ bk ∈ bucketOrder c.wrd_count_, ∀ x ∈ c.regs bk.1 bk.2,
            (h2 x).poutside = (h1 x).poutside) := by
  have hna := parentsWithin_notAfter_of_spanOK c h hspan hpar
  have hdone : ∀ (h1 : Heap) (ps : List Nat), set_Alphas env fuel c h = .done h1 ps →
      set_Alphas env fuel c h1 = .done h1 ps ∧
      ∀ h0, SameStatic h0 h →
        ∃ h2, set_Alphas env fuel c h0 = .done h2 ps ∧
          ∀ bk ∈ bucketOrder c.wrd_count_, ∀ x ∈ c.regs bk.1 bk.2,
            (h2 x).poutside = (h1 x).poutside := by
    intro h1 ps hrun
    obtain ⟨h2, -, h3⟩ := set_Alphas_idempotent env fuel c h h1 ps hrun hna
    exact ⟨h2, h3⟩
  cases hr : set_Alphas env fuel c h with
  | warned h1 =>
    have h1eq := set_Alphas_warned env fuel c h h1 hr
    subst h1eq
    refine ⟨fun x => ?_, fun x => rfl, ?_, fun h2 ps hrun => ?_⟩
    · simp only [Outcome.heapOr]; rw [hr]
    · simp only [Outcome.heapOr]; rw [hr]
    · cases hrun
  | done h1 ps =>
    have h2 := (hdone h1 ps hr).1
    refine ⟨fun x => ?_, fun x => rfl, ?_, fun h3 qs hrun => ?_⟩
    · simp only [Outcome.heapOr]; rw [h2]
    · simp only [Outcome.heapOr]; rw [h2]
    · exact hdone h3 qs (hr.trans hrun)
  | fatal f =>
    rw [hr] at hok
    simp [Outcome.fatal?] at hok

/-- Witness for C2: in `exChart2` with the heap `exHeap2b` the spans are
consistent and both non-root items have the root item as their only finished
parent; the second run returns the heap of the first with the same pass
counts. -/
theorem set_Alphas_second_run_same_witness :
    set_Alphas exEnv 5 exChart2 ((set_Alphas exEnv 5 exChart2 exHeap2b).heapOr exHeap2b)
      = .done ((set_Alphas exEnv 5 exChart2 exHeap2b).heapOr exHeap2b) [1, 1, 2, 2, 1] :=
  ((set_Alphas_second_run_same exEnv 5 exChart2 exHeap2b (by decide) (by decide)
    (by decide!)).2.2.2 ((set_Alphas exEnv 5 exChart2 exHeap2b).heapOr exHeap2b)
    [1, 1, 2, 2, 1] (Outcome.eq_done_of_passes _ exHeap2b _ (by decide!))).1

end ChartBase
